import Mathlib

/-!
Verification development for the pySELL term engine (web/src/math.js and
web/src/math_ODE.js): the lexer, recursive-descent parser, complex-number
evaluator, randomized equivalence tester, Heap's-algorithm permutation
generator and the derivative-free 1-D minimizer.

Modelling conventions:
* JavaScript 64-bit floats are modelled by real numbers (`ℝ`); the rounding
  of individual float operations is not modelled.  Numbers appearing in
  syntax trees (filled in by `parseFloat` on decimal tokens) are modelled by
  rationals (`ℚ`), which is exact for every decimal token.
* The special float values `NaN`/`Infinity` are modelled separately by the
  type `JsF` below, together with a second evaluator `Term.evalF` over that
  domain, used for the claims about NaN/Inf propagation.  In the real-number
  evaluator `Term.evalNode`, division by zero takes Mathlib's junk value
  (`x / 0 = 0`); the NaN-sensitive claims are settled against `Term.evalF`.
* `Math.random()` is modelled by an explicit stream `rnd : ℕ → ℝ` of draws,
  consumed left to right exactly where the source calls `Math.random()`;
  that each draw lies in `[0,1)` becomes a hypothesis on the stream.
* JavaScript exceptions become `Except` values; the thrown message strings
  become structured error constructors carrying the same data.
* Strings are processed as `List Char` (`String.data`); the lexer position
  `this.pos` becomes the remaining suffix of the input.
-/

/-- Complex values: the pair (re, im) of a `TermNode` viewed as a value. -/
abbrev Cplx : Type := ℝ × ℝ

/-- Evaluation epsilon from `Term.eval` (`const EPS = 1e-9`). -/
noncomputable def evalEPS : ℝ := 1 / 10 ^ 9

/-- `Math.atan2(y, x)`, via the argument of the complex number `x + y*I`
(Mathlib's `Complex.arg` agrees with IEEE `atan2` on the reals). -/
noncomputable def jsAtan2 (y x : ℝ) : ℝ := Complex.arg ⟨x, y⟩

/-- Complex addition as computed in `Term.eval`, case `"+"`. -/
noncomputable def cAdd (u v : Cplx) : Cplx := (u.1 + v.1, u.2 + v.2)

/-- Complex subtraction as computed in `Term.eval`, case `"-"`. -/
noncomputable def cSub (u v : Cplx) : Cplx := (u.1 - v.1, u.2 - v.2)

/-- Complex multiplication as computed in `Term.eval`, case `"*"`. -/
noncomputable def cMul (u v : Cplx) : Cplx :=
  (u.1 * v.1 - u.2 * v.2, u.1 * v.2 + u.2 * v.1)

/-- Complex division as computed in `Term.eval`, case `"/"`:
`t1 = v.re^2 + v.im^2`, quotient formula over `t1`.  A zero denominator is
not special-cased in the source (it yields NaN there); here it yields the
real-division junk value 0. -/
noncomputable def cDiv (u v : Cplx) : Cplx :=
  ((u.1 * v.1 + u.2 * v.2) / (v.1 * v.1 + v.2 * v.2),
   (u.2 * v.1 - u.1 * v.2) / (v.1 * v.1 + v.2 * v.2))

/-- Unary minus, case `".-"`. -/
noncomputable def cNeg (u : Cplx) : Cplx := (-u.1, -u.2)

/-- Case `"abs"`: `(sqrt(re^2+im^2), 0)`. -/
noncomputable def cAbs (u : Cplx) : Cplx := (Real.sqrt (u.1 * u.1 + u.2 * u.2), 0)

/-- Case `"ln"`/`"log"`: `ln|u| + i*arg(u)`, where an imaginary part below
`EPS` in magnitude is flushed to `0` first (the source comment: prevent
`-0` and similar). -/
noncomputable def cLn (u : Cplx) : Cplx :=
  (Real.log (Real.sqrt (u.1 * u.1 + u.2 * u.2)),
   jsAtan2 (if |u.2| < evalEPS then 0 else u.2) u.1)

/-- Case `"exp"`: `(e^re * cos im, e^re * sin im)`. -/
noncomputable def cExp (u : Cplx) : Cplx :=
  (Real.exp u.1 * Real.cos u.2, Real.exp u.1 * Real.sin u.2)

/-- Case `"^"`: the source builds the transient tree `exp(v * ln(u))` on the
already evaluated operands and evaluates it recursively; on constant
operands that recursive evaluation is exactly this composition of the
`exp`, `*` and `ln` case formulas. -/
noncomputable def cPow (u v : Cplx) : Cplx := cExp (cMul v (cLn u))

/-- Case `"sqrt"`: transient tree `u ^ const(0.5)`. -/
noncomputable def cSqrt (u : Cplx) : Cplx := cPow u (1 / 2, 0)

/-- Case `"sin"`. -/
noncomputable def cSin (u : Cplx) : Cplx :=
  (Real.sin u.1 * Real.cosh u.2, Real.cos u.1 * Real.sinh u.2)

/-- Case `"cos"`. -/
noncomputable def cCos (u : Cplx) : Cplx :=
  (Real.cos u.1 * Real.cosh u.2, -Real.sin u.1 * Real.sinh u.2)

/-- Case `"tan"`: `t1 = cos^2 re + sinh^2 im`, component formulas over `t1`. -/
noncomputable def cTan (u : Cplx) : Cplx :=
  ((Real.sin u.1 * Real.cos u.1) /
      (Real.cos u.1 * Real.cos u.1 + Real.sinh u.2 * Real.sinh u.2),
   (Real.sinh u.2 * Real.cosh u.2) /
      (Real.cos u.1 * Real.cos u.1 + Real.sinh u.2 * Real.sinh u.2))

/-- Case `"cot"`: `t1 = sin^2 re + sinh^2 im`, component formulas over `t1`. -/
noncomputable def cCot (u : Cplx) : Cplx :=
  ((Real.sin u.1 * Real.cos u.1) /
      (Real.sin u.1 * Real.sin u.1 + Real.sinh u.2 * Real.sinh u.2),
   -((Real.sinh u.2 * Real.cosh u.2) /
      (Real.sin u.1 * Real.sin u.1 + Real.sinh u.2 * Real.sinh u.2)))

/-- Case `"sinc"`: transient tree `sin(u) / u`. -/
noncomputable def cSinc (u : Cplx) : Cplx := cDiv (cSin u) u

/-- Case `"acos"`: transient tree `(0-1i) * ln( (0+1i) + sqrt(1 - u*u) )`
(transcribed from the source as written, which adds `i` rather than `u`
inside the logarithm). -/
noncomputable def cAcos (u : Cplx) : Cplx :=
  cMul (0, -1) (cLn (cAdd (0, 1) (cSqrt (cSub (1, 0) (cMul u u)))))

/-- Case `"acosh"`: transient tree `u * sqrt(u*u - 1)` (as written in the
source, a `*` at the root). -/
noncomputable def cAcosh (u : Cplx) : Cplx :=
  cMul u (cSqrt (cSub (cMul u u) (1, 0)))

/-- Case `"asin"`: transient tree `(0-1i) * ln( (0+1i)*u + sqrt(1 - u*u) )`. -/
noncomputable def cAsin (u : Cplx) : Cplx :=
  cMul (0, -1) (cLn (cAdd (cMul (0, 1) u) (cSqrt (cSub (1, 0) (cMul u u)))))

/-- Case `"asinh"`: transient tree `u * sqrt(u*u + 1)` (as written in the
source, a `*` at the root). -/
noncomputable def cAsinh (u : Cplx) : Cplx :=
  cMul u (cSqrt (cAdd (cMul u u) (1, 0)))

/-- Case `"atan"`: transient tree
`(0+0.5i) * ln( ((0+1i) - (0+1i)*u) / ((0+1i) + (0+1i)*u) )`. -/
noncomputable def cAtan (u : Cplx) : Cplx :=
  cMul (0, 1 / 2)
    (cLn (cDiv (cSub (0, 1) (cMul (0, 1) u)) (cAdd (0, 1) (cMul (0, 1) u))))

/-- Case `"atanh"`: transient tree `(0.5) * ln( (1+u) / (1-u) )`. -/
noncomputable def cAtanh (u : Cplx) : Cplx :=
  cMul (1 / 2, 0) (cLn (cDiv (cAdd (1, 0) u) (cSub (1, 0) u)))

/-- Case `"cosh"`: transient tree `0.5 * (exp(u) + exp(-u))`. -/
noncomputable def cCosh (u : Cplx) : Cplx :=
  cMul (1 / 2, 0) (cAdd (cExp u) (cExp (cNeg u)))

/-- Case `"sinh"`: transient tree `0.5 * (exp(u) - exp(-u))`. -/
noncomputable def cSinh (u : Cplx) : Cplx :=
  cMul (1 / 2, 0) (cSub (cExp u) (cExp (cNeg u)))

/-- Case `"tanh"`: transient tree `(exp(u) - exp(-u)) / (exp(u) + exp(-u))`. -/
noncomputable def cTanh (u : Cplx) : Cplx :=
  cDiv (cSub (cExp u) (cExp (cNeg u))) (cAdd (cExp u) (cExp (cNeg u)))

/-- Case `"log10"`: transient tree `ln(u) / ln(const(10))`. -/
noncomputable def cLog10 (u : Cplx) : Cplx := cDiv (cLn u) (cLn (10, 0))

/-- Case `"log2"`: transient tree `ln(u) / ln(const(2))`. -/
noncomputable def cLog2 (u : Cplx) : Cplx := cDiv (cLn u) (cLn (2, 0))

/-- Case `"ceil"`: `Math.ceil` on both components. -/
noncomputable def cCeil (u : Cplx) : Cplx := ((⌈u.1⌉ : ℤ), (⌈u.2⌉ : ℤ))

/-- Case `"floor"`: `Math.floor` on both components. -/
noncomputable def cFloor (u : Cplx) : Cplx := ((⌊u.1⌋ : ℤ), (⌊u.2⌋ : ℤ))

/-- Case `"round"`: `Math.round` on both components (JS rounds half up,
which is Mathlib's `round`). -/
noncomputable def cRound (u : Cplx) : Cplx := ((round u.1 : ℤ), (round u.2 : ℤ))


/-- `String.startsWith`, via the character list (equivalent on every
string; stated this way for direct reasoning). -/
def strStarts (s pre : String) : Bool := pre.data.isPrefixOf s.data

/-- `String.drop`, via the character list. -/
def strDrop (s : String) (n : ℕ) : String := String.mk (s.data.drop n)

/-- A node of the expression tree (class `TermNode`): an operator string, the
list of children, and the two numeric fields (only meaningful on `"const"`
nodes).  `explicitParentheses` records literal source parentheses. -/
inductive TermNode : Type where
  | mk (op : String) (c : List TermNode) (re im : ℚ)
       (explicitParentheses : Bool)

mutual

/-- Structural equality of nodes (decidable equality is built from it). -/
def TermNode.beq : TermNode → TermNode → Bool
  | .mk o1 c1 r1 i1 e1, .mk o2 c2 r2 i2 e2 =>
    o1 == o2 && TermNode.beqList c1 c2 && r1 == r2 && i1 == i2 && e1 == e2

/-- Structural equality of node lists. -/
def TermNode.beqList : List TermNode → List TermNode → Bool
  | [], [] => true
  | a :: as, b :: bs => TermNode.beq a b && TermNode.beqList as bs
  | _, _ => false

end

/-- Strong induction over the tree: to prove `P t` it is enough to prove it
at every node assuming it on all children. -/
theorem TermNode.inductionOn {P : TermNode → Prop}
    (h : ∀ op c re im ep, (∀ u, u ∈ c → P u) → P (.mk op c re im ep)) :
    ∀ t, P t
  | .mk op c re im ep =>
    h op c re im ep (fun u hu =>
      have : sizeOf u < sizeOf (TermNode.mk op c re im ep) := by
        have := List.sizeOf_lt_of_mem hu
        simp only [TermNode.mk.sizeOf_spec]
        omega
      TermNode.inductionOn h u)
termination_by t => sizeOf t

/-- `TermNode.beq` decides equality. -/
theorem TermNode.beq_iff : ∀ a b : TermNode, TermNode.beq a b = true ↔ a = b := by
  intro a
  induction a using TermNode.inductionOn with
  | h op c re im ep ih =>
    intro b
    obtain ⟨o2, c2, r2, i2, e2⟩ := b
    rw [TermNode.beq]
    simp only [Bool.and_eq_true, beq_iff_eq, TermNode.mk.injEq]
    constructor
    · rintro ⟨⟨⟨⟨h1, h2⟩, h3⟩, h4⟩, h5⟩
      refine ⟨h1, ?_, h3, h4, h5⟩
      clear h1 h3 h4 h5
      induction c generalizing c2 with
      | nil => cases c2 with
        | nil => rfl
        | cons x xs => simp [TermNode.beqList] at h2
      | cons x xs ihl =>
        cases c2 with
        | nil => simp [TermNode.beqList] at h2
        | cons y ys =>
          rw [TermNode.beqList, Bool.and_eq_true] at h2
          have hx := (ih x (by simp) y).mp h2.1
          have hxs := ihl (fun u hu => ih u (by simp [hu])) ys h2.2
          rw [hx, hxs]
    · rintro ⟨h1, h2, h3, h4, h5⟩
      subst h1 h2 h3 h4 h5
      refine ⟨⟨⟨⟨rfl, ?_⟩, rfl⟩, rfl⟩, rfl⟩
      induction c with
      | nil => rfl
      | cons x xs ihl =>
        rw [TermNode.beqList, Bool.and_eq_true]
        exact ⟨(ih x (by simp) x).mpr rfl, ihl (fun u hu => ih u (by simp [hu]))⟩

instance : DecidableEq TermNode := fun a b =>
  decidable_of_iff (TermNode.beq a b = true) (TermNode.beq_iff a b)

/-- The operator string of a node. -/
def TermNode.op : TermNode → String
  | .mk o _ _ _ _ => o

/-- The children of a node. -/
def TermNode.c : TermNode → List TermNode
  | .mk _ c _ _ _ => c

/-- The real part of a node. -/
def TermNode.re : TermNode → ℚ
  | .mk _ _ r _ _ => r

/-- The imaginary part of a node. -/
def TermNode.im : TermNode → ℚ
  | .mk _ _ _ i _ => i

/-- `TermNode.const(re, im)`: a constant leaf. -/
def TermNode.constNode (re : ℚ) (im : ℚ := 0) : TermNode :=
  .mk "const" [] re im false

/-- A `Term` owns a root node (the scanner/parser fields of the source class
live in `PState` below while parsing). -/
structure Term : Type where
  root : TermNode
deriving DecidableEq

/-- The binary operator strings of `Term.eval` (cases `"+"` … `"^"`). -/
def binOps : List String := ["+", "-", "*", "/", "^"]

/-- The unary operator strings of `Term.eval` (case list `".-"` … `"tanh"`). -/
def unOps : List String :=
  [".-", "abs", "acos", "acosh", "asin", "asinh", "atan", "atanh", "ceil",
   "cos", "cosh", "cot", "exp", "floor", "ln", "log", "log10", "log2",
   "round", "sin", "sinc", "sinh", "sqrt", "tan", "tanh"]

/-- The inner `switch` of the binary case of `Term.eval`. -/
noncomputable def binVal (op : String) (u v : Cplx) : Cplx :=
  if op = "+" then cAdd u v
  else if op = "-" then cSub u v
  else if op = "*" then cMul u v
  else if op = "/" then cDiv u v
  else cPow u v

/-- The inner `switch` of the unary case of `Term.eval`.  For the operators
whose source case builds a transient tree on the evaluated operand and
recurses, the value is the corresponding composition of case formulas
(`cPow`, `cSqrt`, …), which is what that recursion computes. -/
noncomputable def unVal (op : String) (u : Cplx) : Cplx :=
  if op = ".-" then cNeg u
  else if op = "abs" then cAbs u
  else if op = "acos" then cAcos u
  else if op = "acosh" then cAcosh u
  else if op = "asin" then cAsin u
  else if op = "asinh" then cAsinh u
  else if op = "atan" then cAtan u
  else if op = "atanh" then cAtanh u
  else if op = "ceil" then cCeil u
  else if op = "cos" then cCos u
  else if op = "cosh" then cCosh u
  else if op = "cot" then cCot u
  else if op = "exp" then cExp u
  else if op = "floor" then cFloor u
  else if op = "ln" then cLn u
  else if op = "log" then cLn u
  else if op = "log10" then cLog10 u
  else if op = "log2" then cLog2 u
  else if op = "round" then cRound u
  else if op = "sin" then cSin u
  else if op = "sinc" then cSinc u
  else if op = "sinh" then cSinh u
  else if op = "sqrt" then cSqrt u
  else if op = "tan" then cTan u
  else cTanh u

/-- Errors thrown by `Term.eval`: the `"eval-error: unknown variable"` throw,
the `"UNIMPLEMENTED eval"` throw of the default branch, and the JavaScript
`TypeError` that reading `c[0].op`/`c[1].op` off a too-short operand list
would raise. -/
inductive EvalErr : Type where
  | unknownVar (id : String)
  | unimplemented (op : String)
  | typeErr
deriving DecidableEq

/-- True exactly on the unknown-variable error. -/
def EvalErr.isUnknownVar : EvalErr → Bool
  | .unknownVar _ => true
  | _ => false

/-- A variable binding (the `dict` parameter of `Term.eval`): the source
stores constant `TermNode`s; only their `(re, im)` value is ever read, so a
binding maps a name to a complex value, or `none` when absent. -/
def Ctx : Type := String → Option Cplx

/-- The empty binding (`{}`). -/
def emptyCtx : Ctx := fun _ => none

/-- `dict[v] = value` (JavaScript object update). -/
def ctxSet (d : Ctx) (v : String) (x : Cplx) : Ctx :=
  fun w => if w = v then some x else d w

/-- `Term.eval(dict, node)`: recursive evaluation of a node to a complex
value.  Structure mirrors the source `switch`: `"const"`, the five binary
operators, the 25 unary operators, then the default branch resolving
`var:` nodes (`pi`, `e`, `i`, `true`, `false`, then `dict`) and throwing
`UNIMPLEMENTED` on anything else. -/
noncomputable def evalNode (dict : Ctx) : TermNode → Except EvalErr Cplx
  | .mk op c re im _ =>
    if op = "const" then .ok ((re : ℝ), (im : ℝ))
    else if op ∈ binOps then
      match c with
      | a :: b :: _ => do
          let u ← evalNode dict a
          let v ← evalNode dict b
          .ok (binVal op u v)
      | _ => .error .typeErr
    else if op ∈ unOps then
      match c with
      | a :: _ => do
          let u ← evalNode dict a
          .ok (unVal op u)
      | _ => .error .typeErr
    else if strStarts op "var:" then
      let id := strDrop op 4
      if id = "pi" then .ok ((Real.pi, 0) : Cplx)
      else if id = "e" then .ok ((Real.exp 1, 0) : Cplx)
      else if id = "i" then .ok ((0, 1) : Cplx)
      else if id = "true" then .ok ((1, 0) : Cplx)
      else if id = "false" then .ok ((0, 0) : Cplx)
      else match dict id with
        | some x => .ok x
        | none => .error (.unknownVar id)
    else .error (.unimplemented op)

/-- `Term.isNum(ch)`: a decimal digit. -/
def isNumCh (ch : Char) : Bool := '0' ≤ ch ∧ ch ≤ '9'

/-- `Term.isAlpha(ch)`: an ASCII letter or the underscore. -/
def isAlphaCh (ch : Char) : Bool :=
  ('A' ≤ ch ∧ ch ≤ 'Z') ∨ ('a' ≤ ch ∧ ch ≤ 'z') ∨ ch = '_'

/-- The delimiter characters of `Term.next` (the string
`"^%#*$()[]{},.:;+-*/_!<>=?|\t\n "`). -/
def delimChars : List Char :=
  ['^', '%', '#', '*', '$', '(', ')', '[', ']', '\x7b', '\x7d', ',', '.',
   ':', ';', '+', '-', '*', '/', '_', '!', '<', '>', '=', '?', '|',
   '\t', '\n', ' ']

/-- The whitespace characters of `Term.next` (the string `"\t\n "`). -/
def wsChars : List Char := ['\t', '\n', ' ']

/-- Phase (a) of `Term.next`: skip leading whitespace, recording whether any
was skipped. -/
def skipWs : List Char → Bool × List Char
  | [] => (false, [])
  | ch :: rest =>
    if ch ∈ wsChars then (true, (skipWs rest).2) else (false, ch :: rest)

/-- The boundary test of `Term.next`: a letter while scanning a number or
vice versa (comparing against the FIRST character of the token read so
far, as the source does). -/
def boundaryStop (tok : List Char) (ch : Char) : Bool :=
  match tok with
  | [] => false
  | t0 :: _ => (isNumCh t0 && isAlphaCh ch) || (isAlphaCh t0 && isNumCh ch)

/-- Phase (b) of `Term.next`: accumulate the token.  Returns the token and
the remaining input.  Mirrors the source loop: the num/alpha boundary stops
the token unless the token so far is exactly `"C"`; a delimiter stops a
non-empty token, and is itself a one-character token otherwise. -/
def scanTok (tok : List Char) : List Char → List Char × List Char
  | [] => (tok, [])
  | ch :: rest =>
    if boundaryStop tok ch ∧ tok ≠ ['C'] then (tok, ch :: rest)
    else if ch ∈ delimChars then
      if tok ≠ [] then (tok, ch :: rest)
      else if ch ∈ wsChars then (tok, rest)
      else ([ch], rest)
    else scanTok (tok ++ [ch]) rest

/-- Scanning never lengthens the remaining input. -/
theorem scanTok_length_le :
    ∀ rest tok, ((scanTok tok rest).2).length ≤ rest.length := by
  intro rest
  induction rest with
  | nil => intro tok; simp [scanTok]
  | cons ch rest ih =>
    intro tok
    rw [scanTok]
    split
    · simp
    · split
      · split
        · simp
        · split
          · simp
          · simp
      · exact le_trans (ih _) (Nat.le_succ _)

/-- Scanning a token from an empty accumulator consumes input whenever it
returns a non-empty token. -/
theorem scanTok_lt :
    ∀ rest, (scanTok [] rest).1 ≠ [] →
      ((scanTok [] rest).2).length < rest.length := by
  intro rest h
  cases rest with
  | nil => simp [scanTok] at h
  | cons ch rest =>
    rw [scanTok] at h ⊢
    rw [if_neg (by simp [boundaryStop])] at h ⊢
    by_cases hd : ch ∈ delimChars
    · rw [if_pos hd] at h ⊢
      rw [if_neg (by simp)] at h ⊢
      by_cases hw : ch ∈ wsChars
      · rw [if_pos hw] at h
        simp at h
      · rw [if_neg hw]
        simp
    · rw [if_neg hd] at h ⊢
      exact lt_of_le_of_lt (scanTok_length_le rest [ch]) (by simp)

/-- Whitespace skipping never lengthens the input. -/
theorem skipWs_length_le : ∀ l : List Char, ((skipWs l).2).length ≤ l.length := by
  intro l
  induction l with
  | nil => simp [skipWs]
  | cons ch rest ih =>
    rw [skipWs]
    split
    · simpa using le_trans ih (Nat.le_succ _)
    · simp

/-- The fuel-indexed token stream: repeated `Term.next()` until the empty
token signals the end. -/
def tokenizeF : ℕ → List Char → List (List Char)
  | 0, _ => []
  | fuel + 1, input =>
    let t := scanTok [] (skipWs input).2
    if t.1 = [] then [] else t.1 :: tokenizeF fuel t.2

/-- The token stream of an input (this is the loop of the `// lexer test`
block of `Term.parse`, and the reference semantics of the lexer for the
claims).  Each emitted token consumes at least one character
(`scanTok_lt`), so fuel `length + 1` is never exhausted. -/
def tokenize (input : List Char) : List (List Char) :=
  tokenizeF (input.length + 1) input

/-- `tokenize` on a `String`, tokens as `String`s. -/
def tokenizeStr (s : String) : List String :=
  (tokenize s.data).map String.mk

/-- The scanner state of a `Term` while parsing: the remaining input
(`this.src`/`this.pos`), the current token (`this.token`) and the
whitespace flag (`this.skippedWhiteSpace`). -/
structure PState : Type where
  rest : List Char
  tok : List Char
  sws : Bool
deriving DecidableEq

/-- `this.next()`: advance to the next token. -/
def pnextFull (st : PState) : PState :=
  let s := skipWs st.rest
  let t := scanTok [] s.2
  ⟨t.2, t.1, s.1⟩

/-- `this.next(numChars)`: consume only the first `numChars` characters of
the current token when it is longer, else advance to the next token. -/
def pnextN (n : ℕ) (st : PState) : PState :=
  if 0 < n ∧ n < st.tok.length then ⟨st.rest, st.tok.drop n, false⟩
  else pnextFull st

/-- The digit-string value (used by the `parseFloat` model). -/
def digitsVal (ds : List Char) : ℕ :=
  ds.foldl (fun a c => a * 10 + (c.toNat - 48)) 0

/-- JavaScript `parseFloat`, modelled exactly on the token shapes the parser
feeds it: a leading digit run, optionally followed by `'.'` and a further
token whose leading digit run is the fraction (any trailing non-digits are
ignored, as `parseFloat` does).  Values are exact rationals; the float
rounding of `parseFloat` is not modelled. -/
def jsParseFloat (v : List Char) : ℚ :=
  let ds := v.takeWhile isNumCh
  let ip : ℚ := digitsVal ds
  match v.dropWhile isNumCh with
  | '.' :: r2 =>
    let fs := r2.takeWhile isNumCh
    ip + (digitsVal fs : ℚ) / (10 : ℚ) ^ fs.length
  | _ => ip

/-- The function-name list of `Term.fun1()`, in source order. -/
def fun1List : List String :=
  ["abs", "acos", "acosh", "asin", "asinh", "atan", "atanh", "ceil", "cos",
   "cosh", "cot", "exp", "floor", "ln", "log", "log10", "log2", "round",
   "sin", "sinc", "sinh", "sqrt", "tan", "tanh"]

/-- `Term.fun1()`: the first list entry that prefixes the lower-cased
current token, or `""`. -/
def fun1 (st : PState) : String :=
  match fun1List.find? (fun f => f.data.isPrefixOf (st.tok.map Char.toLower)) with
  | some f => f
  | none => ""

/-- Parse errors: the `throw`s of the parser (`"expected unary"`,
`"expected ')'"`, `"expected '|'"`, `"remaining tokens: …"`) plus fuel
exhaustion of the model (the source recursion is unbounded; `Term.parse`
below supplies fuel that is never exhausted on inputs of its length). -/
inductive ParseErr : Type where
  | expectedUnary
  | expectedClosingParen
  | expectedClosingBar
  | remainingTokens (tok : String)
  | outOfFuel
deriving DecidableEq

/-- Set `explicitParentheses` (the parser mutates the node in place). -/
def TermNode.setEP : TermNode → TermNode
  | .mk o c r i _ => .mk o c r i true

mutual

/-- `parseExpr(stopAtSpace)`. -/
def parseExpr : ℕ → Bool → PState → Except ParseErr (TermNode × PState)
  | 0, _, _ => .error .outOfFuel
  | fuel + 1, sas, st => parseAdd fuel sas st

/-- `parseAdd(stopAtSpace)`: `mul { ("+"|"-") mul }`. -/
def parseAdd : ℕ → Bool → PState → Except ParseErr (TermNode × PState)
  | 0, _, _ => .error .outOfFuel
  | fuel + 1, sas, st => do
    let r ← parseMul fuel sas st
    parseAddLoop fuel sas r.1 r.2

/-- The `while` loop of `parseAdd`. -/
def parseAddLoop : ℕ → Bool → TermNode → PState → Except ParseErr (TermNode × PState)
  | 0, _, _, _ => .error .outOfFuel
  | fuel + 1, sas, node, st =>
    if st.tok = ['+'] ∨ st.tok = ['-'] then
      if sas ∧ st.sws then .ok (node, st)
      else do
        let op := String.mk st.tok
        let r ← parseMul fuel sas (pnextFull st)
        parseAddLoop fuel sas (.mk op [node, r.1] 0 0 false) r.2
    else .ok (node, st)

/-- `parseMul(stopAtSpace)`: `pow { ("*"|"/"|ε) pow }` with implicit
multiplication. -/
def parseMul : ℕ → Bool → PState → Except ParseErr (TermNode × PState)
  | 0, _, _ => .error .outOfFuel
  | fuel + 1, sas, st => do
    let r ← parsePow fuel sas st
    parseMulLoop fuel sas r.1 r.2

/-- The `while (true)` loop of `parseMul`: explicit `*`/`/`, implicit
multiplication before `(` (only when not stopping at spaces) or before a
token starting with a letter or digit, else exit. -/
def parseMulLoop : ℕ → Bool → TermNode → PState → Except ParseErr (TermNode × PState)
  | 0, _, _, _ => .error .outOfFuel
  | fuel + 1, sas, node, st =>
    if sas ∧ st.sws then .ok (node, st)
    else if st.tok = ['*'] ∨ st.tok = ['/'] then do
      let op := String.mk st.tok
      let r ← parsePow fuel sas (pnextFull st)
      parseMulLoop fuel sas (.mk op [node, r.1] 0 0 false) r.2
    else if ¬sas ∧ st.tok = ['('] then do
      let r ← parsePow fuel sas st
      parseMulLoop fuel sas (.mk "*" [node, r.1] 0 0 false) r.2
    else
      match st.tok with
      | t0 :: _ =>
        if isAlphaCh t0 ∨ isNumCh t0 then do
          let r ← parsePow fuel sas st
          parseMulLoop fuel sas (.mk "*" [node, r.1] 0 0 false) r.2
        else .ok (node, st)
      | [] => .ok (node, st)

/-- `parsePow(stopAtSpace)`: `unary { "^" unary }`. -/
def parsePow : ℕ → Bool → PState → Except ParseErr (TermNode × PState)
  | 0, _, _ => .error .outOfFuel
  | fuel + 1, sas, st => do
    let r ← parseUnary fuel sas st
    parsePowLoop fuel sas r.1 r.2

/-- The `while` loop of `parsePow`. -/
def parsePowLoop : ℕ → Bool → TermNode → PState → Except ParseErr (TermNode × PState)
  | 0, _, _, _ => .error .outOfFuel
  | fuel + 1, sas, node, st =>
    if st.tok = ['^'] then
      if sas ∧ st.sws then .ok (node, st)
      else do
        let op := String.mk st.tok
        let r ← parseUnary fuel sas (pnextFull st)
        parsePowLoop fuel sas (.mk op [node, r.1] 0 0 false) r.2
    else .ok (node, st)

/-- `parseUnary(stopAtSpace)`: `"-" mul | infix`. -/
def parseUnary : ℕ → Bool → PState → Except ParseErr (TermNode × PState)
  | 0, _, _ => .error .outOfFuel
  | fuel + 1, sas, st =>
    if st.tok = ['-'] then do
      let r ← parseMul fuel sas (pnextFull st)
      .ok (.mk ".-" [r.1] 0 0 false, r.2)
    else parseInfixTerm fuel sas st

/-- `parseInfix(stopAtSpace)` of the source: numbers (with the optional
`"."` continuation), unary functions (parenthesized or space-scoped
argument), parenthesized expressions, `|…|`, identifiers. -/
def parseInfixTerm : ℕ → Bool → PState → Except ParseErr (TermNode × PState)
  | 0, _, _ => .error .outOfFuel
  | fuel + 1, sas, st =>
    match st.tok with
    | [] => .error .expectedUnary
    | t0 :: _ =>
      if isNumCh t0 then
        let v := st.tok
        let st1 := pnextFull st
        if st1.tok = ['.'] then
          let st2 := pnextFull st1
          if st2.tok ≠ [] then
            .ok (.mk "const" [] (jsParseFloat (v ++ ['.'] ++ st2.tok)) 0 false,
                 pnextFull st2)
          else
            .ok (.mk "const" [] (jsParseFloat (v ++ ['.'])) 0 false, st2)
        else .ok (.mk "const" [] (jsParseFloat v) 0 false, st1)
      else if fun1 st ≠ "" then do
        let op := fun1 st
        let st1 := pnextN op.length st
        if st1.tok = ['('] then do
          let r ← parseExpr fuel sas (pnextFull st1)
          if r.2.tok = [')'] then .ok (.mk op [r.1] 0 0 false, pnextFull r.2)
          else .error .expectedClosingParen
        else do
          let r ← parseMul fuel true st1
          .ok (.mk op [r.1] 0 0 false, r.2)
      else if st.tok = ['('] then do
        let r ← parseExpr fuel sas (pnextFull st)
        if r.2.tok = [')'] then .ok (r.1.setEP, pnextFull r.2)
        else .error .expectedClosingParen
      else if st.tok = ['|'] then do
        let r ← parseExpr fuel sas (pnextFull st)
        if r.2.tok = ['|'] then .ok (.mk "abs" [r.1] 0 0 false, pnextFull r.2)
        else .error .expectedClosingBar
      else if isAlphaCh t0 then
        let id :=
          if st.tok.take 2 = ['p', 'i'] then "pi"
          else if st.tok.take 4 = ['t', 'r', 'u', 'e'] then "true"
          else if st.tok.take 5 = ['f', 'a', 'l', 's', 'e'] then "false"
          else if st.tok.take 2 = ['C', '1'] then "C1"
          else if st.tok.take 2 = ['C', '2'] then "C2"
          else String.mk [t0]
        let id := if id = "I" then "i" else id
        .ok (.mk ("var:" ++ id) [] 0 0 false, pnextN id.length st)
      else .error .expectedUnary

end

/-- `Term.parse(src)`: initialize the scanner, `next()`, parse an
expression with `stopAtSpace = false`, and fail on remaining tokens.  The
fuel is generous for the input length and is never exhausted in any of the
developments below. -/
def Term.parse (src : String) : Except ParseErr Term :=
  let st0 := pnextFull ⟨src.data, [], false⟩
  match parseExpr ((src.data.length + 8) * 8) false st0 with
  | .error e => .error e
  | .ok (root, st1) =>
    if st1.tok ≠ [] then .error (.remainingTokens (String.mk st1.tok))
    else .ok ⟨root⟩

/-- `Set.add`: append an id if not already present (JS `Set` keeps insertion
order; it is modelled by a duplicate-free list in that order). -/
def pushUnique (acc : List String) (id : String) : List String :=
  if id ∈ acc then acc else acc ++ [id]

mutual

/-- `Term.getVars(s, prefix, node)`: pre-order collection of the `var:`
names (node first, then children), filtered by the optional prefix. -/
def collectVars (pfx : String) : TermNode → List String → List String
  | .mk op c _ _ _, acc =>
    let acc1 :=
      if strStarts op "var:" ∧
          (pfx.length = 0 ∨ strStarts (strDrop op 4) pfx) then
        pushUnique acc (strDrop op 4)
      else acc
    collectVarsList pfx c acc1

/-- The `for (let c of node.c)` loop of `getVars`. -/
def collectVarsList (pfx : String) : List TermNode → List String → List String
  | [], acc => acc
  | t :: ts, acc => collectVarsList pfx ts (collectVars pfx t acc)

end

/-- The variable set of a term (as an insertion-ordered list). -/
def Term.getVars (t : Term) (pfx : String := "") : List String :=
  collectVars pfx t.root []

/-- The variable set collected by `Term.compare`: `tu.getVars(vars);
tv.getVars(vars)` into one shared set. -/
def compareVars (tu tv : Term) : List String :=
  collectVars "" tv.root (collectVars "" tu.root [])

/-- The context-building loop of one `Term.compare` trial: each variable is
bound to its predefined value when present, else to the next two draws of
the random stream (`TermNode.const(Math.random(), Math.random())`).
Returns the context and the stream position after the loop. -/
noncomputable def buildCtxAux (fixed : Ctx) (rnd : ℕ → ℝ) :
    List String → Ctx × ℕ → Ctx × ℕ
  | [], s => s
  | v :: vs, (ctx, i) =>
    match fixed v with
    | some x => buildCtxAux fixed rnd vs (ctxSet ctx v x, i)
    | none => buildCtxAux fixed rnd vs (ctxSet ctx v (rnd i, rnd (i + 1)), i + 2)

/-- The trial loop of `Term.compare` (`NUM_TESTS` iterations, counting
down), threading the random-stream position: build the trial context,
evaluate both terms, return `false` as soon as the distance exceeds `EPS`,
`true` after the last trial. -/
noncomputable def compareTrials (tu tv : Term) (fixed : Ctx)
    (vars : List String) (rnd : ℕ → ℝ) : ℕ → ℕ → Except EvalErr Bool
  | 0, _ => .ok true
  | n + 1, i => do
    let bc := buildCtxAux fixed rnd vars (emptyCtx, i)
    let r1 ← evalNode bc.1 tu.root
    let r2 ← evalNode bc.1 tv.root
    let dre := r1.1 - r2.1
    let dim := r1.2 - r2.2
    if Real.sqrt (dre * dre + dim * dim) > evalEPS then .ok false
    else compareTrials tu tv fixed vars rnd n bc.2

/-- `Term.compare(tu, tv, predefinedContext)`: `EPS = 1e-9`,
`NUM_TESTS = 10`; collect the union of the two variable sets and run the
trials. -/
noncomputable def Term.compare (tu tv : Term) (fixed : Ctx)
    (rnd : ℕ → ℝ) : Except EvalErr Bool :=
  compareTrials tu tv fixed (compareVars tu tv) rnd 10 0

/-- Digits of a natural number after stripping trailing zeros, with the
exponent, as ECMAScript exponential notation writes them
(`10^21` gives `"1e+21"`). -/
def expForm (n : ℕ) : String :=
  let ds := Nat.repr n
  let s := (ds.data.reverse.dropWhile (fun c => c = '0')).reverse
  let ex := ds.length - 1
  (if s.length ≤ 1 then String.mk s
   else String.mk (s.take 1) ++ "." ++ String.mk (s.drop 1)) ++
    "e+" ++ Nat.repr ex

/-- Decimal digits of a fraction in `[0,1)` (fuel-bounded; every constant
the parser produces has a finite decimal expansion, so the fuel is never
exhausted on reachable values). -/
def fracDigits : ℕ → ℚ → List Char
  | 0, _ => []
  | fuel + 1, q =>
    if q = 0 then []
    else
      let d := (⌊q * 10⌋ : ℤ).toNat
      Char.ofNat (48 + d) :: fracDigits fuel (q * 10 - ⌊q * 10⌋)

/-- ECMAScript `ToString` on a nonnegative number value (`"" + x` in the
source): plain decimal digits for integers below `10^21`, exponential
notation at or above `10^21`, and plain decimals for fractional values.
The double-rounding of the runtime, its 21-significant-digit cap, and the
small-magnitude (`< 1e-7`) exponential form are not modelled; on the
constant values reachable in this development the model is exact. -/
def jsNumToStringNN (q : ℚ) : String :=
  if q.den = 1 then
    let n := q.num.toNat
    if n < 10 ^ 21 then Nat.repr n else expForm n
  else
    Nat.repr (⌊q⌋ : ℤ).toNat ++ "." ++ String.mk (fracDigits 400 (q - ⌊q⌋))

/-- ECMAScript `ToString` of a number, with the sign. -/
def jsNumToString (q : ℚ) : String :=
  if q < 0 then "-" ++ jsNumToStringNN (-q) else jsNumToStringNN q

/-- `Math.abs` on an exact rational. -/
def jsAbsQ (q : ℚ) : ℚ := if q < 0 then -q else q

mutual

/-- `TermNode.toString()`: stringify with parentheses "everywhere".
Constants follow the `hasReal`/`hasImag` case split (thresholds `1e-14`);
`var` nodes print their name; one-child nodes print `op(child)` (`".-"` as
`"-"`); other nodes join the children's strings with the operator. -/
def TermNode.toString : TermNode → String
  | .mk op c re im _ =>
    if op = "const" then
      let hasReal := jsAbsQ re > (1 : ℚ) / 10 ^ 14
      let hasImag := jsAbsQ im > (1 : ℚ) / 10 ^ 14
      if hasReal ∧ hasImag ∧ im ≥ 0 then
        "(" ++ jsNumToString re ++ "+" ++ jsNumToString im ++ "i)"
      else if hasReal ∧ hasImag ∧ im < 0 then
        "(" ++ jsNumToString re ++ "-" ++ jsNumToString (-im) ++ "i)"
      else if hasReal ∧ re > 0 then jsNumToString re
      else if hasReal ∧ re < 0 then "(" ++ jsNumToString re ++ ")"
      else if hasImag then "(" ++ jsNumToString im ++ "i)"
      else "0"
    else if strStarts op "var" then (op.splitOn ":").getD 1 ""
    else if c.length = 1 then
      (if op = ".-" then "-" else op) ++ "(" ++ TermNode.toStringJoin "," c ++ ")"
    else "(" ++ TermNode.toStringJoin op c ++ ")"

/-- `Array.prototype.join(sep)` over the children's strings. -/
def TermNode.toStringJoin (sep : String) : List TermNode → String
  | [] => ""
  | [t] => TermNode.toString t
  | t :: ts => TermNode.toString t ++ sep ++ TermNode.toStringJoin sep ts

end

/-- `Term.toString()` (the source returns `""` on a null root; a parsed
`Term` always has one). -/
def Term.toString (t : Term) : String := t.root.toString

/-- A JavaScript number for the NaN/Infinity analysis: a finite value (whose
arithmetic is modelled exactly, without rounding or overflow and without a
negative zero), a signed infinity, or NaN. -/
inductive JsF : Type where
  | num (r : ℝ)
  | inf (neg : Bool)
  | nan

noncomputable instance : DecidableEq JsF := Classical.decEq _

/-- IEEE addition on `JsF`. -/
noncomputable def jsAdd : JsF → JsF → JsF
  | .nan, _ => .nan
  | _, .nan => .nan
  | .inf a, .inf b => if a = b then .inf a else .nan
  | .inf a, .num _ => .inf a
  | .num _, .inf b => .inf b
  | .num a, .num b => .num (a + b)

/-- IEEE subtraction on `JsF`. -/
noncomputable def jsSub : JsF → JsF → JsF
  | .nan, _ => .nan
  | _, .nan => .nan
  | .inf a, .inf b => if a = b then .nan else .inf a
  | .inf a, .num _ => .inf a
  | .num _, .inf b => .inf (!b)
  | .num a, .num b => .num (a - b)

/-- IEEE multiplication on `JsF` (`±∞ * 0 = NaN`). -/
noncomputable def jsMul : JsF → JsF → JsF
  | .nan, _ => .nan
  | _, .nan => .nan
  | .inf a, .inf b => .inf (a != b)
  | .inf a, .num x => if x = 0 then .nan else .inf (xor a (x < 0))
  | .num x, .inf b => if x = 0 then .nan else .inf (xor b (x < 0))
  | .num a, .num b => .num (a * b)

/-- IEEE division on `JsF` (`0/0 = NaN`, `x/0 = ±∞` for `x ≠ 0`,
`∞/∞ = NaN`). -/
noncomputable def jsDiv : JsF → JsF → JsF
  | .nan, _ => .nan
  | _, .nan => .nan
  | .inf _, .inf _ => .nan
  | .inf a, .num x => .inf (xor a (x < 0))
  | .num _, .inf _ => .num 0
  | .num a, .num b =>
    if b = 0 then (if a = 0 then .nan else .inf (a < 0)) else .num (a / b)

/-- IEEE negation on `JsF`. -/
noncomputable def jsNegF : JsF → JsF
  | .num r => .num (-r)
  | .inf a => .inf (!a)
  | .nan => .nan

/-- `Math.sqrt` (`NaN` on negative arguments and `-∞`). -/
noncomputable def jsSqrt : JsF → JsF
  | .nan => .nan
  | .inf false => .inf false
  | .inf true => .nan
  | .num r => if r < 0 then .nan else .num (Real.sqrt r)

/-- `Math.sin` (`NaN` at infinities). -/
noncomputable def jsSinF : JsF → JsF
  | .num r => .num (Real.sin r)
  | _ => .nan

/-- `Math.cos` (`NaN` at infinities). -/
noncomputable def jsCosF : JsF → JsF
  | .num r => .num (Real.cos r)
  | _ => .nan

/-- `Math.sinh`. -/
noncomputable def jsSinhF : JsF → JsF
  | .num r => .num (Real.sinh r)
  | .inf a => .inf a
  | .nan => .nan

/-- `Math.cosh`. -/
noncomputable def jsCoshF : JsF → JsF
  | .num r => .num (Real.cosh r)
  | .inf _ => .inf false
  | .nan => .nan

/-- `Math.exp` (`exp(-∞) = 0`). -/
noncomputable def jsExpF : JsF → JsF
  | .num r => .num (Real.exp r)
  | .inf false => .inf false
  | .inf true => .num 0
  | .nan => .nan

/-- `Math.log` (`log 0 = -∞`, `NaN` below zero). -/
noncomputable def jsLogF : JsF → JsF
  | .num r => if 0 < r then .num (Real.log r) else if r = 0 then .inf true else .nan
  | .inf false => .inf false
  | .inf true => .nan
  | .nan => .nan

/-- `Math.atan2` on `JsF` (IEEE special values at infinities; the negative
zero is not modelled). -/
noncomputable def jsAtan2F : JsF → JsF → JsF
  | .nan, _ => .nan
  | _, .nan => .nan
  | .inf ys, .inf false => .num ((if ys then -1 else 1) * (Real.pi / 4))
  | .inf ys, .inf true => .num ((if ys then -1 else 1) * (3 * Real.pi / 4))
  | .inf ys, .num _ => .num ((if ys then -1 else 1) * (Real.pi / 2))
  | .num _, .inf false => .num 0
  | .num y, .inf true => .num (if y < 0 then -Real.pi else Real.pi)
  | .num y, .num x => .num (jsAtan2 y x)

/-- `Math.floor` on `JsF`. -/
noncomputable def jsFloorF : JsF → JsF
  | .num r => .num ((⌊r⌋ : ℤ) : ℝ)
  | .inf a => .inf a
  | .nan => .nan

/-- `Math.ceil` on `JsF`. -/
noncomputable def jsCeilF : JsF → JsF
  | .num r => .num ((⌈r⌉ : ℤ) : ℝ)
  | .inf a => .inf a
  | .nan => .nan

/-- `Math.round` on `JsF`. -/
noncomputable def jsRoundF : JsF → JsF
  | .num r => .num ((round r : ℤ) : ℝ)
  | .inf a => .inf a
  | .nan => .nan

/-- The comparison `x > q` of a `JsF` against a finite number: false on NaN
(IEEE comparisons with NaN are false) and on `-∞`, true on `+∞`. -/
def jsGtR (x : JsF) (q : ℝ) : Prop :=
  match x with
  | .num r => q < r
  | .inf b => b = false
  | .nan => False

/-- The test `Math.abs(x) < q` on a `JsF` (false on NaN and infinities). -/
def jsAbsLtR (x : JsF) (q : ℝ) : Prop :=
  match x with
  | .num r => |r| < q
  | _ => False

noncomputable instance (x : JsF) (q : ℝ) : Decidable (jsGtR x q) :=
  Classical.dec _

noncomputable instance (x : JsF) (q : ℝ) : Decidable (jsAbsLtR x q) :=
  Classical.dec _

/-- A complex value in the NaN/Infinity model: the component pair. -/
abbrev FCplx : Type := JsF × JsF

/-- Componentwise addition (case `"+"`). -/
noncomputable def cAddF (u v : FCplx) : FCplx := (jsAdd u.1 v.1, jsAdd u.2 v.2)

/-- Componentwise subtraction (case `"-"`). -/
noncomputable def cSubF (u v : FCplx) : FCplx := (jsSub u.1 v.1, jsSub u.2 v.2)

/-- Complex multiplication (case `"*"`). -/
noncomputable def cMulF (u v : FCplx) : FCplx :=
  (jsSub (jsMul u.1 v.1) (jsMul u.2 v.2),
   jsAdd (jsMul u.1 v.2) (jsMul u.2 v.1))

/-- Complex division (case `"/"`): with an exactly zero denominator both
numerators `u.re*0 + u.im*0` and `u.im*0 - u.re*0` are (finite) zero, so
both components become `0/0 = NaN`. -/
noncomputable def cDivF (u v : FCplx) : FCplx :=
  (jsDiv (jsAdd (jsMul u.1 v.1) (jsMul u.2 v.2))
     (jsAdd (jsMul v.1 v.1) (jsMul v.2 v.2)),
   jsDiv (jsSub (jsMul u.2 v.1) (jsMul u.1 v.2))
     (jsAdd (jsMul v.1 v.1) (jsMul v.2 v.2)))

/-- Case `".-"`. -/
noncomputable def cNegF (u : FCplx) : FCplx := (jsNegF u.1, jsNegF u.2)

/-- Case `"abs"`. -/
noncomputable def cAbsF (u : FCplx) : FCplx :=
  (jsSqrt (jsAdd (jsMul u.1 u.1) (jsMul u.2 u.2)), .num 0)

/-- Case `"ln"`/`"log"`. -/
noncomputable def cLnF (u : FCplx) : FCplx :=
  (jsLogF (jsSqrt (jsAdd (jsMul u.1 u.1) (jsMul u.2 u.2))),
   jsAtan2F (if jsAbsLtR u.2 evalEPS then .num 0 else u.2) u.1)

/-- Case `"exp"`. -/
noncomputable def cExpF (u : FCplx) : FCplx :=
  (jsMul (jsExpF u.1) (jsCosF u.2), jsMul (jsExpF u.1) (jsSinF u.2))

/-- Case `"^"` (the transient tree `exp(v * ln u)`). -/
noncomputable def cPowF (u v : FCplx) : FCplx := cExpF (cMulF v (cLnF u))

/-- Case `"sqrt"` (the transient tree `u ^ 0.5`). -/
noncomputable def cSqrtF (u : FCplx) : FCplx := cPowF u (.num (1 / 2), .num 0)

/-- Case `"sin"`. -/
noncomputable def cSinF (u : FCplx) : FCplx :=
  (jsMul (jsSinF u.1) (jsCoshF u.2), jsMul (jsCosF u.1) (jsSinhF u.2))

/-- Case `"cos"`. -/
noncomputable def cCosF (u : FCplx) : FCplx :=
  (jsMul (jsCosF u.1) (jsCoshF u.2), jsNegF (jsMul (jsSinF u.1) (jsSinhF u.2)))

/-- Case `"tan"`. -/
noncomputable def cTanF (u : FCplx) : FCplx :=
  (jsDiv (jsMul (jsSinF u.1) (jsCosF u.1))
     (jsAdd (jsMul (jsCosF u.1) (jsCosF u.1)) (jsMul (jsSinhF u.2) (jsSinhF u.2))),
   jsDiv (jsMul (jsSinhF u.2) (jsCoshF u.2))
     (jsAdd (jsMul (jsCosF u.1) (jsCosF u.1)) (jsMul (jsSinhF u.2) (jsSinhF u.2))))

/-- Case `"cot"`. -/
noncomputable def cCotF (u : FCplx) : FCplx :=
  (jsDiv (jsMul (jsSinF u.1) (jsCosF u.1))
     (jsAdd (jsMul (jsSinF u.1) (jsSinF u.1)) (jsMul (jsSinhF u.2) (jsSinhF u.2))),
   jsNegF (jsDiv (jsMul (jsSinhF u.2) (jsCoshF u.2))
     (jsAdd (jsMul (jsSinF u.1) (jsSinF u.1)) (jsMul (jsSinhF u.2) (jsSinhF u.2)))))

/-- Case `"sinc"` (the transient tree `sin(u) / u`; at `u = 0` the division
produces NaN components). -/
noncomputable def cSincF (u : FCplx) : FCplx := cDivF (cSinF u) u

/-- Case `"acos"`. -/
noncomputable def cAcosF (u : FCplx) : FCplx :=
  cMulF (.num 0, .num (-1))
    (cLnF (cAddF (.num 0, .num 1) (cSqrtF (cSubF (.num 1, .num 0) (cMulF u u)))))

/-- Case `"acosh"`. -/
noncomputable def cAcoshF (u : FCplx) : FCplx :=
  cMulF u (cSqrtF (cSubF (cMulF u u) (.num 1, .num 0)))

/-- Case `"asin"`. -/
noncomputable def cAsinF (u : FCplx) : FCplx :=
  cMulF (.num 0, .num (-1))
    (cLnF (cAddF (cMulF (.num 0, .num 1) u)
      (cSqrtF (cSubF (.num 1, .num 0) (cMulF u u)))))

/-- Case `"asinh"`. -/
noncomputable def cAsinhF (u : FCplx) : FCplx :=
  cMulF u (cSqrtF (cAddF (cMulF u u) (.num 1, .num 0)))

/-- Case `"atan"`. -/
noncomputable def cAtanF (u : FCplx) : FCplx :=
  cMulF (.num 0, .num (1 / 2))
    (cLnF (cDivF (cSubF (.num 0, .num 1) (cMulF (.num 0, .num 1) u))
      (cAddF (.num 0, .num 1) (cMulF (.num 0, .num 1) u))))

/-- Case `"atanh"`. -/
noncomputable def cAtanhF (u : FCplx) : FCplx :=
  cMulF (.num (1 / 2), .num 0)
    (cLnF (cDivF (cAddF (.num 1, .num 0) u) (cSubF (.num 1, .num 0) u)))

/-- Case `"cosh"`. -/
noncomputable def cCoshF (u : FCplx) : FCplx :=
  cMulF (.num (1 / 2), .num 0) (cAddF (cExpF u) (cExpF (cNegF u)))

/-- Case `"sinh"`. -/
noncomputable def cSinhF (u : FCplx) : FCplx :=
  cMulF (.num (1 / 2), .num 0) (cSubF (cExpF u) (cExpF (cNegF u)))

/-- Case `"tanh"`. -/
noncomputable def cTanhF (u : FCplx) : FCplx :=
  cDivF (cSubF (cExpF u) (cExpF (cNegF u))) (cAddF (cExpF u) (cExpF (cNegF u)))

/-- Case `"log10"`. -/
noncomputable def cLog10F (u : FCplx) : FCplx :=
  cDivF (cLnF u) (cLnF (.num 10, .num 0))

/-- Case `"log2"`. -/
noncomputable def cLog2F (u : FCplx) : FCplx :=
  cDivF (cLnF u) (cLnF (.num 2, .num 0))

/-- Case `"ceil"`. -/
noncomputable def cCeilF (u : FCplx) : FCplx := (jsCeilF u.1, jsCeilF u.2)

/-- Case `"floor"`. -/
noncomputable def cFloorF (u : FCplx) : FCplx := (jsFloorF u.1, jsFloorF u.2)

/-- Case `"round"`. -/
noncomputable def cRoundF (u : FCplx) : FCplx := (jsRoundF u.1, jsRoundF u.2)

/-- The binary `switch` of `Term.eval` in the NaN/Infinity model. -/
noncomputable def binValF (op : String) (u v : FCplx) : FCplx :=
  if op = "+" then cAddF u v
  else if op = "-" then cSubF u v
  else if op = "*" then cMulF u v
  else if op = "/" then cDivF u v
  else cPowF u v

/-- The unary `switch` of `Term.eval` in the NaN/Infinity model. -/
noncomputable def unValF (op : String) (u : FCplx) : FCplx :=
  if op = ".-" then cNegF u
  else if op = "abs" then cAbsF u
  else if op = "acos" then cAcosF u
  else if op = "acosh" then cAcoshF u
  else if op = "asin" then cAsinF u
  else if op = "asinh" then cAsinhF u
  else if op = "atan" then cAtanF u
  else if op = "atanh" then cAtanhF u
  else if op = "ceil" then cCeilF u
  else if op = "cos" then cCosF u
  else if op = "cosh" then cCoshF u
  else if op = "cot" then cCotF u
  else if op = "exp" then cExpF u
  else if op = "floor" then cFloorF u
  else if op = "ln" then cLnF u
  else if op = "log" then cLnF u
  else if op = "log10" then cLog10F u
  else if op = "log2" then cLog2F u
  else if op = "round" then cRoundF u
  else if op = "sin" then cSinF u
  else if op = "sinc" then cSincF u
  else if op = "sinh" then cSinhF u
  else if op = "sqrt" then cSqrtF u
  else if op = "tan" then cTanF u
  else cTanhF u

/-- A variable binding in the NaN/Infinity model. -/
def CtxF : Type := String → Option FCplx

/-- The empty binding. -/
def emptyCtxF : CtxF := fun _ => none

/-- Binding update. -/
def ctxSetF (d : CtxF) (v : String) (x : FCplx) : CtxF :=
  fun w => if w = v then some x else d w

/-- `Term.eval` in the NaN/Infinity model: the same recursion as
`evalNode`, over `JsF` components.  NaN and Infinity propagate through the
case formulas; no numeric condition ever raises an error. -/
noncomputable def evalF (dict : CtxF) : TermNode → Except EvalErr FCplx
  | .mk op c re im _ =>
    if op = "const" then .ok (.num (re : ℝ), .num (im : ℝ))
    else if op ∈ binOps then
      match c with
      | a :: b :: _ => do
          let u ← evalF dict a
          let v ← evalF dict b
          .ok (binValF op u v)
      | _ => .error .typeErr
    else if op ∈ unOps then
      match c with
      | a :: _ => do
          let u ← evalF dict a
          .ok (unValF op u)
      | _ => .error .typeErr
    else if strStarts op "var:" then
      let id := strDrop op 4
      if id = "pi" then .ok ((.num Real.pi, .num 0) : FCplx)
      else if id = "e" then .ok ((.num (Real.exp 1), .num 0) : FCplx)
      else if id = "i" then .ok ((.num 0, .num 1) : FCplx)
      else if id = "true" then .ok ((.num 1, .num 0) : FCplx)
      else if id = "false" then .ok ((.num 0, .num 0) : FCplx)
      else match dict id with
        | some x => .ok x
        | none => .error (.unknownVar id)
    else .error (.unimplemented op)

/-- The context-building loop of a `Term.compare` trial in the NaN/Infinity
model. -/
noncomputable def buildCtxAuxF (fixed : CtxF) (rnd : ℕ → ℝ) :
    List String → CtxF × ℕ → CtxF × ℕ
  | [], s => s
  | v :: vs, (ctx, i) =>
    match fixed v with
    | some x => buildCtxAuxF fixed rnd vs (ctxSetF ctx v x, i)
    | none =>
      buildCtxAuxF fixed rnd vs
        (ctxSetF ctx v (.num (rnd i), .num (rnd (i + 1))), i + 2)

/-- The trial loop of `Term.compare` in the NaN/Infinity model: the
rejection test is the IEEE comparison `abs > EPS`, which is FALSE when
`abs` is NaN. -/
noncomputable def compareTrialsF (tu tv : Term) (fixed : CtxF)
    (vars : List String) (rnd : ℕ → ℝ) : ℕ → ℕ → Except EvalErr Bool
  | 0, _ => .ok true
  | n + 1, i => do
    let bc := buildCtxAuxF fixed rnd vars (emptyCtxF, i)
    let r1 ← evalF bc.1 tu.root
    let r2 ← evalF bc.1 tv.root
    let dre := jsSub r1.1 r2.1
    let dim := jsSub r1.2 r2.2
    let abs := jsSqrt (jsAdd (jsMul dre dre) (jsMul dim dim))
    if jsGtR abs evalEPS then .ok false
    else compareTrialsF tu tv fixed vars rnd n bc.2

/-- `Term.compare` in the NaN/Infinity model. -/
noncomputable def Term.compareF (tu tv : Term) (fixed : CtxF)
    (rnd : ℕ → ℝ) : Except EvalErr Bool :=
  compareTrialsF tu tv fixed (compareVars tu tv) rnd 10 0

/-- `minimize`'s `EPS = 1e-11`. -/
noncomputable def minimizeEPS : ℝ := 1 / 10 ^ 11

/-- The `while (cnt < MAX_ITERATIONS)` loop of `minimize` (math_ODE.js):
state `(cnt, dvValue, step, lastDirection)`; each pass evaluates the term
at `dvValue`, `dvValue + step`, `dvValue - step` (writing `vars[dvId]`
before each evaluation), moves toward the strictly smaller value, breaks
once the value drops below `EPS`, halves the step on a stall or direction
change (`lastDirection` starts at the sentinel 888), and counts the pass.
Returns the final `dvValue` together with the `cnt` at exit. -/
noncomputable def minimizeLoop (term : Term) (dvId : String) (vars : Ctx)
    (cnt : ℕ) (dvValue step : ℝ) (lastDirection : ℤ) :
    Except EvalErr (ℝ × ℕ) :=
  if cnt < 1000 then do
    let y ← evalNode (ctxSet vars dvId (dvValue, 0)) term.root
    let yR ← evalNode (ctxSet vars dvId (dvValue + step, 0)) term.root
    let yL ← evalNode (ctxSet vars dvId (dvValue - step, 0)) term.root
    let s1 := if yR.1 < y.1 then ((yR.1 : ℝ), (1 : ℤ)) else (y.1, 0)
    let s2 := if yL.1 < s1.1 then ((yL.1 : ℝ), (-1 : ℤ)) else s1
    let dv2 :=
      if s2.2 = 1 then dvValue + step
      else if s2.2 = -1 then dvValue - step else dvValue
    if s2.1 < minimizeEPS then .ok (dv2, cnt)
    else
      let step2 :=
        if s2.2 = 0 ∨ s2.2 ≠ lastDirection then step / 2 else step
      minimizeLoop term dvId vars (cnt + 1) dv2 step2 s2.2
  else .ok (dvValue, cnt)
termination_by 1000 - cnt

/-- `minimize(term, dvId, vars)`: run the line search from `dvValue = 0`,
`step = 1`, then set `vars[dvId]` to the final value, evaluate once more
and return `[dvValue, y]` (the exit `cnt` of the loop is dropped here but
kept available through `minimizeLoop`). -/
noncomputable def minimize (term : Term) (dvId : String) (vars : Ctx) :
    Except EvalErr (ℝ × ℝ) := do
  let r ← minimizeLoop term dvId vars 0 0 1 888
  let y ← evalNode (ctxSet vars dvId (r.1, 0)) term.root
  .ok (r.1, y.1)

/-- `range(n)` (the `shuffled = false` path used by `compareODE`; the
shuffled branch draws from `Math.random` and is not used here). -/
def range (n : ℕ) : List ℕ := List.range n

/-- The in-place swap of `list[a]` and `list[b]` in `heapsAlgorithm`. -/
def swapL (l : List ℕ) (a b : ℕ) : List ℕ :=
  match l[a]?, l[b]? with
  | some x, some y => (l.set a y).set b x
  | _, _ => l

mutual

/-- `heapsAlgorithm(list, result, k)` after the `k < 0` normalization:
state is `(list, result)`; `k = 1` pushes a copy of the list, `k = 0` does
nothing (the `for` loop is empty), otherwise run the `k` loop passes. -/
def heapsAux : ℕ → List ℕ × List (List ℕ) → List ℕ × List (List ℕ)
  | 0, s => s
  | 1, s => (s.1, s.2 ++ [s.1])
  | k + 2, s => heapsLoop (k + 2) (k + 2) s
termination_by k _ => (k + 1, 0)

/-- The `for (let i = 0; i < k; i++)` loop of `heapsAlgorithm`, counting
the remaining passes `r` (so `i = k - r`): recurse at `k - 1`, then swap
positions `j` and `k - 1` where `j = i` for even `k` and `j = 0` for odd
`k`.  The first parameter is matched as `k + 1` for the recursion measure;
the `k = 0` case is unreachable (the loop is only entered with `k ≥ 2`)
and written out with `heapsAux (k - 1) = heapsAux 0` inlined as the
identity it is. -/
def heapsLoop : ℕ → ℕ → List ℕ × List (List ℕ) → List ℕ × List (List ℕ)
  | _, 0, s => s
  | k + 1, r + 1, s =>
    let s1 := heapsAux k s
    let j := if (k + 1) % 2 = 0 then (k + 1) - (r + 1) else 0
    heapsLoop (k + 1) r (swapL s1.1 j k, s1.2)
  | 0, r + 1, s =>
    heapsLoop 0 r (swapL s.1 0 (0 - 1), s.2)
termination_by k r _ => (k, r)

end

/-- The top-level call `heapsAlgorithm(range(N), result)` of `compareODE`
(default `k = -1` becomes the list length, `result` starts empty): the
matrix of generated rows. -/
def heapsAlgorithm (l : List ℕ) : List (List ℕ) :=
  (heapsAux l.length (l, [])).2

/-- A heap-allocated `TermNode` for the mutation analysis of `Term.eval`:
the children are heap addresses. -/
structure HNode : Type where
  op : String
  c : List ℕ
  re : ℝ
  im : ℝ

/-- The heap: allocated nodes, addressed by position; `new TermNode(...)`
appends. -/
abbrev Store : Type := List HNode

/-- Allocation: the fresh address and the extended store. -/
def alloc (σ : Store) (n : HNode) : ℕ × Store := (σ.length, σ ++ [n])

/-- The field writes `res.re = …; res.im = …` of an eval case, on the node
at address `a`. -/
def setConstVal (σ : Store) (a : ℕ) (re im : ℝ) : Store :=
  match σ[a]? with
  | some n => σ.set a { n with re := re, im := im }
  | none => σ

/-- A tree about to be allocated by an eval case: leaves are existing
addresses (the already evaluated operands), nodes are `new TermNode(...)`
constructions. -/
inductive PreTree : Type where
  | leaf (addr : ℕ)
  | node (op : String) (c : List PreTree) (re im : ℝ)

/-- `TermNode.const(re, im)` as a `PreTree`. -/
noncomputable def PreTree.cst (re im : ℝ) : PreTree := .node "const" [] re im

/-- An operator `PreTree` with zero value fields. -/
def PreTree.pn (op : String) (c : List PreTree) : PreTree := .node op c 0 0

mutual

/-- Allocate a `PreTree`: children first, left to right (JavaScript
evaluates the constructor arguments first), then the node itself. -/
def allocT (σ : Store) : PreTree → ℕ × Store
  | .leaf a => (a, σ)
  | .node op c re im =>
    let s := allocTList σ c
    (s.2.length, s.2 ++ [⟨op, s.1, re, im⟩])

/-- Allocate a list of `PreTree`s left to right, collecting addresses. -/
def allocTList (σ : Store) : List PreTree → List ℕ × Store
  | [] => ([], σ)
  | t :: ts =>
    let s := allocT σ t
    let s2 := allocTList s.2 ts
    (s.1 :: s2.1, s2.2)

end

/-- The unary operators whose eval case writes `res` directly (no
transient tree). -/
def directUnOps : List String :=
  [".-", "abs", "ceil", "cos", "cot", "exp", "floor", "ln", "log",
   "round", "sin", "tan"]

/-- The transient tree each remaining unary case builds on its evaluated
operand `u` (transcribed from the `tn = new TermNode(...)` constructions
of `Term.eval`). -/
noncomputable def transientTree (op : String) (u : ℕ) : PreTree :=
  if op = "acos" then
    .pn "*" [.cst 0 (-1), .pn "ln" [.pn "+" [.cst 0 1,
      .pn "sqrt" [.pn "-" [.cst 1 0, .pn "*" [.leaf u, .leaf u]]]]]]
  else if op = "acosh" then
    .pn "*" [.leaf u, .pn "sqrt" [.pn "-" [.pn "*" [.leaf u, .leaf u], .cst 1 0]]]
  else if op = "asin" then
    .pn "*" [.cst 0 (-1), .pn "ln" [.pn "+" [.pn "*" [.cst 0 1, .leaf u],
      .pn "sqrt" [.pn "-" [.cst 1 0, .pn "*" [.leaf u, .leaf u]]]]]]
  else if op = "asinh" then
    .pn "*" [.leaf u, .pn "sqrt" [.pn "+" [.pn "*" [.leaf u, .leaf u], .cst 1 0]]]
  else if op = "atan" then
    .pn "*" [.cst 0 (1 / 2), .pn "ln" [.pn "/"
      [.pn "-" [.cst 0 1, .pn "*" [.cst 0 1, .leaf u]],
       .pn "+" [.cst 0 1, .pn "*" [.cst 0 1, .leaf u]]]]]
  else if op = "atanh" then
    .pn "*" [.cst (1 / 2) 0, .pn "ln" [.pn "/"
      [.pn "+" [.cst 1 0, .leaf u], .pn "-" [.cst 1 0, .leaf u]]]]
  else if op = "cosh" then
    .pn "*" [.cst (1 / 2) 0, .pn "+" [.pn "exp" [.leaf u],
      .pn "exp" [.pn ".-" [.leaf u]]]]
  else if op = "log10" then
    .pn "/" [.pn "ln" [.leaf u], .pn "ln" [.cst 10 0]]
  else if op = "log2" then
    .pn "/" [.pn "ln" [.leaf u], .pn "ln" [.cst 2 0]]
  else if op = "sinc" then
    .pn "/" [.pn "sin" [.leaf u], .leaf u]
  else if op = "sinh" then
    .pn "*" [.cst (1 / 2) 0, .pn "-" [.pn "exp" [.leaf u],
      .pn "exp" [.pn ".-" [.leaf u]]]]
  else if op = "sqrt" then
    .pn "^" [.leaf u, .cst (1 / 2) 0]
  else
    .pn "/" [.pn "-" [.pn "exp" [.leaf u], .pn "exp" [.pn ".-" [.leaf u]]],
      .pn "+" [.pn "exp" [.leaf u], .pn "exp" [.pn ".-" [.leaf u]]]]

/-- Errors of the heap evaluator (the eval throws plus fuel exhaustion of
the model). -/
inductive HErr : Type where
  | unknownVar (id : String)
  | unimplemented (op : String)
  | typeErr
  | outOfFuel

/-- A binding for the heap evaluator: names to node addresses (the source
`dict` holds node references, which `eval` returns unchanged). -/
def HCtx : Type := String → Option ℕ

/-- `Term.eval(dict, node)` in the heap model: every `new TermNode(...)`
of the source allocates, the field writes of a case hit only the `res`
node allocated at entry, `"const"` nodes and dictionary hits return
existing addresses, and the function-identity cases allocate their
transient tree and recurse on it.  Returns the result address and the
heap after the call. -/
noncomputable def evalH (dict : HCtx) : ℕ → ℕ → Store → Except HErr ℕ × Store
  | 0, _, σ => (.error .outOfFuel, σ)
  | fuel + 1, a, σ =>
    let r0 := alloc σ ⟨"const", [], 0, 0⟩
    let res := r0.1
    let σ0 := r0.2
    match σ0[a]? with
    | none => (.error .typeErr, σ0)
    | some nd =>
      if nd.op = "const" then (.ok a, σ0)
      else if nd.op ∈ binOps then
        match nd.c with
        | ia :: ib :: _ =>
          match evalH dict fuel ia σ0 with
          | (.error e, σ1) => (.error e, σ1)
          | (.ok ua, σ1) =>
            match evalH dict fuel ib σ1 with
            | (.error e, σ2) => (.error e, σ2)
            | (.ok va, σ2) =>
              if nd.op = "^" then
                let s := allocT σ2
                  (.pn "exp" [.pn "*" [.leaf va, .pn "ln" [.leaf ua]]])
                evalH dict fuel s.1 s.2
              else
                match σ2[ua]?, σ2[va]? with
                | some un, some vn =>
                  let uv := binVal nd.op (un.re, un.im) (vn.re, vn.im)
                  (.ok res, setConstVal σ2 res uv.1 uv.2)
                | _, _ => (.error .typeErr, σ2)
        | _ => (.error .typeErr, σ0)
      else if nd.op ∈ unOps then
        match nd.c with
        | ia :: _ =>
          match evalH dict fuel ia σ0 with
          | (.error e, σ1) => (.error e, σ1)
          | (.ok ua, σ1) =>
            if nd.op ∈ directUnOps then
              match σ1[ua]? with
              | some un =>
                let uv := unVal nd.op (un.re, un.im)
                (.ok res, setConstVal σ1 res uv.1 uv.2)
              | none => (.error .typeErr, σ1)
            else
              let s := allocT σ1 (transientTree nd.op ua)
              evalH dict fuel s.1 s.2
        | _ => (.error .typeErr, σ0)
      else if strStarts nd.op "var:" then
        let id := strDrop nd.op 4
        if id = "pi" then
          let s := alloc σ0 ⟨"const", [], Real.pi, 0⟩
          (.ok s.1, s.2)
        else if id = "e" then
          let s := alloc σ0 ⟨"const", [], Real.exp 1, 0⟩
          (.ok s.1, s.2)
        else if id = "i" then
          let s := alloc σ0 ⟨"const", [], 0, 1⟩
          (.ok s.1, s.2)
        else if id = "true" then
          let s := alloc σ0 ⟨"const", [], 1, 0⟩
          (.ok s.1, s.2)
        else if id = "false" then
          let s := alloc σ0 ⟨"const", [], 0, 0⟩
          (.ok s.1, s.2)
        else match dict id with
          | some x => (.ok x, σ0)
          | none => (.error (.unknownVar id), σ0)
      else (.error (.unimplemented nd.op), σ0)

/-- The variable names `parseInfix` can produce: one of the multi-character
names `pi`, `true`, `false`, `C1`, `C2`, or a single letter/underscore
other than `I` (which is canonicalized to `i`). -/
def validVarName (n : String) : Bool :=
  (["pi", "true", "false", "C1", "C2"] : List String).contains n ||
    (match n.data with
     | [ch] => isAlphaCh ch && ch != 'I'
     | _ => false)

/-- The internal temporary names of `compareODE`'s two-phase renaming:
`"_C" + i` (canonical renaming) and `"__C" + i` (permutation renaming),
with at least one digit. -/
def isOdeTempName (n : String) : Bool :=
  match n.data with
  | '_' :: '_' :: 'C' :: ds => !ds.isEmpty && ds.all isNumCh
  | '_' :: 'C' :: ds => !ds.isEmpty && ds.all isNumCh
  | _ => false

/-- The node shapes the parser constructs: constants, binary operators with
two operands, unary operators with one operand, and variables with a valid
name. -/
def goodShape (op : String) (c : List TermNode) : Bool :=
  op == "const" ||
  (binOps.contains op && c.length == 2) ||
  (unOps.contains op && c.length == 1) ||
  (strStarts op "var:" && validVarName (strDrop op 4) && c.isEmpty)

mutual

/-- Every node of the tree has a parser-constructible shape. -/
def goodTree : TermNode → Bool
  | .mk op c _ _ _ => goodShape op c && goodTreeList c

/-- `goodTree` on a child list. -/
def goodTreeList : List TermNode → Bool
  | [] => true
  | t :: ts => goodTree t && goodTreeList ts

end

/-- Two characters of mixed numeral/letter class (the classes of
`Term.next`'s boundary test). -/
def mixedPair (a b : Char) : Bool :=
  (isNumCh a && isAlphaCh b) || (isAlphaCh a && isNumCh b)

/-- The class structure `Term.next` guarantees for every token it emits: a
character whose class is mixed against the token's first character occurs
only at position 1, and only after a leading `'C'` (the ODE-constant
carve-out keeps exactly one such character joined). -/
def tokenOK (t : List Char) : Bool :=
  match t with
  | [] => true
  | _ :: [] => true
  | t0 :: r1 :: rest2 =>
    (!(mixedPair t0 r1) || t0 == 'C') && rest2.all (fun ch => !(mixedPair t0 ch))

/-- The random-stream positions one `Term.compare` trial consumes: two per
variable not bound by the predefined context. -/
def nonFixedCount (vars : List String) (fixed : Ctx) : ℕ :=
  (vars.filter (fun v => (fixed v).isNone)).length

/-- The context of trial `i` of `Term.compare(tu, tv, fixed)`: the
variable-binding loop run at the stream position where trial `i` starts. -/
noncomputable def trialCtx (tu tv : Term) (fixed : Ctx) (rnd : ℕ → ℝ)
    (i : ℕ) : Ctx :=
  (buildCtxAux fixed rnd (compareVars tu tv)
    (emptyCtx, 2 * nonFixedCount (compareVars tu tv) fixed * i)).1

/-- Trial `i` passes: both evaluations succeed and the distance of the two
values stays within `EPS`. -/
noncomputable def trialPass (tu tv : Term) (fixed : Ctx) (rnd : ℕ → ℝ)
    (i : ℕ) : Prop :=
  ∃ u v, evalNode (trialCtx tu tv fixed rnd i) tu.root = .ok u ∧
    evalNode (trialCtx tu tv fixed rnd i) tv.root = .ok v ∧
    Real.sqrt ((u.1 - v.1) * (u.1 - v.1) + (u.2 - v.2) * (u.2 - v.2)) ≤ evalEPS

/-- Trial `i` fails: both evaluations succeed and the distance exceeds
`EPS`. -/
noncomputable def trialFail (tu tv : Term) (fixed : Ctx) (rnd : ℕ → ℝ)
    (i : ℕ) : Prop :=
  ∃ u v, evalNode (trialCtx tu tv fixed rnd i) tu.root = .ok u ∧
    evalNode (trialCtx tu tv fixed rnd i) tv.root = .ok v ∧
    evalEPS < Real.sqrt ((u.1 - v.1) * (u.1 - v.1) + (u.2 - v.2) * (u.2 - v.2))

/-- Appending a character that passed the boundary test keeps the token
class structure. -/
theorem tokenOK_append (tok : List Char) (ch : Char) (h : tokenOK tok = true)
    (hb : ¬(boundaryStop tok ch = true ∧ tok ≠ ['C'])) :
    tokenOK (tok ++ [ch]) = true := by
  match tok, h with
  | [], _ => rfl
  | [t0], _ =>
    by_cases hc : t0 = 'C'
    · simp [tokenOK, hc]
    · have hnb : ¬ boundaryStop [t0] ch = true := by
        intro hbs
        exact hb ⟨hbs, by simp [hc]⟩
      have hm : mixedPair t0 ch = false := by
        simpa [boundaryStop, mixedPair] using hnb
      simp [tokenOK, hm]
  | t0 :: r1 :: rest2, h =>
    have hnb : ¬ boundaryStop (t0 :: r1 :: rest2) ch = true := by
      intro hbs
      exact hb ⟨hbs, by simp⟩
    have hm : mixedPair t0 ch = false := by
      simpa [boundaryStop, mixedPair] using hnb
    simp only [tokenOK, List.cons_append, Bool.and_eq_true, List.all_append,
      List.all_cons, List.all_nil, Bool.and_true] at h ⊢
    exact ⟨h.1, h.2, by simp [hm]⟩

/-- Every token the scanner returns from a class-respecting accumulator
respects the class structure. -/
theorem scanTok_ok :
    ∀ rest tok, tokenOK tok = true → tokenOK (scanTok tok rest).1 = true := by
  intro rest
  induction rest with
  | nil => intro tok h; simpa [scanTok] using h
  | cons ch rest ih =>
    intro tok h
    rw [scanTok]
    split
    · exact h
    · next hb =>
      split
      · split
        · exact h
        · split
          · exact h
          · rfl
      · exact ih _ (tokenOK_append tok ch h hb)

/-- Every token of the fuel-indexed token stream respects the class
structure. -/
theorem tokenizeF_ok :
    ∀ fuel input, ∀ t ∈ tokenizeF fuel input, tokenOK t = true := by
  intro fuel
  induction fuel with
  | zero => intro input t ht; simp [tokenizeF] at ht
  | succ n ih =>
    intro input t ht
    rw [tokenizeF] at ht
    by_cases h0 : (scanTok [] (skipWs input).2).1 = []
    · simp [h0] at ht
    · simp only [h0, if_false] at ht
      rcases List.mem_cons.mp ht with h1 | h2
      · subst h1
        exact scanTok_ok _ [] rfl
      · exact ih _ t h2

/-- Every token of the token stream respects the class structure. -/
theorem tokenize_ok :
    ∀ input, ∀ t ∈ tokenize input, tokenOK t = true := by
  intro input t ht
  exact tokenizeF_ok _ _ t ht

/-- C4: the lexer forces a token boundary between numeral and letter runs,
but the `C` carve-out keeps exactly ONE digit joined after a leading `C`
(the exception applies only while the token so far is exactly `"C"`), and
after such a `C`+digit prefix further letters may join too.  Stated as the
class-structure invariant `tokenOK` for every token of every input,
together with the concrete boundary behaviour on `"2pi"`, `"pi2"` and
`"C1"`. -/
theorem lexer_boundary_spec :
    (∀ s : String, ∀ t ∈ tokenizeStr s, tokenOK t.data = true)
  ∧ tokenizeStr "2pi" = ["2", "pi"]
  ∧ tokenizeStr "pi2" = ["pi", "2"]
  ∧ tokenizeStr "C1" = ["C1"] := by
  refine ⟨?_, by decide, by decide, by decide⟩
  intro s t ht
  simp only [tokenizeStr, List.mem_map] at ht
  obtain ⟨l, hl, rfl⟩ := ht
  exact tokenize_ok _ l hl

/-- C4 counterexample: `"C12"` does NOT lex as the single joined token
`"C12"` the claim describes; the exception stops after one digit, giving
`"C1"` then `"2"`. -/
theorem lexer_C12_counterexample :
    tokenizeStr "C12" = ["C1", "2"] ∧ tokenizeStr "C12" ≠ ["C12"] := by
  constructor
  · decide
  · decide

/-- `Except.bind` on a success. -/
theorem ebind_ok {α β ε : Type} (a : α) (f : α → Except ε β) :
    (Except.ok a >>= f) = f a := rfl

/-- `Except.bind` on an error. -/
theorem ebind_err {α β ε : Type} (e : ε) (f : α → Except ε β) :
    ((Except.error e : Except ε α) >>= f) = .error e := rfl

/-- A binary node over good children is good. -/
theorem goodTree_bin (op : String) (hop : binOps.contains op = true)
    (a b : TermNode) (ha : goodTree a = true) (hb : goodTree b = true) :
    goodTree (.mk op [a, b] 0 0 false) = true := by
  simp [goodTree, goodTreeList, goodShape, hop, ha, hb]
  exact Or.inr (by simpa using hop)

/-- A unary node over a good child is good. -/
theorem goodTree_un (op : String) (hop : unOps.contains op = true)
    (a : TermNode) (ha : goodTree a = true) :
    goodTree (.mk op [a] 0 0 false) = true := by
  simp [goodTree, goodTreeList, goodShape, hop, ha]
  exact Or.inr (by simpa using hop)

/-- A constant node is good. -/
theorem goodTree_const (q q2 : ℚ) (ep : Bool) :
    goodTree (.mk "const" [] q q2 ep) = true := by
  simp [goodTree, goodTreeList, goodShape]

/-- Setting `explicitParentheses` preserves goodness. -/
theorem goodTree_setEP (t : TermNode) (h : goodTree t = true) :
    goodTree t.setEP = true := by
  match t, h with
  | .mk op c re im ep, h => simpa [TermNode.setEP, goodTree] using h

/-- A variable node with a valid name is good. -/
theorem goodTree_var (id : String) (h : validVarName id = true) :
    goodTree (.mk ("var:" ++ id) [] 0 0 false) = true := by
  have hdata : ("var:" ++ id).data = 'v' :: 'a' :: 'r' :: ':' :: id.data := by
    simp [String.data_append]
  have hpre : strStarts ("var:" ++ id) "var:" = true := by
    simp [strStarts, hdata, List.isPrefixOf]
  have hdrop : strDrop ("var:" ++ id) 4 = id := by
    simp only [strDrop, hdata, List.drop_succ_cons, List.drop_zero]
  simp [goodTree, goodTreeList, goodShape, hpre, hdrop, h]

/-- The result of `fun1`, when non-empty, is one of the unary operator
names handled by `Term.eval`. -/
theorem fun1_unOps (st : PState) (h : fun1 st ≠ "") :
    unOps.contains (fun1 st) = true := by
  cases hf : fun1List.find? (fun f => f.data.isPrefixOf (st.tok.map Char.toLower)) with
  | none => exact absurd (by rw [fun1, hf]) h
  | some f =>
    have hmem := List.mem_of_find?_eq_some hf
    have hall : fun1List.all (fun g => unOps.contains g) = true := by decide
    have hf2 : fun1 st = f := by rw [fun1, hf]
    rw [hf2]
    exact (List.all_eq_true.mp hall) f hmem

/-- Every tree any parser entry point returns is built from
parser-constructible node shapes (`goodTree`); the loop variants preserve
goodness of their accumulated node. -/
theorem parser_good :
    ∀ fuel : ℕ,
      (∀ sas st t st1, parseExpr fuel sas st = .ok (t, st1) → goodTree t = true) ∧
      (∀ sas st t st1, parseAdd fuel sas st = .ok (t, st1) → goodTree t = true) ∧
      (∀ sas nd st t st1, goodTree nd = true →
        parseAddLoop fuel sas nd st = .ok (t, st1) → goodTree t = true) ∧
      (∀ sas st t st1, parseMul fuel sas st = .ok (t, st1) → goodTree t = true) ∧
      (∀ sas nd st t st1, goodTree nd = true →
        parseMulLoop fuel sas nd st = .ok (t, st1) → goodTree t = true) ∧
      (∀ sas st t st1, parsePow fuel sas st = .ok (t, st1) → goodTree t = true) ∧
      (∀ sas nd st t st1, goodTree nd = true →
        parsePowLoop fuel sas nd st = .ok (t, st1) → goodTree t = true) ∧
      (∀ sas st t st1, parseUnary fuel sas st = .ok (t, st1) → goodTree t = true) ∧
      (∀ sas st t st1, parseInfixTerm fuel sas st = .ok (t, st1) → goodTree t = true) := by
  intro fuel
  induction fuel with
  | zero =>
    refine ⟨?_, ?_, ?_, ?_, ?_, ?_, ?_, ?_, ?_⟩ <;> intro sas
    case _ => intro st t st1 h; simp [parseExpr] at h
    case _ => intro st t st1 h; simp [parseAdd] at h
    case _ => intro nd st t st1 hg h; simp [parseAddLoop] at h
    case _ => intro st t st1 h; simp [parseMul] at h
    case _ => intro nd st t st1 hg h; simp [parseMulLoop] at h
    case _ => intro st t st1 h; simp [parsePow] at h
    case _ => intro nd st t st1 hg h; simp [parsePowLoop] at h
    case _ => intro st t st1 h; simp [parseUnary] at h
    case _ => intro st t st1 h; simp [parseInfixTerm] at h
  | succ n ih =>
    obtain ⟨ihE, ihA, ihAL, ihM, ihML, ihP, ihPL, ihU, ihI⟩ := ih
    refine ⟨?_, ?_, ?_, ?_, ?_, ?_, ?_, ?_, ?_⟩
    -- parseExpr
    · intro sas st t st1 h
      rw [parseExpr] at h
      exact ihA sas st t st1 h
    -- parseAdd
    · intro sas st t st1 h
      rw [parseAdd] at h
      cases hm : parseMul n sas st with
      | error e => rw [hm, ebind_err] at h; simp at h
      | ok r =>
        obtain ⟨rt, rs⟩ := r
        rw [hm, ebind_ok] at h
        exact ihAL sas rt rs t st1 (ihM sas st rt rs hm) h
    -- parseAddLoop
    · intro sas nd st t st1 hg h
      rw [parseAddLoop] at h
      by_cases hc : st.tok = ['+'] ∨ st.tok = ['-']
      · rw [if_pos hc] at h
        by_cases hs : sas ∧ st.sws
        · rw [if_pos hs] at h
          simp only [Except.ok.injEq, Prod.mk.injEq] at h
          exact h.1 ▸ hg
        · rw [if_neg hs] at h
          cases hm : parseMul n sas (pnextFull st) with
          | error e => rw [hm, ebind_err] at h; simp at h
          | ok r =>
            obtain ⟨rt, rs⟩ := r
            rw [hm, ebind_ok] at h
            have hrt := ihM sas (pnextFull st) rt rs hm
            have hbin : goodTree (.mk (String.mk st.tok) [nd, rt] 0 0 false) = true := by
              rcases hc with hc | hc <;> rw [hc] <;>
                exact goodTree_bin _ (by decide) _ _ hg hrt
            exact ihAL sas _ rs t st1 hbin h
      · rw [if_neg hc] at h
        simp only [Except.ok.injEq, Prod.mk.injEq] at h
        exact h.1 ▸ hg
    -- parseMul
    · intro sas st t st1 h
      rw [parseMul] at h
      cases hm : parsePow n sas st with
      | error e => rw [hm, ebind_err] at h; simp at h
      | ok r =>
        obtain ⟨rt, rs⟩ := r
        rw [hm, ebind_ok] at h
        exact ihML sas rt rs t st1 (ihP sas st rt rs hm) h
    -- parseMulLoop
    · intro sas nd st t st1 hg h
      rw [parseMulLoop] at h
      by_cases hs : sas ∧ st.sws
      · rw [if_pos hs] at h
        simp only [Except.ok.injEq, Prod.mk.injEq] at h
        exact h.1 ▸ hg
      · rw [if_neg hs] at h
        by_cases hc : st.tok = ['*'] ∨ st.tok = ['/']
        · rw [if_pos hc] at h
          cases hm : parsePow n sas (pnextFull st) with
          | error e => rw [hm, ebind_err] at h; simp at h
          | ok r =>
            obtain ⟨rt, rs⟩ := r
            rw [hm, ebind_ok] at h
            have hrt := ihP sas (pnextFull st) rt rs hm
            have hbin : goodTree (.mk (String.mk st.tok) [nd, rt] 0 0 false) = true := by
              rcases hc with hc | hc <;> rw [hc] <;>
                exact goodTree_bin _ (by decide) _ _ hg hrt
            exact ihML sas _ rs t st1 hbin h
        · rw [if_neg hc] at h
          by_cases hp : ¬sas ∧ st.tok = ['(']
          · rw [if_pos hp] at h
            cases hm : parsePow n sas st with
            | error e => rw [hm, ebind_err] at h; simp at h
            | ok r =>
              obtain ⟨rt, rs⟩ := r
              rw [hm, ebind_ok] at h
              have hrt := ihP sas st rt rs hm
              exact ihML sas _ rs t st1 (goodTree_bin _ (by decide) _ _ hg hrt) h
          · rw [if_neg hp] at h
            cases htok : st.tok with
            | nil =>
              simp only [htok] at h
              simp only [Except.ok.injEq, Prod.mk.injEq] at h
              exact h.1 ▸ hg
            | cons t0 rest =>
              simp only [htok] at h
              by_cases ha : isAlphaCh t0 = true ∨ isNumCh t0 = true
              · rw [if_pos ha] at h
                cases hm : parsePow n sas st with
                | error e => rw [hm, ebind_err] at h; simp at h
                | ok r =>
                  obtain ⟨rt, rs⟩ := r
                  rw [hm, ebind_ok] at h
                  have hrt := ihP sas st rt rs hm
                  exact ihML sas _ rs t st1 (goodTree_bin _ (by decide) _ _ hg hrt) h
              · rw [if_neg ha] at h
                simp only [Except.ok.injEq, Prod.mk.injEq] at h
                exact h.1 ▸ hg
    -- parsePow
    · intro sas st t st1 h
      rw [parsePow] at h
      cases hm : parseUnary n sas st with
      | error e => rw [hm, ebind_err] at h; simp at h
      | ok r =>
        obtain ⟨rt, rs⟩ := r
        rw [hm, ebind_ok] at h
        exact ihPL sas rt rs t st1 (ihU sas st rt rs hm) h
    -- parsePowLoop
    · intro sas nd st t st1 hg h
      rw [parsePowLoop] at h
      by_cases hc : st.tok = ['^']
      · rw [if_pos hc] at h
        by_cases hs : sas ∧ st.sws
        · rw [if_pos hs] at h
          simp only [Except.ok.injEq, Prod.mk.injEq] at h
          exact h.1 ▸ hg
        · rw [if_neg hs] at h
          cases hm : parseUnary n sas (pnextFull st) with
          | error e => rw [hm, ebind_err] at h; simp at h
          | ok r =>
            obtain ⟨rt, rs⟩ := r
            rw [hm, ebind_ok] at h
            have hrt := ihU sas (pnextFull st) rt rs hm
            have hbin : goodTree (.mk (String.mk st.tok) [nd, rt] 0 0 false) = true := by
              rw [hc]
              exact goodTree_bin _ (by decide) _ _ hg hrt
            exact ihPL sas _ rs t st1 hbin h
      · rw [if_neg hc] at h
        simp only [Except.ok.injEq, Prod.mk.injEq] at h
        exact h.1 ▸ hg
    -- parseUnary
    · intro sas st t st1 h
      rw [parseUnary] at h
      by_cases hc : st.tok = ['-']
      · rw [if_pos hc] at h
        cases hm : parseMul n sas (pnextFull st) with
        | error e => rw [hm, ebind_err] at h; simp at h
        | ok r =>
          obtain ⟨rt, rs⟩ := r
          rw [hm, ebind_ok] at h
          simp only [Except.ok.injEq, Prod.mk.injEq] at h
          have hrt := ihM sas (pnextFull st) rt rs hm
          exact h.1 ▸ goodTree_un ".-" (by decide) rt hrt
      · rw [if_neg hc] at h
        exact ihI sas st t st1 h
    -- parseInfixTerm
    · intro sas st t st1 h
      rw [parseInfixTerm] at h
      cases htok : st.tok with
      | nil => simp only [htok] at h; simp at h
      | cons t0 rest =>
        simp only [htok] at h
        by_cases hnum : isNumCh t0 = true
        · rw [if_pos hnum] at h
          by_cases hdot : (pnextFull st).tok = ['.']
          · rw [if_pos hdot] at h
            by_cases hne : (pnextFull (pnextFull st)).tok ≠ []
            · rw [if_pos hne] at h
              simp only [Except.ok.injEq, Prod.mk.injEq] at h
              exact h.1 ▸ goodTree_const _ _ _
            · rw [if_neg hne] at h
              simp only [Except.ok.injEq, Prod.mk.injEq] at h
              exact h.1 ▸ goodTree_const _ _ _
          · rw [if_neg hdot] at h
            simp only [Except.ok.injEq, Prod.mk.injEq] at h
            exact h.1 ▸ goodTree_const _ _ _
        · rw [if_neg hnum] at h
          by_cases hfun : fun1 st ≠ ""
          · rw [if_pos hfun] at h
            have hop := fun1_unOps st hfun
            by_cases hpar : (pnextN (fun1 st).length st).tok = ['(']
            · rw [if_pos hpar] at h
              cases hm : parseExpr n sas (pnextFull (pnextN (fun1 st).length st)) with
              | error e => rw [hm, ebind_err] at h; simp at h
              | ok r =>
                obtain ⟨rt, rs⟩ := r
                rw [hm, ebind_ok] at h
                have hrt := ihE sas _ rt rs hm
                by_cases hcl : rs.tok = [')']
                · rw [if_pos hcl] at h
                  simp only [Except.ok.injEq, Prod.mk.injEq] at h
                  exact h.1 ▸ goodTree_un _ hop rt hrt
                · rw [if_neg hcl] at h; simp at h
            · rw [if_neg hpar] at h
              cases hm : parseMul n true (pnextN (fun1 st).length st) with
              | error e => rw [hm, ebind_err] at h; simp at h
              | ok r =>
                obtain ⟨rt, rs⟩ := r
                rw [hm, ebind_ok] at h
                simp only [Except.ok.injEq, Prod.mk.injEq] at h
                have hrt := ihM true _ rt rs hm
                exact h.1 ▸ goodTree_un _ hop rt hrt
          · rw [if_neg hfun] at h
            by_cases hpar : (t0 :: rest) = ['(']
            · rw [if_pos hpar] at h
              cases hm : parseExpr n sas (pnextFull st) with
              | error e => rw [hm, ebind_err] at h; simp at h
              | ok r =>
                obtain ⟨rt, rs⟩ := r
                rw [hm, ebind_ok] at h
                have hrt := ihE sas _ rt rs hm
                by_cases hcl : rs.tok = [')']
                · rw [if_pos hcl] at h
                  simp only [Except.ok.injEq, Prod.mk.injEq] at h
                  exact h.1 ▸ goodTree_setEP rt hrt
                · rw [if_neg hcl] at h; simp at h
            · rw [if_neg hpar] at h
              by_cases hbar : (t0 :: rest) = ['|']
              · rw [if_pos hbar] at h
                cases hm : parseExpr n sas (pnextFull st) with
                | error e => rw [hm, ebind_err] at h; simp at h
                | ok r =>
                  obtain ⟨rt, rs⟩ := r
                  rw [hm, ebind_ok] at h
                  have hrt := ihE sas _ rt rs hm
                  by_cases hcl : rs.tok = ['|']
                  · rw [if_pos hcl] at h
                    simp only [Except.ok.injEq, Prod.mk.injEq] at h
                    exact h.1 ▸ goodTree_un "abs" (by decide) rt hrt
                  · rw [if_neg hcl] at h; simp at h
              · rw [if_neg hbar] at h
                by_cases halpha : isAlphaCh t0 = true
                · rw [if_pos halpha] at h
                  simp only [Except.ok.injEq, Prod.mk.injEq] at h
                  refine h.1 ▸ goodTree_var _ ?_
                  by_cases hpi : (t0 :: rest).take 2 = ['p', 'i']
                  · simp only [hpi, if_pos, if_true, reduceIte]
                    decide
                  · by_cases htr : (t0 :: rest).take 4 = ['t', 'r', 'u', 'e']
                    · simp only [hpi, htr, if_false, if_true, reduceIte]
                      decide
                    · by_cases hfa : (t0 :: rest).take 5 = ['f', 'a', 'l', 's', 'e']
                      · simp only [hpi, htr, hfa, if_false, if_true, reduceIte]
                        decide
                      · by_cases hc1 : (t0 :: rest).take 2 = ['C', '1']
                        · simp only [hpi, htr, hfa, hc1, if_false, if_true, reduceIte]
                          decide
                        · by_cases hc2 : (t0 :: rest).take 2 = ['C', '2']
                          · simp only [hpi, htr, hfa, hc1, hc2, if_false, if_true, reduceIte]
                            decide
                          · simp only [hpi, htr, hfa, hc1, hc2, if_false, reduceIte]
                            by_cases hI : String.mk [t0] = "I"
                            · simp only [hI, if_true, reduceIte]
                              decide
                            · rw [if_neg hI]
                              have ht0 : t0 ≠ 'I' := by
                                intro he
                                exact hI (by rw [he])
                              simp [validVarName, halpha, bne_iff_ne, ht0]
                · rw [if_neg halpha] at h
                  simp at h

/-- Goodness of a child list gives goodness of each member. -/
theorem goodTreeList_mem :
    ∀ c : List TermNode, goodTreeList c = true → ∀ x ∈ c, goodTree x = true := by
  intro c
  induction c with
  | nil => intro _ x hx; simp at hx
  | cons a as ih =>
    intro h x hx
    rw [goodTreeList, Bool.and_eq_true] at h
    rcases List.mem_cons.mp hx with rfl | hx2
    · exact h.1
    · exact ih h.2 x hx2

/-- The shape disjunction behind `goodShape`. -/
theorem goodShape_cases (op : String) (c : List TermNode)
    (h : goodShape op c = true) :
    op = "const" ∨ (op ∈ binOps ∧ ∃ a b, c = [a, b]) ∨
      (op ∈ unOps ∧ ∃ a, c = [a]) ∨ (strStarts op "var:" = true ∧ c = []) := by
  simp only [goodShape, Bool.or_eq_true, Bool.and_eq_true, beq_iff_eq] at h
  rcases h with ((h1 | ⟨h2, hl⟩) | ⟨h3, hl⟩) | ⟨⟨h4, _⟩, hl⟩
  · exact Or.inl h1
  · refine Or.inr (Or.inl ⟨by simpa using h2, ?_⟩)
    match c, hl with
    | [a, b], _ => exact ⟨a, b, rfl⟩
  · refine Or.inr (Or.inr (Or.inl ⟨by simpa using h3, ?_⟩))
    match c, hl with
    | [a], _ => exact ⟨a, rfl⟩
  · exact Or.inr (Or.inr (Or.inr ⟨h4, by simpa using hl⟩))

/-- Unfolding: the `"const"` case of `Term.eval`. -/
theorem evalNode_const (dict : Ctx) (c : List TermNode) (re im : ℚ) (ep : Bool) :
    evalNode dict (.mk "const" c re im ep) = .ok ((re : ℝ), (im : ℝ)) := by
  rw [evalNode.eq_def]
  simp

/-- Unfolding: the binary case of `Term.eval`. -/
theorem evalNode_bin (dict : Ctx) (op : String) (a b : TermNode)
    (c : List TermNode) (re im : ℚ) (ep : Bool)
    (h1 : ¬op = "const") (h2 : op ∈ binOps) :
    evalNode dict (.mk op (a :: b :: c) re im ep) =
      (do
        let u ← evalNode dict a
        let v ← evalNode dict b
        .ok (binVal op u v)) := by
  rw [evalNode.eq_def]
  simp only [if_neg h1, if_pos h2]

/-- Unfolding: the unary case of `Term.eval`. -/
theorem evalNode_un (dict : Ctx) (op : String) (a : TermNode)
    (c : List TermNode) (re im : ℚ) (ep : Bool)
    (h1 : ¬op = "const") (h2 : ¬op ∈ binOps) (h3 : op ∈ unOps) :
    evalNode dict (.mk op (a :: c) re im ep) =
      (do
        let u ← evalNode dict a
        .ok (unVal op u)) := by
  rw [evalNode.eq_def]
  simp only [if_neg h1, if_neg h2, if_pos h3]

/-- Unfolding: the default (`var:`/unimplemented) case of `Term.eval`. -/
theorem evalNode_default (dict : Ctx) (op : String)
    (c : List TermNode) (re im : ℚ) (ep : Bool)
    (h1 : ¬op = "const") (h2 : ¬op ∈ binOps) (h3 : ¬op ∈ unOps) :
    evalNode dict (.mk op c re im ep) =
      (if strStarts op "var:" = true then
        if strDrop op 4 = "pi" then .ok ((Real.pi, 0) : Cplx)
        else if strDrop op 4 = "e" then .ok ((Real.exp 1, 0) : Cplx)
        else if strDrop op 4 = "i" then .ok ((0, 1) : Cplx)
        else if strDrop op 4 = "true" then .ok ((1, 0) : Cplx)
        else if strDrop op 4 = "false" then .ok ((0, 0) : Cplx)
        else match dict (strDrop op 4) with
          | some x => .ok x
          | none => .error (.unknownVar (strDrop op 4))
      else .error (.unimplemented op)) := by
  rw [evalNode.eq_def]
  simp only [if_neg h1]
  cases c with
  | nil => simp only [if_neg h2, if_neg h3]
  | cons x xs =>
    cases xs with
    | nil => simp only [if_neg h2, if_neg h3]
    | cons y ys => simp only [if_neg h2, if_neg h3]

/-- On a good tree, the only error `Term.eval` can raise is the
unknown-variable error: the `UNIMPLEMENTED` default branch and the operand
`TypeError` are unreachable. -/
theorem evalNode_good_err (t : TermNode) (hg : goodTree t = true) :
    ∀ dict e, evalNode dict t = .error e → e.isUnknownVar = true := by
  induction t using TermNode.inductionOn with
  | h op c re im ep ih =>
    intro dict e h
    rw [goodTree, Bool.and_eq_true] at hg
    have hkids := goodTreeList_mem c hg.2
    rcases goodShape_cases op c hg.1 with hconst | ⟨hbin, a, b, hc⟩ |
      ⟨hun, a, hc⟩ | ⟨hvar, hc⟩
    · subst hconst
      rw [evalNode_const] at h
      cases h
    · subst hc
      have hnc : ¬op = "const" := by
        rintro rfl; revert hbin; decide
      rw [evalNode_bin dict op a b [] re im ep hnc hbin] at h
      cases ha : evalNode dict a with
      | error ea =>
        rw [ha, ebind_err] at h
        cases h
        exact ih a (by simp) (hkids a (by simp)) dict _ ha
      | ok ua =>
        rw [ha, ebind_ok] at h
        cases hb : evalNode dict b with
        | error eb =>
          rw [hb, ebind_err] at h
          cases h
          exact ih b (by simp) (hkids b (by simp)) dict _ hb
        | ok ub =>
          rw [hb, ebind_ok] at h
          simp at h
    · subst hc
      have hnc : ¬op = "const" := by
        rintro rfl; revert hun; decide
      have hnb : ¬op ∈ binOps := by
        intro hx
        rcases (by simpa [binOps] using hx : op = "+" ∨ op = "-" ∨ op = "*" ∨
          op = "/" ∨ op = "^") with rfl | rfl | rfl | rfl | rfl <;> revert hun <;> decide
      rw [evalNode_un dict op a [] re im ep hnc hnb hun] at h
      cases ha : evalNode dict a with
      | error ea =>
        rw [ha, ebind_err] at h
        cases h
        exact ih a (by simp) (hkids a (by simp)) dict _ ha
      | ok ua =>
        rw [ha, ebind_ok] at h
        simp at h
    · subst hc
      have hnc : ¬op = "const" := by
        rintro rfl; revert hvar; decide
      have hnb : ¬op ∈ binOps := by
        intro hx
        rcases (by simpa [binOps] using hx : op = "+" ∨ op = "-" ∨ op = "*" ∨
          op = "/" ∨ op = "^") with rfl | rfl | rfl | rfl | rfl <;> revert hvar <;> decide
      have hnu : ¬op ∈ unOps := by
        intro hx
        have := (by decide : unOps.all (fun o => !(strStarts o "var:")) = true)
        have h2 := (List.all_eq_true.mp this) op hx
        rw [hvar] at h2
        cases h2
      rw [evalNode_default dict op [] re im ep hnc hnb hnu, if_pos hvar] at h
      by_cases h1 : strDrop op 4 = "pi"
      · rw [if_pos h1] at h; cases h
      · rw [if_neg h1] at h
        by_cases h2 : strDrop op 4 = "e"
        · rw [if_pos h2] at h; cases h
        · rw [if_neg h2] at h
          by_cases h3 : strDrop op 4 = "i"
          · rw [if_pos h3] at h; cases h
          · rw [if_neg h3] at h
            by_cases h4 : strDrop op 4 = "true"
            · rw [if_pos h4] at h; cases h
            · rw [if_neg h4] at h
              by_cases h5 : strDrop op 4 = "false"
              · rw [if_pos h5] at h; cases h
              · rw [if_neg h5] at h
                cases hd : dict (strDrop op 4) with
                | some x => rw [hd] at h; cases h
                | none =>
                  rw [hd] at h
                  cases h
                  rfl

/-- Decidable equality of `Except` results (used to evaluate concrete
parses by `decide`). -/
instance exceptDecEq {e a : Type} [DecidableEq e] [DecidableEq a] :
    DecidableEq (Except e a) := fun x y =>
  match x, y with
  | .ok u, .ok v =>
    if h : u = v then .isTrue (by rw [h])
    else .isFalse (fun hc => h (by cases hc; rfl))
  | .error u, .error v =>
    if h : u = v then .isTrue (by rw [h])
    else .isFalse (fun hc => h (by cases hc; rfl))
  | .ok _, .error _ => .isFalse (fun hc => Except.noConfusion hc)
  | .error _, .ok _ => .isFalse (fun hc => Except.noConfusion hc)

/-- A parsed term has a good tree. -/
theorem parse_goodTree (s : String) (t : Term) (h : Term.parse s = .ok t) :
    goodTree t.root = true := by
  rw [Term.parse] at h
  cases hp : parseExpr ((s.data.length + 8) * 8) false
      (pnextFull ⟨s.data, [], false⟩) with
  | error e =>
    simp only [hp] at h
    simp at h
  | ok r =>
    simp only [hp] at h
    by_cases ht : r.2.tok ≠ []
    · rw [if_pos ht] at h
      cases h
    · rw [if_neg ht] at h
      cases h
      exact (parser_good _).1 false _ r.1 r.2 (by rw [hp])

/-- C8: on any term returned by `Term.parse`, under any variable binding,
`Term.eval` never reaches the `UNIMPLEMENTED` default branch (nor an
operand `TypeError`): the only evaluation error reachable on parser output
is the unknown-variable error. -/
theorem parse_eval_no_unimplemented (s : String) (t : Term)
    (h : Term.parse s = .ok t) :
    ∀ dict e, evalNode dict t.root = .error e → e.isUnknownVar = true :=
  evalNode_good_err t.root (parse_goodTree s t h)

/-- The tree of `parse("sin x")`. -/
def tSinX : TermNode := .mk "sin" [.mk "var:x" [] 0 0 false] 0 0 false

/-- C8 witness: `"sin x"` parses, evaluating it under the empty binding
raises exactly the unknown-variable error, and that error is an
unknown-variable error. -/
theorem parse_eval_no_unimplemented_witness :
    Term.parse "sin x" = .ok ⟨tSinX⟩ ∧
    evalNode emptyCtx tSinX = .error (.unknownVar "x") ∧
    EvalErr.isUnknownVar (.unknownVar "x") = true := by
  have hp : Term.parse "sin x" = .ok ⟨tSinX⟩ := by decide
  have hx : evalNode emptyCtx (TermNode.mk "var:x" [] 0 0 false) =
      .error (.unknownVar "x") := by
    rw [evalNode_default emptyCtx "var:x" [] 0 0 false (by decide) (by decide)
      (by decide)]
    simp [strStarts, strDrop, emptyCtx]
  have he : evalNode emptyCtx tSinX = .error (.unknownVar "x") := by
    simp only [tSinX]
    rw [evalNode_un emptyCtx "sin" _ [] 0 0 false (by decide) (by decide)
      (by decide)]
    rw [hx, ebind_err]
  exact ⟨hp, he, parse_eval_no_unimplemented "sin x" ⟨tSinX⟩ hp emptyCtx _ he⟩

/-- On a good node, a `var:`-prefixed operator carries a valid name. -/
theorem goodShape_var_name (op : String) (c : List TermNode)
    (h : goodShape op c = true) (hv : strStarts op "var:" = true) :
    validVarName (strDrop op 4) = true := by
  rcases goodShape_cases op c h with hconst | ⟨hbin, _⟩ | ⟨hun, _⟩ | ⟨_, _⟩
  · rw [hconst] at hv
    cases hv
  · rcases (by simpa [binOps] using hbin : op = "+" ∨ op = "-" ∨ op = "*" ∨
      op = "/" ∨ op = "^") with rfl | rfl | rfl | rfl | rfl <;> cases hv
  · have hall : unOps.all (fun o => !(strStarts o "var:")) = true := by decide
    have h2 := (List.all_eq_true.mp hall) op hun
    rw [hv] at h2
    cases h2
  · simp only [goodShape, Bool.or_eq_true, Bool.and_eq_true, beq_iff_eq] at h
    rcases h with ((h1 | ⟨h2, _⟩) | ⟨h3, _⟩) | ⟨⟨_, h4⟩, _⟩
    · rw [h1] at hv; cases hv
    · rcases (by simpa [binOps] using h2 : op = "+" ∨ op = "-" ∨ op = "*" ∨
        op = "/" ∨ op = "^") with rfl | rfl | rfl | rfl | rfl <;> cases hv
    · have hall : unOps.all (fun o => !(strStarts o "var:")) = true := by decide
      have hx := (List.all_eq_true.mp hall) op (by simpa using h3)
      rw [hv] at hx
      cases hx
    · exact h4

/-- `pushUnique` adds at most the pushed name. -/
theorem pushUnique_mem (acc : List String) (id n : String)
    (h : n ∈ pushUnique acc id) : n ∈ acc ∨ n = id := by
  rw [pushUnique] at h
  split at h
  · exact Or.inl h
  · rcases List.mem_append.mp h with h1 | h2
    · exact Or.inl h1
    · exact Or.inr (by simpa using h2)

mutual

/-- Names collected from a good tree are either already in the accumulator
or valid variable names. -/
theorem collectVars_valid (pfx : String) :
    ∀ t, goodTree t = true → ∀ acc n, n ∈ collectVars pfx t acc →
      n ∈ acc ∨ validVarName n = true
  | .mk op c re im ep => by
    intro hg acc n hn
    rw [goodTree, Bool.and_eq_true] at hg
    rw [collectVars] at hn
    have step := collectVarsList_valid pfx c hg.2 _ n hn
    rcases step with hmem | hvalid
    · split at hmem
      · next hcond =>
        rcases pushUnique_mem _ _ _ hmem with h1 | h2
        · exact Or.inl h1
        · exact Or.inr (h2 ▸ goodShape_var_name op c hg.1 hcond.1)
      · exact Or.inl hmem
    · exact Or.inr hvalid

/-- `collectVars_valid` over a child list. -/
theorem collectVarsList_valid (pfx : String) :
    ∀ cs, goodTreeList cs = true → ∀ acc n, n ∈ collectVarsList pfx cs acc →
      n ∈ acc ∨ validVarName n = true
  | [] => by
    intro _ acc n hn
    rw [collectVarsList] at hn
    exact Or.inl hn
  | t :: ts => by
    intro hg acc n hn
    rw [goodTreeList, Bool.and_eq_true] at hg
    rw [collectVarsList] at hn
    rcases collectVarsList_valid pfx ts hg.2 _ n hn with h1 | h2
    · exact collectVars_valid pfx t hg.1 acc n h1
    · exact Or.inr h2

end

/-- A temp name has at least three characters. -/
theorem isOdeTempName_length (n : String) (h : isOdeTempName n = true) :
    3 ≤ n.data.length := by
  rw [isOdeTempName] at h
  split at h
  · rename_i ds heq
    rw [heq]
    simp
  · rename_i ds heq
    rw [heq]
    rw [Bool.and_eq_true] at h
    cases ds with
    | nil => simp at h
    | cons a as => simp
  · cases h

/-- Valid parser variable names are never `compareODE` temporaries. -/
theorem validVarName_not_temp (n : String) (h : validVarName n = true) :
    isOdeTempName n = false := by
  rw [validVarName, Bool.or_eq_true] at h
  rcases h with h1 | h2
  · have hm : n ∈ ["pi", "true", "false", "C1", "C2"] := by simpa using h1
    simp only [List.mem_cons, List.not_mem_nil, or_false] at hm
    rcases hm with rfl | rfl | rfl | rfl | rfl <;> decide
  · cases hd : n.data with
    | nil => rw [hd] at h2; cases h2
    | cons ch tl =>
      cases tl with
      | nil =>
        cases hod : isOdeTempName n with
        | false => rfl
        | true =>
          have := isOdeTempName_length n hod
          rw [hd] at this
          simp at this
      | cons ch2 tl2 => rw [hd] at h2; cases h2

/-- C10: every variable node in a term returned by `Term.parse` carries a
name from the parser's name set (single letters or underscore with `I`
canonicalized to `i`, or `pi`, `true`, `false`, `C1`, `C2`), and no such
name is a `compareODE` internal temporary of the form `_C<digits>` or
`__C<digits>`, so the two-phase renaming cannot capture a parsed
variable. -/
theorem parse_var_names (s : String) (t : Term) (h : Term.parse s = .ok t) :
    ∀ n ∈ t.getVars, validVarName n = true ∧ isOdeTempName n = false := by
  intro n hn
  have hg := parse_goodTree s t h
  rcases collectVars_valid "" t.root hg [] n hn with h1 | h2
  · cases h1
  · exact ⟨h2, validVarName_not_temp n h2⟩

/-- C10 witness: `"C1x"` parses to `C1 * x`, whose collected names `C1`, `x`
are valid and are not renaming temporaries. -/
theorem parse_var_names_witness :
    Term.parse "C1x" =
      .ok ⟨.mk "*" [.mk "var:C1" [] 0 0 false, .mk "var:x" [] 0 0 false]
        0 0 false⟩ ∧
    (validVarName "C1" = true ∧ isOdeTempName "C1" = false) ∧
    (validVarName "x" = true ∧ isOdeTempName "x" = false) := by
  have hp : Term.parse "C1x" =
      .ok ⟨.mk "*" [.mk "var:C1" [] 0 0 false, .mk "var:x" [] 0 0 false]
        0 0 false⟩ := by decide
  refine ⟨hp, ?_, ?_⟩
  · exact parse_var_names "C1x" _ hp "C1" (by decide)
  · exact parse_var_names "C1x" _ hp "x" (by decide)

/-- `var:pi` evaluates to `π` under every binding (the builtin shadows the
dictionary). -/
theorem evalNode_varpi (ctx : Ctx) :
    evalNode ctx (TermNode.mk "var:pi" [] 0 0 false) =
      .ok ((Real.pi, 0) : Cplx) := by
  rw [evalNode_default ctx "var:pi" [] 0 0 false (by decide) (by decide)
    (by decide)]
  rw [if_pos (by decide), if_pos (by decide)]

/-- `Term.compare` of a term against itself returns `true` whenever its
evaluation succeeds on every binding: every trial distance is zero. -/
theorem compareTrials_self (t : Term) (fixed : Ctx) (vars : List String)
    (rnd : ℕ → ℝ) (he : ∀ ctx : Ctx, ∃ v, evalNode ctx t.root = .ok v) :
    ∀ n i, compareTrials t t fixed vars rnd n i = .ok true := by
  intro n
  induction n with
  | zero => intro i; rw [compareTrials]
  | succ m ih =>
    intro i
    rw [compareTrials]
    obtain ⟨v, hv⟩ := he (buildCtxAux fixed rnd vars (emptyCtx, i)).1
    simp only [hv, ebind_ok]
    have hc : ¬ Real.sqrt ((v.1 - v.1) * (v.1 - v.1) +
        (v.2 - v.2) * (v.2 - v.2)) > evalEPS := by
      rw [sub_self, sub_self]
      norm_num [evalEPS]
    rw [if_neg hc]
    exact ih _

/-- The tree of `parse("sin 2pi")` and of `parse("sin(2*pi)")`. -/
def tSin2pi : Term :=
  ⟨.mk "sin" [.mk "*" [.mk "const" [] 2 0 false, .mk "var:pi" [] 0 0 false]
    0 0 false] 0 0 false⟩

/-- The tree of `parse("sin 2 pi")` and of `parse("sin(2)*pi")`. -/
def tSin2xPi : Term :=
  ⟨.mk "*" [.mk "sin" [.mk "const" [] 2 0 false] 0 0 false,
    .mk "var:pi" [] 0 0 false] 0 0 false⟩

/-- Evaluation of `tSin2pi` succeeds under every binding. -/
theorem tSin2pi_eval (ctx : Ctx) :
    ∃ v, evalNode ctx tSin2pi.root = .ok v := by
  refine ⟨unVal "sin" (binVal "*" (((2 : ℚ) : ℝ), ((0 : ℚ) : ℝ))
    (Real.pi, 0)), ?_⟩
  show evalNode ctx (.mk "sin" [.mk "*" [.mk "const" [] 2 0 false,
    .mk "var:pi" [] 0 0 false] 0 0 false] 0 0 false) = _
  rw [evalNode_un ctx "sin" _ [] 0 0 false (by decide) (by decide) (by decide)]
  rw [evalNode_bin ctx "*" _ _ [] 0 0 false (by decide) (by decide)]
  rw [evalNode_const, evalNode_varpi]
  rfl

/-- Evaluation of `tSin2xPi` succeeds under every binding. -/
theorem tSin2xPi_eval (ctx : Ctx) :
    ∃ v, evalNode ctx tSin2xPi.root = .ok v := by
  refine ⟨binVal "*" (unVal "sin" (((2 : ℚ) : ℝ), ((0 : ℚ) : ℝ)))
    (Real.pi, 0), ?_⟩
  show evalNode ctx (.mk "*" [.mk "sin" [.mk "const" [] 2 0 false] 0 0 false,
    .mk "var:pi" [] 0 0 false] 0 0 false) = _
  rw [evalNode_bin ctx "*" _ _ [] 0 0 false (by decide) (by decide)]
  rw [evalNode_un ctx "sin" _ [] 0 0 false (by decide) (by decide) (by decide)]
  rw [evalNode_const, evalNode_varpi]
  rfl

/-- C5: whitespace-sensitive function-argument scoping.  `"sin 2pi"` and
`"sin(2*pi)"` parse to the SAME tree `sin(2*pi)`, so their comparison
returns `true`; `"sin 2 pi"` and `"sin(2)*pi"` parse to the same tree
`sin(2)*pi`, so their comparison returns `true`; and the two trees are not
structurally identical. -/
theorem whitespace_scoping :
    Term.parse "sin 2pi" = .ok tSin2pi ∧
    Term.parse "sin(2*pi)" = .ok tSin2pi ∧
    Term.parse "sin 2 pi" = .ok tSin2xPi ∧
    Term.parse "sin(2)*pi" = .ok tSin2xPi ∧
    (∀ rnd, Term.compare tSin2pi tSin2pi emptyCtx rnd = .ok true) ∧
    (∀ rnd, Term.compare tSin2xPi tSin2xPi emptyCtx rnd = .ok true) ∧
    tSin2pi ≠ tSin2xPi := by
  refine ⟨by decide, by decide, by decide, by decide, ?_, ?_, by decide⟩
  · intro rnd
    exact compareTrials_self tSin2pi emptyCtx _ rnd tSin2pi_eval 10 0
  · intro rnd
    exact compareTrials_self tSin2xPi emptyCtx _ rnd tSin2xPi_eval 10 0

/-- Unfolding: the `const` case of the NaN/Infinity-model evaluator. -/
theorem evalF_const (dict : CtxF) (c : List TermNode) (re im : ℚ) (ep : Bool) :
    evalF dict (.mk "const" c re im ep) =
      .ok (.num (re : ℝ), .num (im : ℝ)) := by
  rw [evalF.eq_def]
  simp

/-- Unfolding: the binary case of the NaN/Infinity-model evaluator. -/
theorem evalF_bin (dict : CtxF) (op : String) (a b : TermNode)
    (c : List TermNode) (re im : ℚ) (ep : Bool)
    (h1 : ¬op = "const") (h2 : op ∈ binOps) :
    evalF dict (.mk op (a :: b :: c) re im ep) =
      (do
        let u ← evalF dict a
        let v ← evalF dict b
        .ok (binValF op u v)) := by
  rw [evalF.eq_def]
  simp only [if_neg h1, if_pos h2]

/-- The tree of `parse("0/0")`. -/
def t00 : Term :=
  ⟨.mk "/" [.mk "const" [] 0 0 false, .mk "const" [] 0 0 false] 0 0 false⟩

/-- The tree of `parse("123")`. -/
def t123 : Term := ⟨.mk "const" [] 123 0 false⟩

/-- Evaluating `0/0` in the NaN/Infinity model gives NaN in both
components: the denominator `0*0 + 0*0` is an exact zero, and so are both
numerators, so each component is the IEEE quotient `0/0 = NaN`. -/
theorem evalF_t00 : evalF emptyCtxF t00.root = .ok (.nan, .nan) := by
  show evalF emptyCtxF (.mk "/" [.mk "const" [] 0 0 false,
    .mk "const" [] 0 0 false] 0 0 false) = _
  rw [evalF_bin emptyCtxF "/" _ _ [] 0 0 false (by decide) (by decide)]
  rw [evalF_const, ebind_ok, ebind_ok]
  simp only [binValF]
  rw [if_neg (by decide), if_neg (by decide), if_neg (by decide),
    if_pos trivial]
  simp [cDivF, jsMul, jsAdd, jsSub, jsDiv]

/-- C2: the epsilon comparison does NOT reject NaN trials.  `parse("0/0")`
evaluates to NaN in both components, but `Term.compare` of it against
`parse("123")` returns `true` rather than `false`: in every trial the
difference is NaN, the IEEE comparison `NaN > EPS` is false, so the trial
counts as passed and after 10 such trials the comparison answers `true`. -/
theorem nan_comparison_bug :
    Term.parse "0/0" = .ok t00 ∧
    Term.parse "123" = .ok t123 ∧
    evalF emptyCtxF t00.root = .ok (.nan, .nan) ∧
    (∀ rnd, Term.compareF t00 t123 emptyCtxF rnd = .ok true) := by
  refine ⟨by decide, by decide, evalF_t00, ?_⟩
  have h123 : evalF emptyCtxF t123.root =
      .ok (.num ((123 : ℚ) : ℝ), .num ((0 : ℚ) : ℝ)) := by
    show evalF emptyCtxF (.mk "const" [] 123 0 false) = _
    exact evalF_const emptyCtxF [] 123 0 false
  have htrial : ∀ (rnd : ℕ → ℝ) (n i : ℕ),
      compareTrialsF t00 t123 emptyCtxF [] rnd n i = .ok true := by
    intro rnd n
    induction n with
    | zero => intro i; rw [compareTrialsF]
    | succ m ih =>
      intro i
      rw [compareTrialsF]
      simp only [buildCtxAuxF, evalF_t00, h123, ebind_ok]
      rw [if_neg (by simp [jsSub, jsMul, jsAdd, jsSqrt, jsGtR])]
      exact ih i
  intro rnd
  show compareTrialsF t00 t123 emptyCtxF (compareVars t00 t123) rnd 10 0 =
    .ok true
  rw [show compareVars t00 t123 = [] from by decide]
  exact htrial rnd 10 0

/-- `var:e` evaluates to Euler's number under every binding (the builtin
shadows the dictionary, so a random binding of `"e"` is never read). -/
theorem evalNode_vare (ctx : Ctx) :
    evalNode ctx (TermNode.mk "var:e" [] 0 0 false) =
      .ok ((Real.exp 1, 0) : Cplx) := by
  rw [evalNode_default ctx "var:e" [] 0 0 false (by decide) (by decide)
    (by decide)]
  rw [if_pos (by decide), if_neg (by decide), if_pos (by decide)]

/-- The tree of `parse("1000000000000000000000")`: the constant `10^21`. -/
def tBig : Term := ⟨.mk "const" [] (10 ^ 21) 0 false⟩

/-- The tree of `parse("1e+21")`: the SUM `(1*e) + 21` with Euler's `e`. -/
def tE : Term :=
  ⟨.mk "+" [.mk "*" [.mk "const" [] 1 0 false, .mk "var:e" [] 0 0 false]
    0 0 false, .mk "const" [] 21 0 false] 0 0 false⟩

/-- `tE` evaluates to `e + 21` under every binding. -/
theorem evalNode_tE (ctx : Ctx) :
    evalNode ctx tE.root = .ok ((Real.exp 1 + 21, 0) : Cplx) := by
  show evalNode ctx (.mk "+" [.mk "*" [.mk "const" [] 1 0 false,
    .mk "var:e" [] 0 0 false] 0 0 false, .mk "const" [] 21 0 false]
    0 0 false) = _
  rw [evalNode_bin ctx "+" _ _ [] 0 0 false (by decide) (by decide)]
  rw [evalNode_bin ctx "*" _ _ [] 0 0 false (by decide) (by decide)]
  simp only [evalNode_const, evalNode_vare, ebind_ok]
  norm_num [binVal, cAdd, cMul]
  rw [if_neg (show ¬ ("*" : String) = "+" from by decide),
    if_neg (show ¬ ("*" : String) = "-" from by decide)]
  exact ⟨rfl, rfl⟩

/-- `tBig` evaluates to `10^21` under every binding. -/
theorem evalNode_tBig (ctx : Ctx) :
    evalNode ctx tBig.root = .ok (((10 : ℝ) ^ 21, 0) : Cplx) := by
  show evalNode ctx (.mk "const" [] (10 ^ 21) 0 false) = _
  rw [evalNode_const]
  norm_num

/-- C3: the round trip through `toString` is NOT compare-equal for every
parseable input.  The 22-digit literal `10^21` parses to the constant
`10^21`, but `toString` renders it in ECMAScript exponential notation as
`"1e+21"`, which re-parses as the sum `(1 * e) + 21` with Euler's number
`e`; the comparison of the two evaluates `e + 21` against `10^21` and
returns `false` on the first trial. -/
theorem toString_tBig : Term.toString tBig = "1e+21" := by
  show TermNode.toString (.mk "const" [] (10 ^ 21) 0 false) = _
  rw [TermNode.toString]
  rw [if_pos (show "const" = "const" from rfl)]
  simp only []
  rw [if_neg (show ¬(jsAbsQ (10 ^ 21) > (1 : ℚ) / 10 ^ 14 ∧
    jsAbsQ 0 > (1 : ℚ) / 10 ^ 14 ∧ (0 : ℚ) ≥ 0) from by norm_num [jsAbsQ])]
  rw [if_neg (show ¬(jsAbsQ (10 ^ 21) > (1 : ℚ) / 10 ^ 14 ∧
    jsAbsQ 0 > (1 : ℚ) / 10 ^ 14 ∧ (0 : ℚ) < 0) from by norm_num [jsAbsQ])]
  rw [if_pos (show jsAbsQ (10 ^ 21) > (1 : ℚ) / 10 ^ 14 ∧
    (10 ^ 21 : ℚ) > 0 from by norm_num [jsAbsQ])]
  decide

theorem tostring_roundtrip_bug :
    Term.parse "1000000000000000000000" = .ok tBig ∧
    Term.toString tBig = "1e+21" ∧
    Term.parse "1e+21" = .ok tE ∧
    (∀ rnd, Term.compare tE tBig emptyCtx rnd = .ok false) := by
  refine ⟨by decide, toString_tBig, by decide, ?_⟩
  have hgt : Real.sqrt ((Real.exp 1 + 21 - (10 : ℝ) ^ 21) *
      (Real.exp 1 + 21 - (10 : ℝ) ^ 21) + ((0 : ℝ) - 0) * ((0 : ℝ) - 0)) >
      evalEPS := by
    have he3 : Real.exp 1 < 3 := by
      have h9 := Real.exp_one_lt_d9
      linarith
    have ha : (0 : ℝ) ≤ (10 : ℝ) ^ 21 - (Real.exp 1 + 21) := by
      norm_num
      linarith
    have hs : Real.sqrt ((Real.exp 1 + 21 - (10 : ℝ) ^ 21) *
        (Real.exp 1 + 21 - (10 : ℝ) ^ 21) + ((0 : ℝ) - 0) * ((0 : ℝ) - 0)) =
        (10 : ℝ) ^ 21 - (Real.exp 1 + 21) := by
      rw [show (Real.exp 1 + 21 - (10 : ℝ) ^ 21) *
        (Real.exp 1 + 21 - (10 : ℝ) ^ 21) + ((0 : ℝ) - 0) * ((0 : ℝ) - 0) =
        ((10 : ℝ) ^ 21 - (Real.exp 1 + 21)) ^ 2 from by ring]
      exact Real.sqrt_sq ha
    rw [hs, evalEPS]
    norm_num
    linarith
  intro rnd
  show compareTrials tE tBig emptyCtx (compareVars tE tBig) rnd 10 0 =
    .ok false
  rw [show (10 : ℕ) = 9 + 1 from rfl]
  rw [compareTrials]
  simp only [evalNode_tE, evalNode_tBig, ebind_ok]
  rw [if_pos hgt]

/-- The line-search loop always exits with a result whose iteration count
stays at most 1000, as long as the term evaluates at every real value of
the decision variable. -/
theorem minimizeLoop_ok (t : Term) (dvId : String) (vars : Ctx)
    (he : ∀ x : ℝ, ∃ v, evalNode (ctxSet vars dvId (x, 0)) t.root = .ok v) :
    ∀ m cnt dv step ld, cnt ≤ 1000 → 1000 - cnt = m →
      ∃ K n, n ≤ 1000 ∧
        minimizeLoop t dvId vars cnt dv step ld = .ok (K, n) := by
  intro m
  induction m using Nat.strong_induction_on with
  | _ m ih =>
    intro cnt dv step ld hcnt hm
    by_cases hlt : cnt < 1000
    · obtain ⟨y, hy⟩ := he dv
      obtain ⟨yR, hyR⟩ := he (dv + step)
      obtain ⟨yL, hyL⟩ := he (dv - step)
      rw [minimizeLoop, if_pos hlt]
      simp only [hy, hyR, hyL, ebind_ok]
      repeat' split
      all_goals
        first
          | exact ⟨_, cnt, hcnt, rfl⟩
          | exact ih (1000 - (cnt + 1)) (by omega) (cnt + 1) _ _ _ (by omega)
              rfl
    · rw [minimizeLoop, if_neg hlt]
      exact ⟨dv, cnt, hcnt, rfl⟩

/-- C7: for every term, decision-variable name and context whose term
evaluates at every real value of the decision variable, `minimize`
terminates: the line search `minimizeLoop` (started at `dvValue = 0`,
`step = 1`, direction sentinel 888) exits after at most 1000 counted
iterations with some final `K`, and `minimize` returns the pair
`[K, f(K)]` where `f(K)` is the real part of the term evaluated at `K`. -/
theorem minimize_terminates (t : Term) (dvId : String) (vars : Ctx)
    (he : ∀ x : ℝ, ∃ v, evalNode (ctxSet vars dvId (x, 0)) t.root = .ok v) :
    ∃ K n yv, n ≤ 1000 ∧
      minimizeLoop t dvId vars 0 0 1 888 = .ok (K, n) ∧
      evalNode (ctxSet vars dvId (K, 0)) t.root = .ok yv ∧
      minimize t dvId vars = .ok (K, yv.1) := by
  obtain ⟨K, n, hn, hloop⟩ :=
    minimizeLoop_ok t dvId vars he 1000 0 0 1 888 (by omega) rfl
  obtain ⟨yv, hyv⟩ := he K
  refine ⟨K, n, yv, hn, hloop, hyv, ?_⟩
  show (do
    let r ← minimizeLoop t dvId vars 0 0 1 888
    let y ← evalNode (ctxSet vars dvId (r.1, 0)) t.root
    (.ok (r.1, y.1) : Except EvalErr (ℝ × ℝ))) = .ok (K, yv.1)
  rw [hloop, ebind_ok]
  simp only [hyv, ebind_ok]

/-- Witness: `minimize` on the constant term `5` with decision variable
`"x"` and the empty context. -/
theorem minimize_terminates_witness :
    ∃ K n yv, n ≤ 1000 ∧
      minimizeLoop ⟨.mk "const" [] 5 0 false⟩ "x" emptyCtx 0 0 1 888 =
        .ok (K, n) ∧
      evalNode (ctxSet emptyCtx "x" (K, 0))
        (Term.mk (.mk "const" [] 5 0 false)).root = .ok yv ∧
      minimize ⟨.mk "const" [] 5 0 false⟩ "x" emptyCtx = .ok (K, yv.1) :=
  minimize_terminates ⟨.mk "const" [] 5 0 false⟩ "x" emptyCtx
    (fun x => ⟨_, evalNode_const (ctxSet emptyCtx "x" (x, 0)) [] 5 0 false⟩)

/-- Membership in `pushUnique`. -/
theorem pushUnique_mem_iff (acc : List String) (id n : String) :
    n ∈ pushUnique acc id ↔ n ∈ acc ∨ n = id := by
  rw [pushUnique]
  split
  · next hmem =>
    constructor
    · exact Or.inl
    · rintro (h | rfl)
      · exact h
      · exact hmem
  · simp

mutual

/-- The names collected by `getVars` are the accumulator's names together
with the names collected from the node alone. -/
theorem collectVars_mem (pfx : String) :
    ∀ t acc n, n ∈ collectVars pfx t acc ↔
      n ∈ acc ∨ n ∈ collectVars pfx t []
  | .mk op c re im ep => by
    intro acc n
    rw [collectVars, collectVars]
    by_cases hcond : strStarts op "var:" = true ∧
        (pfx.length = 0 ∨ strStarts (strDrop op 4) pfx = true)
    · rw [if_pos hcond, if_pos hcond]
      rw [collectVarsList_mem pfx c (pushUnique acc (strDrop op 4)) n]
      rw [collectVarsList_mem pfx c (pushUnique [] (strDrop op 4)) n]
      rw [pushUnique_mem_iff, pushUnique_mem_iff]
      simp only [List.not_mem_nil, false_or]
      tauto
    · rw [if_neg hcond, if_neg hcond]
      rw [collectVarsList_mem pfx c acc n]

/-- `collectVars_mem` over a child list. -/
theorem collectVarsList_mem (pfx : String) :
    ∀ cs acc n, n ∈ collectVarsList pfx cs acc ↔
      n ∈ acc ∨ n ∈ collectVarsList pfx cs []
  | [] => by
    intro acc n
    rw [collectVarsList, collectVarsList]
    simp
  | t :: ts => by
    intro acc n
    rw [collectVarsList, collectVarsList]
    rw [collectVarsList_mem pfx ts (collectVars pfx t acc) n]
    rw [collectVarsList_mem pfx ts (collectVars pfx t []) n]
    rw [collectVars_mem pfx t acc n]
    tauto

end

/-- The variable set collected by `Term.compare` is the union of the two
terms' variable sets. -/
theorem compareVars_union (tu tv : Term) (v : String) :
    v ∈ compareVars tu tv ↔ v ∈ tu.getVars ∨ v ∈ tv.getVars := by
  rw [compareVars, collectVars_mem]
  rw [show Term.getVars tu = collectVars "" tu.root [] from rfl]
  rw [show Term.getVars tv = collectVars "" tv.root [] from rfl]

/-- The stream position after the context-building loop: two draws per
variable not bound by the predefined context. -/
theorem buildCtxAux_snd (fixed : Ctx) (rnd : ℕ → ℝ) :
    ∀ vs ctx i, (buildCtxAux fixed rnd vs (ctx, i)).2 =
      i + 2 * nonFixedCount vs fixed := by
  intro vs
  induction vs with
  | nil =>
    intro ctx i
    simp [buildCtxAux, nonFixedCount]
  | cons w vs ih =>
    intro ctx i
    cases hfw : fixed w with
    | some x =>
      rw [show buildCtxAux fixed rnd (w :: vs) (ctx, i) =
        buildCtxAux fixed rnd vs (ctxSet ctx w x, i) from by
          rw [buildCtxAux, hfw]]
      rw [ih]
      simp [nonFixedCount, List.filter_cons, hfw]
    | none =>
      rw [show buildCtxAux fixed rnd (w :: vs) (ctx, i) =
        buildCtxAux fixed rnd vs
          (ctxSet ctx w (rnd i, rnd (i + 1)), i + 2) from by
          rw [buildCtxAux, hfw]]
      rw [ih]
      simp only [nonFixedCount, List.filter_cons, hfw, Option.isNone_none,
        if_true, List.length_cons]
      omega

/-- Variables not in the loop list keep their binding. -/
theorem buildCtxAux_preserve (fixed : Ctx) (rnd : ℕ → ℝ) :
    ∀ vs ctx i v, v ∉ vs →
      (buildCtxAux fixed rnd vs (ctx, i)).1 v = ctx v := by
  intro vs
  induction vs with
  | nil =>
    intro ctx i v _
    rw [buildCtxAux]
  | cons w vs ih =>
    intro ctx i v hv
    have hvw : ¬v = w := fun h => hv (h ▸ List.mem_cons_self w vs)
    have hvs : v ∉ vs := fun h => hv (List.mem_cons_of_mem w h)
    cases hfw : fixed w with
    | some x =>
      rw [show buildCtxAux fixed rnd (w :: vs) (ctx, i) =
        buildCtxAux fixed rnd vs (ctxSet ctx w x, i) from by
          rw [buildCtxAux, hfw]]
      rw [ih _ _ v hvs]
      simp [ctxSet, hvw]
    | none =>
      rw [show buildCtxAux fixed rnd (w :: vs) (ctx, i) =
        buildCtxAux fixed rnd vs
          (ctxSet ctx w (rnd i, rnd (i + 1)), i + 2) from by
          rw [buildCtxAux, hfw]]
      rw [ih _ _ v hvs]
      simp [ctxSet, hvw]

/-- Every variable of the loop list ends up bound: to its predefined value
when the predefined context knows it, else to a pair of consecutive draws
of the random stream. -/
theorem buildCtxAux_mem (fixed : Ctx) (rnd : ℕ → ℝ) :
    ∀ vs ctx i v, v ∈ vs →
      (∃ x, fixed v = some x ∧
        (buildCtxAux fixed rnd vs (ctx, i)).1 v = some x) ∨
      (fixed v = none ∧ ∃ k,
        (buildCtxAux fixed rnd vs (ctx, i)).1 v =
          some (rnd k, rnd (k + 1))) := by
  intro vs
  induction vs with
  | nil =>
    intro ctx i v hv
    exact absurd hv (List.not_mem_nil v)
  | cons w vs ih =>
    intro ctx i v hv
    by_cases hvs : v ∈ vs
    · cases hfw : fixed w with
      | some x =>
        rw [show buildCtxAux fixed rnd (w :: vs) (ctx, i) =
          buildCtxAux fixed rnd vs (ctxSet ctx w x, i) from by
            rw [buildCtxAux, hfw]]
        exact ih _ _ v hvs
      | none =>
        rw [show buildCtxAux fixed rnd (w :: vs) (ctx, i) =
          buildCtxAux fixed rnd vs
            (ctxSet ctx w (rnd i, rnd (i + 1)), i + 2) from by
            rw [buildCtxAux, hfw]]
        exact ih _ _ v hvs
    · have hvw : v = w := by
        rcases List.mem_cons.mp hv with h | h
        · exact h
        · exact absurd h hvs
      cases hfw : fixed w with
      | some x =>
        rw [show buildCtxAux fixed rnd (w :: vs) (ctx, i) =
          buildCtxAux fixed rnd vs (ctxSet ctx w x, i) from by
            rw [buildCtxAux, hfw]]
        left
        refine ⟨x, hvw ▸ hfw, ?_⟩
        rw [buildCtxAux_preserve fixed rnd vs _ _ v hvs]
        simp [ctxSet, hvw]
      | none =>
        rw [show buildCtxAux fixed rnd (w :: vs) (ctx, i) =
          buildCtxAux fixed rnd vs
            (ctxSet ctx w (rnd i, rnd (i + 1)), i + 2) from by
            rw [buildCtxAux, hfw]]
        right
        refine ⟨hvw ▸ hfw, i, ?_⟩
        rw [buildCtxAux_preserve fixed rnd vs _ _ v hvs]
        simp [ctxSet, hvw]

/-- Characterization of the trial loop of `Term.compare`, trial `k`
onwards: it answers `true` iff every remaining trial passes, and `false`
iff some remaining trial fails strictly after all earlier ones pass. -/
theorem compareTrials_char (tu tv : Term) (fixed : Ctx) (rnd : ℕ → ℝ) :
    ∀ n k,
      (compareTrials tu tv fixed (compareVars tu tv) rnd n
          (2 * nonFixedCount (compareVars tu tv) fixed * k) = .ok true ↔
        ∀ j < n, trialPass tu tv fixed rnd (k + j)) ∧
      (compareTrials tu tv fixed (compareVars tu tv) rnd n
          (2 * nonFixedCount (compareVars tu tv) fixed * k) = .ok false ↔
        ∃ j, j < n ∧ trialFail tu tv fixed rnd (k + j) ∧
          ∀ l < j, trialPass tu tv fixed rnd (k + l)) := by
  intro n
  induction n with
  | zero =>
    intro k
    rw [compareTrials]
    constructor
    · constructor
      · intro _ j hj
        exact absurd hj (Nat.not_lt_zero j)
      · intro _
        rfl
    · constructor
      · intro h
        exact absurd h (by simp)
      · rintro ⟨j, hj, -⟩
        exact absurd hj (Nat.not_lt_zero j)
  | succ m ih =>
    intro k
    have hc1 : (buildCtxAux fixed rnd (compareVars tu tv)
        (emptyCtx, 2 * nonFixedCount (compareVars tu tv) fixed * k)).1 =
        trialCtx tu tv fixed rnd k := rfl
    have hc2 : (buildCtxAux fixed rnd (compareVars tu tv)
        (emptyCtx, 2 * nonFixedCount (compareVars tu tv) fixed * k)).2 =
        2 * nonFixedCount (compareVars tu tv) fixed * (k + 1) := by
      rw [buildCtxAux_snd]
      ring
    rw [compareTrials]
    simp only [hc1, hc2]
    cases h1 : evalNode (trialCtx tu tv fixed rnd k) tu.root with
    | error e =>
      simp only [ebind_err]
      have hnp : ¬trialPass tu tv fixed rnd k := by
        rintro ⟨u, v, hu, -, -⟩
        rw [h1] at hu
        exact Except.noConfusion hu
      have hnf : ¬trialFail tu tv fixed rnd k := by
        rintro ⟨u, v, hu, -, -⟩
        rw [h1] at hu
        exact Except.noConfusion hu
      constructor
      · constructor
        · intro h
          exact Except.noConfusion h
        · intro hall
          exact absurd (hall 0 (Nat.succ_pos m)) hnp
      · constructor
        · intro h
          exact Except.noConfusion h
        · rintro ⟨j, hj, hfail, hprev⟩
          cases j with
          | zero => exact absurd hfail hnf
          | succ j' => exact absurd (hprev 0 (Nat.succ_pos j')) hnp
    | ok u =>
      cases h2 : evalNode (trialCtx tu tv fixed rnd k) tv.root with
      | error e =>
        simp only [ebind_ok, ebind_err]
        have hnp : ¬trialPass tu tv fixed rnd k := by
          rintro ⟨u', v', -, hv, -⟩
          rw [h2] at hv
          exact Except.noConfusion hv
        have hnf : ¬trialFail tu tv fixed rnd k := by
          rintro ⟨u', v', -, hv, -⟩
          rw [h2] at hv
          exact Except.noConfusion hv
        constructor
        · constructor
          · intro h
            exact Except.noConfusion h
          · intro hall
            exact absurd (hall 0 (Nat.succ_pos m)) hnp
        · constructor
          · intro h
            exact Except.noConfusion h
          · rintro ⟨j, hj, hfail, hprev⟩
            cases j with
            | zero => exact absurd hfail hnf
            | succ j' => exact absurd (hprev 0 (Nat.succ_pos j')) hnp
      | ok v =>
        simp only [ebind_ok]
        by_cases hd : Real.sqrt ((u.1 - v.1) * (u.1 - v.1) +
            (u.2 - v.2) * (u.2 - v.2)) > evalEPS
        · rw [if_pos hd]
          have hfail : trialFail tu tv fixed rnd k := ⟨u, v, h1, h2, hd⟩
          have hnp : ¬trialPass tu tv fixed rnd k := by
            rintro ⟨u', v', hu', hv', hle⟩
            rw [h1] at hu'
            rw [h2] at hv'
            injection hu' with hu''
            injection hv' with hv''
            rw [← hu'', ← hv''] at hle
            exact absurd hle (not_le.mpr hd)
          constructor
          · constructor
            · intro h
              simp at h
            · intro hall
              exact absurd (hall 0 (Nat.succ_pos m)) hnp
          · constructor
            · intro _
              exact ⟨0, Nat.succ_pos m, hfail,
                fun l hl => absurd hl (Nat.not_lt_zero l)⟩
            · intro _
              rfl
        · rw [if_neg hd]
          have hpass : trialPass tu tv fixed rnd k :=
            ⟨u, v, h1, h2, not_lt.mp hd⟩
          obtain ⟨ih1, ih2⟩ := ih (k + 1)
          rw [ih1, ih2]
          constructor
          · constructor
            · intro hall j hj
              cases j with
              | zero => exact hpass
              | succ j' =>
                have hidx : k + (j' + 1) = k + 1 + j' := by omega
                rw [hidx]
                exact hall j' (by omega)
            · intro hall j hj
              have hidx : k + 1 + j = k + (j + 1) := by omega
              rw [hidx]
              exact hall (j + 1) (by omega)
          · constructor
            · rintro ⟨j, hj, hfail, hprev⟩
              refine ⟨j + 1, by omega, ?_, ?_⟩
              · have hidx : k + (j + 1) = k + 1 + j := by omega
                rw [hidx]
                exact hfail
              · intro l hl
                cases l with
                | zero => exact hpass
                | succ l' =>
                  have hidx : k + (l' + 1) = k + 1 + l' := by omega
                  rw [hidx]
                  exact hprev l' (by omega)
            · rintro ⟨j, hj, hfail, hprev⟩
              cases j with
              | zero =>
                exfalso
                simp only [Nat.add_zero] at hfail
                obtain ⟨u', v', hu', hv', hgt⟩ := hfail
                rw [h1] at hu'
                rw [h2] at hv'
                injection hu' with hu''
                injection hv' with hv''
                rw [← hu'', ← hv''] at hgt
                exact absurd (not_lt.mp hd) (not_le.mpr hgt)
              | succ j' =>
                refine ⟨j', by omega, ?_, ?_⟩
                · have hidx : k + 1 + j' = k + (j' + 1) := by omega
                  rw [hidx]
                  exact hfail
                · intro l hl
                  have hidx : k + 1 + l = k + (l + 1) := by omega
                  rw [hidx]
                  exact hprev (l + 1) (by omega)

/-- C1: for every pair of terms, predefined binding, and random stream
drawing in `[0, 1)`, `Term.compare` collects the union of the two terms'
variable names; each trial binds every collected variable to its
predefined value when present and otherwise to a fresh complex value whose
real and imaginary parts are consecutive draws of the stream (hence lie in
`[0, 1)`); the comparison answers `true` iff all 10 trials keep the
complex distance of the two evaluations within `EPS = 1e-9`, and `false`
iff some trial among the 10 exceeds `EPS` after all earlier trials stayed
within it (the first failing trial stops the loop). -/
theorem compare_trial_semantics (tu tv : Term) (fixed : Ctx) (rnd : ℕ → ℝ)
    (hr : ∀ k, 0 ≤ rnd k ∧ rnd k < 1) :
    (∀ v, v ∈ compareVars tu tv ↔ v ∈ tu.getVars ∨ v ∈ tv.getVars) ∧
    (∀ v ∈ compareVars tu tv, ∀ i,
      (∀ x, fixed v = some x → trialCtx tu tv fixed rnd i v = some x) ∧
      (fixed v = none → ∃ re im,
        trialCtx tu tv fixed rnd i v = some (re, im) ∧
        0 ≤ re ∧ re < 1 ∧ 0 ≤ im ∧ im < 1)) ∧
    (Term.compare tu tv fixed rnd = .ok true ↔
      ∀ i < 10, trialPass tu tv fixed rnd i) ∧
    (Term.compare tu tv fixed rnd = .ok false ↔
      ∃ i, i < 10 ∧ trialFail tu tv fixed rnd i ∧
        ∀ j < i, trialPass tu tv fixed rnd j) := by
  have hchar := compareTrials_char tu tv fixed rnd 10 0
  rw [mul_zero] at hchar
  refine ⟨compareVars_union tu tv, ?_, ?_, ?_⟩
  · intro v hv i
    have hmem := buildCtxAux_mem fixed rnd (compareVars tu tv) emptyCtx
      (2 * nonFixedCount (compareVars tu tv) fixed * i) v hv
    constructor
    · intro x hx
      rcases hmem with ⟨x', hfx', hctx⟩ | ⟨hfn, -⟩
      · rw [hx] at hfx'
        injection hfx' with h
        rw [← h] at hctx
        exact hctx
      · rw [hx] at hfn
        exact Option.noConfusion hfn
    · intro hn
      rcases hmem with ⟨x', hfx', -⟩ | ⟨-, k, hctx⟩
      · rw [hn] at hfx'
        exact Option.noConfusion hfx'
      · exact ⟨rnd k, rnd (k + 1), hctx, (hr k).1, (hr k).2,
          (hr (k + 1)).1, (hr (k + 1)).2⟩
  · constructor
    · intro h j hj
      have hp := hchar.1.mp h j hj
      simpa using hp
    · intro hall
      exact hchar.1.mpr (fun j hj => by simpa using hall j hj)
  · constructor
    · intro h
      obtain ⟨j, hj, hfail, hprev⟩ := hchar.2.mp h
      exact ⟨j, hj, by simpa using hfail,
        fun l hl => by simpa using hprev l hl⟩
    · rintro ⟨j, hj, hfail, hprev⟩
      exact hchar.2.mpr ⟨j, hj, by simpa using hfail,
        fun l hl => by simpa using hprev l hl⟩

/-- The single-variable term `x` used to witness the comparison
semantics. -/
def tVarX : Term := ⟨.mk "var:x" [] 0 0 false⟩

/-- Witness: the comparison semantics at `tu = tv = x`, the empty
predefined binding and the constant stream `1/2`. -/
theorem compare_trial_semantics_witness :
    (∀ v, v ∈ compareVars tVarX tVarX ↔
      v ∈ tVarX.getVars ∨ v ∈ tVarX.getVars) ∧
    (∀ v ∈ compareVars tVarX tVarX, ∀ i,
      (∀ x, emptyCtx v = some x →
        trialCtx tVarX tVarX emptyCtx (fun _ => 1 / 2) i v = some x) ∧
      (emptyCtx v = none → ∃ re im,
        trialCtx tVarX tVarX emptyCtx (fun _ => 1 / 2) i v = some (re, im) ∧
        0 ≤ re ∧ re < 1 ∧ 0 ≤ im ∧ im < 1)) ∧
    (Term.compare tVarX tVarX emptyCtx (fun _ => 1 / 2) = .ok true ↔
      ∀ i < 10, trialPass tVarX tVarX emptyCtx (fun _ => 1 / 2) i) ∧
    (Term.compare tVarX tVarX emptyCtx (fun _ => 1 / 2) = .ok false ↔
      ∃ i, i < 10 ∧ trialFail tVarX tVarX emptyCtx (fun _ => 1 / 2) i ∧
        ∀ j < i, trialPass tVarX tVarX emptyCtx (fun _ => 1 / 2) j) :=
  compare_trial_semantics tVarX tVarX emptyCtx (fun _ => 1 / 2)
    (fun _ => ⟨le_of_lt one_half_pos, one_half_lt_one⟩)

/-- The heap grows monotonically and existing nodes keep their fields:
`τ` extends `σ` when every address of `σ` holds the same node in `τ`. -/
def StoreExtends (σ τ : Store) : Prop :=
  σ.length ≤ τ.length ∧ ∀ i, i < σ.length → τ[i]? = σ[i]?

/-- Extension is reflexive. -/
theorem storeExtends_refl (σ : Store) : StoreExtends σ σ :=
  ⟨le_refl _, fun _ _ => rfl⟩

/-- Extension is transitive. -/
theorem storeExtends_trans {σ τ ρ : Store} (h1 : StoreExtends σ τ)
    (h2 : StoreExtends τ ρ) : StoreExtends σ ρ := by
  refine ⟨le_trans h1.1 h2.1, fun i hi => ?_⟩
  rw [h2.2 i (lt_of_lt_of_le hi h1.1), h1.2 i hi]

/-- Appending nodes extends the heap. -/
theorem storeExtends_append (σ l : Store) : StoreExtends σ (σ ++ l) := by
  refine ⟨by simp, fun i hi => ?_⟩
  rw [List.getElem?_append_left hi]

/-- Writing the value fields of a node allocated at or past the end of `σ`
preserves all of `σ`'s nodes. -/
theorem storeExtends_set {σ τ : Store} (h : StoreExtends σ τ) (a : ℕ)
    (ha : σ.length ≤ a) (re im : ℝ) :
    StoreExtends σ (setConstVal τ a re im) := by
  rw [setConstVal]
  split
  · refine ⟨by simpa using h.1, fun i hi => ?_⟩
    rw [List.getElem?_set_ne (by omega), h.2 i hi]
  · exact h

mutual

/-- Allocating a transient tree extends the heap. -/
theorem allocT_extends : ∀ t σ, StoreExtends σ (allocT σ t).2
  | .leaf a => fun σ => storeExtends_refl σ
  | .node op c re im => fun σ => by
    rw [allocT]
    exact storeExtends_trans (allocTList_extends c σ)
      (storeExtends_append _ _)

/-- Allocating a list of transient trees extends the heap. -/
theorem allocTList_extends : ∀ ts σ, StoreExtends σ (allocTList σ ts).2
  | [] => fun σ => storeExtends_refl σ
  | t :: ts => fun σ => by
    rw [allocTList]
    exact storeExtends_trans (allocT_extends t σ)
      (allocTList_extends ts (allocT σ t).2)

end

/-- C9: evaluation never mutates existing nodes.  Whatever `Term.eval`
does on a heap — return a value or throw — the heap after the call extends
the heap before it: every already-allocated node keeps its operator,
children and value fields, and all fresh nodes (the `res` node of each
case, the transient function-identity trees, the builtin-variable
constants) sit strictly past the old end of the heap. -/
theorem evalH_frame (dict : HCtx) :
    ∀ fuel a σ, StoreExtends σ (evalH dict fuel a σ).2 := by
  intro fuel
  induction fuel with
  | zero =>
    intro a σ
    rw [evalH]
    exact storeExtends_refl σ
  | succ f ih =>
    intro a σ
    have ihx : ∀ (i : ℕ) (s : Store) (r : Except HErr ℕ) (s' : Store),
        evalH dict f i s = (r, s') → StoreExtends s s' := by
      intro i s r s' h
      have hh := ih i s
      rw [h] at hh
      exact hh
    rw [evalH]
    simp only []
    repeat' split
    · exact storeExtends_append σ _
    · exact storeExtends_append σ _
    · exact storeExtends_trans (storeExtends_append σ _)
        (ihx _ _ _ _ (by assumption))
    · exact storeExtends_trans
        (storeExtends_trans (storeExtends_append σ _)
          (ihx _ _ _ _ (by assumption)))
        (ihx _ _ _ _ (by assumption))
    · exact storeExtends_trans
        (storeExtends_trans
          (storeExtends_trans (storeExtends_append σ _)
            (ihx _ _ _ _ (by assumption)))
          (ihx _ _ _ _ (by assumption)))
        (storeExtends_trans (allocT_extends _ _) (ih _ _))
    · exact storeExtends_set
        (storeExtends_trans
          (storeExtends_trans (storeExtends_append σ _)
            (ihx _ _ _ _ (by assumption)))
          (ihx _ _ _ _ (by assumption)))
        _ (le_refl _) _ _
    · exact storeExtends_trans
        (storeExtends_trans (storeExtends_append σ _)
          (ihx _ _ _ _ (by assumption)))
        (ihx _ _ _ _ (by assumption))
    · exact storeExtends_append σ _
    · exact storeExtends_trans (storeExtends_append σ _)
        (ihx _ _ _ _ (by assumption))
    · exact storeExtends_set
        (storeExtends_trans (storeExtends_append σ _)
          (ihx _ _ _ _ (by assumption)))
        _ (le_refl _) _ _
    · exact storeExtends_trans (storeExtends_append σ _)
        (ihx _ _ _ _ (by assumption))
    · exact storeExtends_trans
        (storeExtends_trans (storeExtends_append σ _)
          (ihx _ _ _ _ (by assumption)))
        (storeExtends_trans (allocT_extends _ _) (ih _ _))
    · exact storeExtends_append σ _
    · exact storeExtends_trans (storeExtends_append σ _)
        (storeExtends_append _ _)
    · exact storeExtends_trans (storeExtends_append σ _)
        (storeExtends_append _ _)
    · exact storeExtends_trans (storeExtends_append σ _)
        (storeExtends_append _ _)
    · exact storeExtends_trans (storeExtends_append σ _)
        (storeExtends_append _ _)
    · exact storeExtends_trans (storeExtends_append σ _)
        (storeExtends_append _ _)
    · exact storeExtends_append σ _
    · exact storeExtends_append σ _
    · exact storeExtends_append σ _

/-- The final list state of `heapsAlgorithm`'s recursion at size `k`. -/
def hFinal (k : ℕ) (l : List ℕ) : List ℕ := (heapsAux k (l, [])).1

/-- The rows `heapsAlgorithm`'s recursion at size `k` appends. -/
def hRows (k : ℕ) (l : List ℕ) : List (List ℕ) := (heapsAux k (l, [])).2

/-- Rotate the first `k` elements right by one (`k ≥ 1`): the element at
position `k - 1` moves to the front. -/
def rotF (k : ℕ) (l : List ℕ) : List ℕ :=
  match l[k - 1]? with
  | some x => x :: (l.take (k - 1) ++ l.drop k)
  | none => l

/-- The list state before iteration `i` of the `heapsAlgorithm` loop at
size `n` (iteration `i` recurses at size `n - 1`, then swaps positions
`j` and `n - 1` with `j = i` for even `n` and `j = 0` for odd `n`). -/
def heapsIter (n : ℕ) (l : List ℕ) : ℕ → List ℕ
  | 0 => l
  | i + 1 =>
    swapL (hFinal (n - 1) (heapsIter n l i))
      (if n % 2 = 0 then i else 0) (n - 1)

/-- The rows produced by `cnt` loop iterations at size `n` starting from
iteration `i`. -/
def hBlocks (n : ℕ) (l : List ℕ) : ℕ → ℕ → List (List ℕ)
  | _, 0 => []
  | i, cnt + 1 => hRows (n - 1) (heapsIter n l i) ++ hBlocks n l (i + 1) cnt

/-- The recursion and its loop only append to the accumulated rows: both
split as the `[]`-started run appended to the accumulator. -/
theorem heaps_acc : ∀ k,
    (∀ r l R, heapsLoop k r (l, R) =
      ((heapsLoop k r (l, [])).1, R ++ (heapsLoop k r (l, [])).2)) ∧
    (∀ l R, heapsAux k (l, R) =
      ((heapsAux k (l, [])).1, R ++ (heapsAux k (l, [])).2)) := by
  intro k
  induction k using Nat.strong_induction_on with
  | _ k ih =>
    have hloop : ∀ r l R, heapsLoop k r (l, R) =
        ((heapsLoop k r (l, [])).1, R ++ (heapsLoop k r (l, [])).2) := by
      intro r
      induction r with
      | zero =>
        intro l R
        rw [heapsLoop, heapsLoop]
        simp
      | succ r ihr =>
        intro l R
        cases k with
        | zero =>
          have e1 : ∀ s : List ℕ × List (List ℕ), heapsLoop 0 (r + 1) s =
              heapsLoop 0 r (swapL s.1 0 (0 - 1), s.2) := fun s => by
            rw [heapsLoop]
          rw [e1, e1]
          rw [ihr]
        | succ k' =>
          have e1 : ∀ s : List ℕ × List (List ℕ),
              heapsLoop (k' + 1) (r + 1) s =
              heapsLoop (k' + 1) r
                (swapL (heapsAux k' s).1
                  (if (k' + 1) % 2 = 0 then (k' + 1) - (r + 1) else 0) k',
                 (heapsAux k' s).2) := fun s => by
            rw [heapsLoop]
          rw [e1, e1]
          rw [(ih k' (Nat.lt_succ_self k')).2 l R]
          rw [ihr]
          rw [ihr (swapL (heapsAux k' (l, [])).1 _ k')
            (heapsAux k' (l, [])).2]
          simp [List.append_assoc]
    have haux : ∀ l R, heapsAux k (l, R) =
        ((heapsAux k (l, [])).1, R ++ (heapsAux k (l, [])).2) := by
      intro l R
      cases k with
      | zero =>
        rw [heapsAux, heapsAux]
        simp
      | succ k1 =>
        cases k1 with
        | zero =>
          rw [heapsAux, heapsAux]
          simp
        | succ k2 =>
          rw [heapsAux, heapsAux]
          rw [hloop]
    exact ⟨hloop, haux⟩

/-- Swapping congruence under a `cons`. -/
theorem swapL_cons (x : ℕ) (L : List ℕ) (a b : ℕ) :
    swapL (x :: L) (a + 1) (b + 1) = x :: swapL L a b := by
  rw [swapL, swapL]
  rw [List.getElem?_cons_succ, List.getElem?_cons_succ]
  cases L[a]? with
  | none => rfl
  | some u =>
    cases L[b]? with
    | none => rfl
    | some v => rfl

/-- Setting the element right after a prefix. -/
theorem set_at_append (M : List ℕ) (x y : ℕ) (D : List ℕ) :
    (M ++ x :: D).set M.length y = M ++ y :: D := by
  induction M with
  | nil => rfl
  | cons m M ihm =>
    simp only [List.cons_append, List.length_cons, List.set, List.append_eq]
    rw [ihm]

/-- The effect of `swapL` at the block boundaries `|A|` and
`|A| + 1 + |M|` of a structured list. -/
theorem swapL_mid (A : List ℕ) (m : ℕ) (M : List ℕ) (e : ℕ) (D : List ℕ) :
    swapL (A ++ m :: M ++ e :: D) A.length (A.length + 1 + M.length) =
      A ++ e :: M ++ m :: D := by
  induction A with
  | nil =>
    simp only [List.nil_append, List.length_nil]
    have ha : (m :: M ++ e :: D)[0]? = some m := by simp
    have hb : (m :: M ++ e :: D)[0 + 1 + M.length]? = some e := by
      rw [show (0 + 1 + M.length) = M.length + 1 from by omega]
      simp [List.getElem?_cons_succ, List.getElem?_append_right,
        List.getElem_append_right]
    rw [swapL, ha, hb]
    simp only []
    rw [show ((m :: M ++ e :: D).set 0 e) = e :: (M ++ e :: D) from rfl]
    rw [show (0 + 1 + M.length) = M.length + 1 from by omega]
    rw [show (e :: (M ++ e :: D)).set (M.length + 1) m =
        e :: ((M ++ e :: D).set M.length m) from rfl]
    rw [set_at_append]
    simp
  | cons a A ihA =>
    simp only [List.cons_append, List.length_cons]
    rw [show A.length + 1 + 1 + M.length = (A.length + 1 + M.length) + 1
      from by omega]
    rw [swapL_cons]
    rw [ihA]

/-- The `heapsAlgorithm` loop at size `n`, entered at iteration `i` with
`r = n - i` remaining passes: it ends in state `heapsIter n l n` and
appends the rows of the remaining iterations. -/
theorem heapsLoop_iter (n : ℕ) (hn : 2 ≤ n) (l : List ℕ) :
    ∀ r i R, i + r = n →
      heapsLoop n r (heapsIter n l i, R) =
        (heapsIter n l n, R ++ hBlocks n l i r) := by
  intro r
  induction r with
  | zero =>
    intro i R hi
    rw [heapsLoop]
    rw [hBlocks]
    rw [show i = n from by omega]
    simp
  | succ r ihr =>
    intro i R hi
    obtain ⟨n', rfl⟩ : ∃ n', n = n' + 1 := ⟨n - 1, by omega⟩
    have e1 : ∀ s : List ℕ × List (List ℕ),
        heapsLoop (n' + 1) (r + 1) s =
        heapsLoop (n' + 1) r
          (swapL (heapsAux n' s).1
            (if (n' + 1) % 2 = 0 then (n' + 1) - (r + 1) else 0) n',
           (heapsAux n' s).2) := fun s => by rw [heapsLoop]
    rw [e1]
    rw [(heaps_acc n').2 (heapsIter (n' + 1) l i) R]
    simp only []
    rw [show (n' + 1) - (r + 1) = i from by omega]
    rw [show swapL (heapsAux n' (heapsIter (n' + 1) l i, [])).1
        (if (n' + 1) % 2 = 0 then i else 0) n' =
        heapsIter (n' + 1) l (i + 1) from by rw [heapsIter]; rfl]
    rw [ihr (i + 1) _ (by omega)]
    rw [hBlocks]
    simp [List.append_assoc, hRows]

/-- The element right after a prefix. -/
theorem getElem?_after (P : List ℕ) (x : ℕ) (D : List ℕ) :
    (P ++ x :: D)[P.length]? = some x := by
  rw [List.getElem?_append_right (le_refl _)]
  simp

/-- Dropping past a prefix and one element. -/
theorem drop_after (P : List ℕ) (x : ℕ) (D : List ℕ) :
    (P ++ x :: D).drop (P.length + 1) = D := by
  induction P with
  | nil => rfl
  | cons p P ih =>
    simp only [List.cons_append, List.length_cons, List.drop_succ_cons]
    exact ih

/-- Writing back the element already present changes nothing. -/
theorem set_self (L : List ℕ) (a x : ℕ) (h : L[a]? = some x) :
    L.set a x = L := by
  induction L generalizing a with
  | nil => simp at h
  | cons y L ih =>
    cases a with
    | zero =>
      simp only [List.getElem?_cons_zero, Option.some.injEq] at h
      rw [List.set]
      rw [h]
    | succ a =>
      rw [List.set]
      rw [ih a (by simpa using h)]

/-- Swapping a position with itself changes nothing. -/
theorem swapL_same (L : List ℕ) (a : ℕ) : swapL L a a = L := by
  rw [swapL]
  cases h : L[a]? with
  | none => rfl
  | some x =>
    simp only []
    rw [set_self L a x h]
    rw [set_self L a x h]

/-- `rotF` at the block boundary: the element after the first `|P|`
positions moves to the front of the prefix. -/
theorem rotF_struct (P : List ℕ) (x : ℕ) (D : List ℕ) :
    rotF (P.length + 1) (P ++ x :: D) = x :: P ++ D := by
  rw [rotF]
  rw [show P.length + 1 - 1 = P.length from rfl]
  rw [getElem?_after]
  rw [show (P ++ x :: D).take P.length = P from List.take_left P (x :: D)]
  rw [drop_after]
  simp

/-- One iteration of the loop for ODD size `|P| + 2`: the recursion
rotates the first `|P| + 1` positions right, the swap of positions `0` and
`|P| + 1` then completes a right rotation of the first `|P| + 2`. -/
theorem odd_step (P : List ℕ) (x y : ℕ) (D : List ℕ) :
    swapL (rotF (P.length + 1) (P ++ x :: y :: D)) 0 (P.length + 1) =
      y :: P ++ x :: D := by
  rw [rotF_struct P x (y :: D)]
  rw [show P.length + 1 = 0 + 1 + P.length from by omega]
  rw [show x :: P ++ y :: D = [] ++ x :: P ++ y :: D from rfl]
  rw [show (0 : ℕ) = ([] : List ℕ).length from rfl]
  rw [swapL_mid [] x P y D]
  simp

/-- For sizes at least 2, the rows of the recursion are the loop's blocks
and the final state is the `n`-th iterate. -/
theorem hRows_blocks (n : ℕ) (hn : 2 ≤ n) (l : List ℕ) :
    hRows n l = hBlocks n l 0 n ∧ hFinal n l = heapsIter n l n := by
  obtain ⟨n2, rfl⟩ : ∃ m, n = m + 2 := ⟨n - 2, by omega⟩
  have hstart : heapsAux (n2 + 2) (l, []) =
      heapsLoop (n2 + 2) (n2 + 2) (l, []) := by
    rw [heapsAux]
  have h2 := heapsLoop_iter (n2 + 2) (by omega) l (n2 + 2) 0 [] (by omega)
  rw [show heapsIter (n2 + 2) l 0 = l from rfl] at h2
  constructor
  · rw [hRows, hstart, h2]
    simp
  · rw [hFinal, hstart, h2]

/-- Membership in a run of blocks. -/
theorem hBlocks_mem (n : ℕ) (l : List ℕ) :
    ∀ cnt i row, row ∈ hBlocks n l i cnt ↔
      ∃ t, i ≤ t ∧ t < i + cnt ∧
        row ∈ hRows (n - 1) (heapsIter n l t) := by
  intro cnt
  induction cnt with
  | zero =>
    intro i row
    rw [hBlocks]
    simp only [List.not_mem_nil, false_iff]
    rintro ⟨t, h1, h2, -⟩
    omega
  | succ c ihc =>
    intro i row
    rw [hBlocks]
    rw [List.mem_append]
    rw [ihc (i + 1) row]
    constructor
    · rintro (h | ⟨t, h1, h2, h3⟩)
      · exact ⟨i, le_refl i, by omega, h⟩
      · exact ⟨t, by omega, by omega, h3⟩
    · rintro ⟨t, h1, h2, h3⟩
      by_cases ht : t = i
      · left
        rw [← ht]
        exact h3
      · right
        exact ⟨t, by omega, by omega, h3⟩

/-- The length of a run of blocks of uniform length. -/
theorem hBlocks_len (n : ℕ) (l : List ℕ) :
    ∀ cnt i, (∀ t, i ≤ t → t < i + cnt →
        (hRows (n - 1) (heapsIter n l t)).length = (n - 1).factorial) →
      (hBlocks n l i cnt).length = cnt * (n - 1).factorial := by
  intro cnt
  induction cnt with
  | zero =>
    intro i _
    rw [hBlocks]
    simp
  | succ c ihc =>
    intro i hall
    rw [hBlocks]
    rw [List.length_append]
    rw [hall i (le_refl i) (by omega)]
    rw [ihc (i + 1) (fun t h1 h2 => hall t (by omega) (by omega))]
    ring

/-- Every nonempty list splits off its last element. -/
theorem concat_decomp (l : List ℕ) (h : l ≠ []) : ∃ L b, l = L ++ [b] := by
  induction l using List.reverseRecOn with
  | nil => exact absurd rfl h
  | append_singleton L b _ => exact ⟨L, b, rfl⟩

/-- The loop states for ODD sizes: iteration `i` has rotated the first `n`
elements right by `i`; the split point of the rotation is the witness
pair. -/
theorem heapsIter_odd (n : ℕ) (hodd : n % 2 = 1) (hn3 : 3 ≤ n)
    (l : List ℕ) (hl : n ≤ l.length)
    (hfin : ∀ L : List ℕ, n - 1 ≤ L.length →
      hFinal (n - 1) L = rotF (n - 1) L) :
    ∀ i ≤ n, ∃ X Y : List ℕ, l.take n = X ++ Y ∧ Y.length = i ∧
      heapsIter n l i = Y ++ X ++ l.drop n := by
  intro i
  induction i with
  | zero =>
    intro _
    refine ⟨l.take n, [], by simp, rfl, ?_⟩
    rw [show heapsIter n l 0 = l from rfl]
    simp
  | succ i ihi =>
    intro hi1
    obtain ⟨X, Y, hXY, hY, hstate⟩ := ihi (by omega)
    have hW : (l.take n).length = n := List.length_take_of_le hl
    have hX : X.length = n - i := by
      have := congrArg List.length hXY
      simp at this
      omega
    obtain ⟨X', c, rfl⟩ := concat_decomp X (by
      intro h
      rw [h] at hX
      simp at hX
      omega)
    have hX' : X'.length = n - i - 1 := by
      simp at hX
      omega
    obtain ⟨P, x, hPx⟩ := concat_decomp (Y ++ X') (by
      intro h
      have h2 := congrArg List.length h
      rw [List.length_append] at h2
      simp only [List.length_nil] at h2
      omega)
    have hP : P.length = n - 2 := by
      have := congrArg List.length hPx
      simp at this
      omega
    refine ⟨X', c :: Y, ?_, by simp [hY], ?_⟩
    · rw [hXY]
      simp
    · rw [heapsIter]
      rw [if_neg (by omega)]
      rw [hstate]
      have hlen : n - 1 ≤ (Y ++ (X' ++ [c]) ++ l.drop n).length := by
        simp
        omega
      rw [hfin _ hlen]
      rw [show Y ++ (X' ++ [c]) ++ l.drop n = P ++ x :: c :: l.drop n from by
        rw [show P ++ x :: c :: l.drop n = (P ++ [x]) ++ [c] ++ l.drop n
          from by simp]
        rw [← hPx]
        simp]
      rw [show n - 1 = P.length + 1 from by omega]
      rw [odd_step P x c (l.drop n)]
      rw [show c :: P ++ x :: l.drop n = c :: (P ++ [x]) ++ l.drop n
        from by simp]
      rw [← hPx]
      simp




/-- The loop states for EVEN sizes, iterations `1 ≤ i ≤ n - 1`: position
`0` holds the original last element of the first `n`, positions
`1 … i - 1` hold the originals shifted down one place, positions
`i … n - 2` are untouched, and position `n - 1` holds the original of
position `i - 1`. -/
theorem heapsIter_even (n : ℕ) (heven : n % 2 = 0) (hn2 : 2 ≤ n)
    (l : List ℕ) (hl : n ≤ l.length)
    (hfin : ∀ L : List ℕ, n - 1 ≤ L.length → hFinal (n - 1) L = L) :
    ∀ i, 1 ≤ i → i ≤ n - 1 →
      heapsIter n l i =
        (l.take n).getD (n - 1) 0 :: (l.take n).take (i - 1) ++
          ((l.take n).drop i).take (n - 1 - i) ++
          (l.take n).getD (i - 1) 0 :: l.drop n := by
  have hW : (l.take n).length = n := List.length_take_of_le hl
  have hstep : ∀ i, heapsIter n l (i + 1) =
      swapL (hFinal (n - 1) (heapsIter n l i))
        (if n % 2 = 0 then i else 0) (n - 1) := fun i => by rw [heapsIter]
  intro i hi1
  induction i, hi1 using Nat.le_induction with
  | base =>
    intro _
    obtain ⟨w, W1, hWcons⟩ : ∃ w W1, l.take n = w :: W1 := by
      cases hcase : l.take n with
      | nil =>
        rw [hcase] at hW
        simp at hW
        omega
      | cons w W1 => exact ⟨w, W1, rfl⟩
    have hW1len : W1.length = n - 1 := by
      rw [hWcons] at hW
      simp at hW
      omega
    obtain ⟨W1', z, hW1eq⟩ := concat_decomp W1 (by
      intro h
      rw [h] at hW1len
      simp at hW1len
      omega)
    have hW1'len : W1'.length = n - 2 := by
      rw [hW1eq] at hW1len
      simp at hW1len
      omega
    have hl2 : l = w :: (W1' ++ z :: l.drop n) := by
      conv_lhs => rw [← List.take_append_drop n l]
      rw [hWcons, hW1eq]
      simp
    have hz : (l.take n).getD (n - 1) 0 = z := by
      rw [List.getD_eq_getElem?_getD]
      rw [hWcons, hW1eq]
      rw [show w :: (W1' ++ [z]) = (w :: W1') ++ z :: [] from by simp]
      rw [show n - 1 = (w :: W1').length from by
        simp only [List.length_cons]
        omega]
      rw [getElem?_after]
      rfl
    have hw0 : (l.take n).getD (1 - 1) 0 = w := by
      rw [hWcons]
      rfl
    have htake0 : (l.take n).take (1 - 1) = [] := by
      simp
    have hdrop1 : ((l.take n).drop 1).take (n - 1 - 1) = W1' := by
      rw [hWcons]
      rw [List.drop_one, List.tail_cons, hW1eq]
      rw [show n - 1 - 1 = W1'.length from by omega]
      exact List.take_left W1' [z]
    rw [show heapsIter n l 1 =
      swapL (hFinal (n - 1) l) (if n % 2 = 0 then 0 else 0) (n - 1)
      from hstep 0]
    rw [if_pos heven]
    rw [hfin l (by omega)]
    rw [hz, hw0, htake0, hdrop1]
    conv_lhs => rw [hl2]
    rw [show n - 1 = 0 + 1 + W1'.length from by omega]
    rw [show w :: (W1' ++ z :: l.drop n) =
      [] ++ w :: W1' ++ z :: l.drop n from rfl]
    rw [show (0 : ℕ) = ([] : List ℕ).length from rfl]
    rw [swapL_mid [] w W1' z (l.drop n)]
    simp
  | succ i hi1 ihi =>
    intro hle
    obtain ⟨j, rfl⟩ : ∃ j, i = j + 1 := ⟨i - 1, by omega⟩
    have hform := ihi (by omega)
    simp only [Nat.add_sub_cancel] at hform
    have hAlen : ((l.take n).take j).length = j :=
      List.length_take_of_le (by omega)
    have hMlen : (((l.take n).drop (j + 2)).take (n - 3 - j)).length =
        n - 3 - j := by
      apply List.length_take_of_le
      simp
      omega
    have hmid : ((l.take n).drop (j + 1)).take (n - 1 - (j + 1)) =
        (l.take n).getD (j + 1) 0 ::
          ((l.take n).drop (j + 2)).take (n - 3 - j) := by
      rw [List.getD_eq_getElem?_getD]
      rw [List.getElem?_eq_getElem (show j + 1 < (l.take n).length from by
        omega)]
      rw [List.drop_eq_getElem_cons (show j + 1 < (l.take n).length from by
        omega)]
      rw [show n - 1 - (j + 1) = (n - 3 - j) + 1 from by omega]
      rw [List.take_succ_cons]
      rfl
    have htakej : (l.take n).take (j + 1) =
        (l.take n).take j ++ [(l.take n).getD j 0] := by
      rw [List.getD_eq_getElem _ 0 (by omega)]
      exact (List.take_concat_get' _ j (by omega)).symm
    rw [show heapsIter n l (j + 1 + 1) =
      swapL (hFinal (n - 1) (heapsIter n l (j + 1)))
        (if n % 2 = 0 then j + 1 else 0) (n - 1) from hstep (j + 1)]
    rw [if_pos heven]
    rw [hform]
    have hlen : n - 1 ≤ ((l.take n).getD (n - 1) 0 :: (l.take n).take j ++
        ((l.take n).drop (j + 1)).take (n - 1 - (j + 1)) ++
        (l.take n).getD j 0 :: l.drop n).length := by
      simp only [List.cons_append, List.length_cons, List.length_append,
        hAlen]
      rw [List.length_take_of_le (by simp ; omega)]
      omega
    rw [hfin _ hlen]
    rw [hmid]
    rw [show (l.take n).getD (n - 1) 0 :: (l.take n).take j ++
        ((l.take n).getD (j + 1) 0 ::
          ((l.take n).drop (j + 2)).take (n - 3 - j)) ++
        (l.take n).getD j 0 :: l.drop n =
      ((l.take n).getD (n - 1) 0 :: (l.take n).take j) ++
        (l.take n).getD (j + 1) 0 ::
          ((l.take n).drop (j + 2)).take (n - 3 - j) ++
        (l.take n).getD j 0 :: l.drop n from by simp]
    have hswap := swapL_mid
      ((l.take n).getD (n - 1) 0 :: (l.take n).take j)
      ((l.take n).getD (j + 1) 0)
      (((l.take n).drop (j + 2)).take (n - 3 - j))
      ((l.take n).getD j 0)
      (l.drop n)
    rw [show ((l.take n).getD (n - 1) 0 :: (l.take n).take j).length =
      j + 1 from by simp [hAlen]] at hswap
    rw [hMlen] at hswap
    rw [show j + 1 + 1 + (n - 3 - j) = n - 1 from by omega] at hswap
    rw [hswap]
    simp only [Nat.add_sub_cancel]
    rw [show n - 1 - (j + 1 + 1) = n - 3 - j from by omega]
    rw [htakej]
    simp


/-- The four row properties at size `n`, derived from the per-iteration
decomposition of the loop states (`P` is the first `n - 1` positions, the
tagged element sits at position `n - 1`) together with the inductive
properties of the recursion at size `n - 1`. -/
theorem blocks_good (n : ℕ) (hn : 2 ≤ n) (l : List ℕ) (hl : n ≤ l.length)
    (tag : ℕ → ℕ)
    (htlt : ∀ i, i < n → tag i < n)
    (htinj : ∀ i, i < n → ∀ j, j < n → tag i = tag j → i = j)
    (htsurj : ∀ j, j < n → ∃ i, i < n ∧ tag i = j)
    (hdec : ∀ i, i < n → ∃ P : List ℕ, P.length = n - 1 ∧
      heapsIter n l i = P ++ (l.take n).getD (tag i) 0 :: l.drop n ∧
      (P ++ [(l.take n).getD (tag i) 0]).Perm (l.take n))
    (IH1 : ∀ L : List ℕ, n - 1 ≤ L.length →
      (hRows (n - 1) L).length = (n - 1).factorial)
    (IH3 : ∀ L : List ℕ, n - 1 ≤ L.length → ∀ row ∈ hRows (n - 1) L,
      (row.take (n - 1)).Perm (L.take (n - 1)) ∧
        row.drop (n - 1) = L.drop (n - 1))
    (IH4 : ∀ L : List ℕ, n - 1 ≤ L.length → (L.take (n - 1)).Nodup →
      (hRows (n - 1) L).Nodup)
    (IH5 : ∀ L : List ℕ, n - 1 ≤ L.length → ∀ w, w.Perm (L.take (n - 1)) →
      w ++ L.drop (n - 1) ∈ hRows (n - 1) L) :
    ((hRows n l).length = n.factorial) ∧
    (∀ row ∈ hRows n l, (row.take n).Perm (l.take n) ∧
      row.drop n = l.drop n) ∧
    ((l.take n).Nodup → (hRows n l).Nodup) ∧
    (∀ w, w.Perm (l.take n) → w ++ l.drop n ∈ hRows n l) := by
  have hW : (l.take n).length = n := List.length_take_of_le hl
  have hrw := (hRows_blocks n hn l).1
  have hfacts : ∀ (i : ℕ) (P : List ℕ),
      heapsIter n l i = P ++ (l.take n).getD (tag i) 0 :: l.drop n →
      P.length = n - 1 →
      (heapsIter n l i).length = l.length ∧
      (heapsIter n l i).take (n - 1) = P ∧
      (heapsIter n l i).drop (n - 1) =
        (l.take n).getD (tag i) 0 :: l.drop n := by
    intro i P hσ hPlen
    refine ⟨by rw [hσ] ; simp ; omega, ?_, ?_⟩
    · rw [hσ, show n - 1 = P.length from hPlen.symm]
      exact List.take_left _ _
    · rw [hσ, show n - 1 = P.length from hPlen.symm]
      exact List.drop_left _ _
  have hrowtag : ∀ t, t < n → ∀ row ∈ hRows (n - 1) (heapsIter n l t),
      row[n - 1]? = some ((l.take n).getD (tag t) 0) := by
    intro t htn row hmem
    obtain ⟨P, hPlen, hσ, -⟩ := hdec t htn
    obtain ⟨hL, -, hD⟩ := hfacts t P hσ hPlen
    have hlen : n - 1 ≤ (heapsIter n l t).length := by
      rw [hL]
      omega
    have hdrop := (IH3 _ hlen row hmem).2
    rw [hD] at hdrop
    have h0 : (row.drop (n - 1))[0]? =
        some ((l.take n).getD (tag t) 0) := by
      rw [hdrop]
      simp
    rw [List.getElem?_drop] at h0
    exact h0
  refine ⟨?_, ?_, ?_, ?_⟩
  · rw [hrw]
    rw [hBlocks_len n l n 0 (fun t h1 h2 => by
      obtain ⟨P, hPlen, hσ, -⟩ := hdec t (by omega)
      obtain ⟨hL, -, -⟩ := hfacts t P hσ hPlen
      exact IH1 _ (by rw [hL] ; omega))]
    obtain ⟨m, rfl⟩ : ∃ m, n = m + 1 := ⟨n - 1, by omega⟩
    rw [Nat.factorial_succ]
    simp
  · intro row hrow
    rw [hrw] at hrow
    obtain ⟨t, -, ht2, hmem⟩ := (hBlocks_mem n l n 0 row).mp hrow
    have htn : t < n := by omega
    obtain ⟨P, hPlen, hσ, hPperm⟩ := hdec t htn
    obtain ⟨hL, hT, hD⟩ := hfacts t P hσ hPlen
    have hlen : n - 1 ≤ (heapsIter n l t).length := by
      rw [hL]
      omega
    obtain ⟨hperm, hdrop⟩ := IH3 _ hlen row hmem
    rw [hD] at hdrop
    rw [hT] at hperm
    have hTlen : (row.take (n - 1)).length = n - 1 := by
      rw [hperm.length_eq, hPlen]
    have hrowfull : row = (row.take (n - 1) ++
        [(l.take n).getD (tag t) 0]) ++ l.drop n := by
      conv_lhs => rw [← List.take_append_drop (n - 1) row]
      rw [hdrop]
      simp
    have hTClen : (row.take (n - 1) ++
        [(l.take n).getD (tag t) 0]).length = n := by
      simp [hTlen]
      omega
    constructor
    · rw [hrowfull]
      rw [List.take_left' hTClen]
      exact List.Perm.trans
        ((List.perm_append_right_iff _).mpr hperm) hPperm
    · rw [hrowfull]
      rw [List.drop_left' hTClen]
  · intro hnodup
    have htagne : ∀ a, a < n → ∀ b, b < n → a ≠ b →
        (l.take n).getD (tag a) 0 ≠ (l.take n).getD (tag b) 0 := by
      intro a ha b hb hab heq
      rw [List.getD_eq_getElem _ 0 (by rw [hW] ; exact htlt a ha)] at heq
      rw [List.getD_eq_getElem _ 0 (by rw [hW] ; exact htlt b hb)] at heq
      have := (List.Nodup.getElem_inj_iff hnodup).mp heq
      exact hab (htinj a ha b hb this)
    have key : ∀ cnt i, i + cnt ≤ n → (hBlocks n l i cnt).Nodup := by
      intro cnt
      induction cnt with
      | zero =>
        intro i _
        rw [hBlocks]
        exact List.nodup_nil
      | succ c ihc =>
        intro i hic
        rw [hBlocks]
        rw [List.nodup_append]
        refine ⟨?_, ihc (i + 1) (by omega), ?_⟩
        · obtain ⟨P, hPlen, hσ, hPperm⟩ := hdec i (by omega)
          obtain ⟨hL, hT, -⟩ := hfacts i P hσ hPlen
          have hlen : n - 1 ≤ (heapsIter n l i).length := by
            rw [hL]
            omega
          apply IH4 _ hlen
          rw [hT]
          have hthis : (P ++ [(l.take n).getD (tag i) 0]).Nodup :=
            List.Perm.nodup hPperm.symm hnodup
          exact (List.nodup_append.mp hthis).1
        · intro row hrow1 hrow2
          obtain ⟨t, ht1, ht2, hmem2⟩ :=
            (hBlocks_mem n l c (i + 1) row).mp hrow2
          have h1 := hrowtag i (by omega) row hrow1
          have h2 := hrowtag t (by omega) row hmem2
          rw [h1] at h2
          exact htagne i (by omega) t (by omega) (by omega)
            (Option.some.inj h2)
    rw [hrw]
    exact key n 0 (by omega)
  · intro w hwperm
    have hwlen : w.length = n := by
      rw [hwperm.length_eq, hW]
    obtain ⟨w', c, rfl⟩ := concat_decomp w (by
      intro h
      rw [h] at hwlen
      simp at hwlen
      omega)
    have hc : c ∈ l.take n := hwperm.mem_iff.mp (by simp)
    obtain ⟨j, hj, hcj⟩ := List.mem_iff_getElem.mp hc
    obtain ⟨t, htn, htagt⟩ := htsurj j (by rw [hW] at hj ; exact hj)
    obtain ⟨P, hPlen, hσ, hPperm⟩ := hdec t htn
    obtain ⟨hL, hT, hD⟩ := hfacts t P hσ hPlen
    have hct : (l.take n).getD (tag t) 0 = c := by
      rw [htagt]
      rw [List.getD_eq_getElem _ 0 hj]
      exact hcj
    have hlen : n - 1 ≤ (heapsIter n l t).length := by
      rw [hL]
      omega
    have hw' : w'.Perm ((heapsIter n l t).take (n - 1)) := by
      rw [hT]
      have hP2 : (P ++ [c]).Perm (l.take n) := by
        rw [← hct]
        exact hPperm
      exact (List.perm_append_right_iff [c]).mp (hwperm.trans hP2.symm)
    have hmem := IH5 _ hlen w' hw'
    rw [hD] at hmem
    rw [hct] at hmem
    rw [show w' ++ c :: l.drop n = (w' ++ [c]) ++ l.drop n from by
      simp] at hmem
    rw [hrw]
    exact (hBlocks_mem n l n 0 _).mpr ⟨t, by omega, by omega, hmem⟩

/-- The per-iteration decomposition for ODD sizes: the tagged element of
iteration `i` is the original element of position `n - 1 - i`. -/
theorem hdec_odd (n : ℕ) (hodd : n % 2 = 1) (hn3 : 3 ≤ n)
    (l : List ℕ) (hl : n ≤ l.length)
    (hfin : ∀ L : List ℕ, n - 1 ≤ L.length →
      hFinal (n - 1) L = rotF (n - 1) L) :
    ∀ i, i < n → ∃ P : List ℕ, P.length = n - 1 ∧
      heapsIter n l i = P ++ (l.take n).getD (n - 1 - i) 0 :: l.drop n ∧
      (P ++ [(l.take n).getD (n - 1 - i) 0]).Perm (l.take n) := by
  intro i hi
  obtain ⟨X, Y, hXY, hY, hstate⟩ :=
    heapsIter_odd n hodd hn3 l hl hfin i (by omega)
  have hW : (l.take n).length = n := List.length_take_of_le hl
  have hX : X.length = n - i := by
    have h2 := congrArg List.length hXY
    rw [List.length_append, hW] at h2
    omega
  obtain ⟨X', c, rfl⟩ := concat_decomp X (by
    intro h
    rw [h] at hX
    simp at hX
    omega)
  have hX' : X'.length = n - i - 1 := by
    simp at hX
    omega
  have hc : (l.take n).getD (n - 1 - i) 0 = c := by
    rw [List.getD_eq_getElem?_getD]
    rw [hXY]
    rw [show (X' ++ [c]) ++ Y = X' ++ c :: Y from by simp]
    rw [show n - 1 - i = X'.length from by omega]
    rw [getElem?_after]
    rfl
  refine ⟨Y ++ X', by simp ; omega, ?_, ?_⟩
  · rw [hstate, hc]
    simp
  · rw [hc, hXY]
    rw [List.append_assoc]
    exact List.perm_append_comm

/-- The tag of the EVEN-size iterations: iteration `0` carries the
original last element, iteration `i ≥ 1` the original of position
`i - 1`. -/
def etag (n i : ℕ) : ℕ := if i = 0 then n - 1 else i - 1

/-- Multiset identity of one even-size loop state against the original
first-`n` prefix. -/
theorem perm_block (z e : ℕ) (A M : List ℕ) :
    (((z :: A) ++ M) ++ [e]).Perm (A ++ e :: (M ++ [z])) := by
  rw [show ((z :: A) ++ M) ++ [e] = z :: ((A ++ M) ++ [e]) from by simp]
  have h2 : (A ++ e :: (M ++ [z])).Perm (e :: (A ++ (M ++ [z]))) :=
    List.perm_middle
  refine List.Perm.trans ?_ h2.symm
  have h4 : (z :: ((A ++ M) ++ [e])).Perm (z :: e :: (A ++ M)) :=
    List.Perm.cons z List.perm_append_comm
  refine h4.trans ?_
  refine (List.Perm.swap e z (A ++ M)).trans (List.Perm.cons e ?_)
  have h6 : (z :: (A ++ M)).Perm ((A ++ M) ++ [z]) :=
    (List.perm_append_comm : ([z] ++ (A ++ M)).Perm ((A ++ M) ++ [z]))
  refine h6.trans ?_
  rw [List.append_assoc]

/-- The per-iteration decomposition for EVEN sizes. -/
theorem hdec_even (n : ℕ) (heven : n % 2 = 0) (hn2 : 2 ≤ n)
    (l : List ℕ) (hl : n ≤ l.length)
    (hfin : ∀ L : List ℕ, n - 1 ≤ L.length → hFinal (n - 1) L = L) :
    ∀ i, i < n → ∃ P : List ℕ, P.length = n - 1 ∧
      heapsIter n l i = P ++ (l.take n).getD (etag n i) 0 :: l.drop n ∧
      (P ++ [(l.take n).getD (etag n i) 0]).Perm (l.take n) := by
  have hW : (l.take n).length = n := List.length_take_of_le hl
  intro i hi
  by_cases hi0 : i = 0
  · subst hi0
    obtain ⟨W'', z, hWz⟩ := concat_decomp (l.take n) (by
      intro h
      rw [h] at hW
      simp at hW
      omega)
    have hW'' : W''.length = n - 1 := by
      rw [hWz] at hW
      simp at hW
      omega
    have hz : (l.take n).getD (etag n 0) 0 = z := by
      rw [show etag n 0 = n - 1 from by rw [etag] ; simp]
      rw [List.getD_eq_getElem?_getD]
      rw [hWz]
      rw [show W'' ++ [z] = W'' ++ z :: [] from rfl]
      rw [show n - 1 = W''.length from hW''.symm]
      rw [getElem?_after]
      rfl
    refine ⟨W'', hW'', ?_, ?_⟩
    · rw [show heapsIter n l 0 = l from rfl]
      rw [hz]
      conv_lhs => rw [← List.take_append_drop n l]
      rw [hWz]
      simp
    · rw [hz, hWz]
  · have hi1 : 1 ≤ i := by omega
    have hform := heapsIter_even n heven hn2 l hl hfin i hi1 (by omega)
    have hA : ((l.take n).take (i - 1)).length = i - 1 :=
      List.length_take_of_le (by omega)
    have hM : (((l.take n).drop i).take (n - 1 - i)).length = n - 1 - i :=
      List.length_take_of_le (by simp ; omega)
    have he : (l.take n).getD (etag n i) 0 = (l.take n).getD (i - 1) 0 := by
      rw [show etag n i = i - 1 from by rw [etag] ; simp [hi0]]
    have hdropW : (l.take n).drop i =
        ((l.take n).drop i).take (n - 1 - i) ++
          [(l.take n).getD (n - 1) 0] := by
      obtain ⟨T', b, hTb⟩ := concat_decomp ((l.take n).drop i) (by
        intro h
        have h2 := congrArg List.length h
        simp [hW] at h2
        omega)
      have hT' : T'.length = n - 1 - i := by
        have h2 := congrArg List.length hTb
        simp [hW] at h2
        omega
      have hb : (l.take n).getD (n - 1) 0 = b := by
        have hlast : ((l.take n).drop i).getD (n - 1 - i) 0 =
            (l.take n).getD (n - 1) 0 := by
          rw [List.getD_eq_getElem?_getD, List.getD_eq_getElem?_getD]
          rw [List.getElem?_drop]
          rw [show i + (n - 1 - i) = n - 1 from by omega]
        rw [← hlast]
        rw [List.getD_eq_getElem?_getD]
        rw [hTb]
        rw [show T' ++ [b] = T' ++ b :: [] from rfl]
        rw [show n - 1 - i = T'.length from hT'.symm]
        rw [getElem?_after]
        rfl
      have hTtake : ((l.take n).drop i).take (n - 1 - i) = T' := by
        rw [hTb]
        rw [show n - 1 - i = T'.length from hT'.symm]
        exact List.take_left _ _
      rw [hTtake, hb, hTb]
    have hWdecomp : (l.take n).take (i - 1) ++
        (l.take n).getD (i - 1) 0 ::
          (((l.take n).drop i).take (n - 1 - i) ++
            [(l.take n).getD (n - 1) 0]) = l.take n := by
      conv_rhs => rw [← List.take_append_drop (i - 1) (l.take n)]
      congr 1
      rw [List.drop_eq_getElem_cons
        (show i - 1 < (l.take n).length from by omega)]
      rw [show i - 1 + 1 = i from by omega]
      congr 1
      · exact List.getD_eq_getElem _ 0 (by omega)
      · exact hdropW.symm
    refine ⟨((l.take n).getD (n - 1) 0 :: (l.take n).take (i - 1)) ++
      ((l.take n).drop i).take (n - 1 - i), ?_, ?_, ?_⟩
    · simp only [List.length_append, List.length_cons, hA, hM]
      omega
    · rw [he]
      exact hform
    · rw [he]
      refine (perm_block _ _ _ _).trans ?_
      rw [hWdecomp]

/-- For ODD sizes the algorithm restores the input list. -/
theorem hFinal_odd_id (n : ℕ) (hodd : n % 2 = 1) (hn3 : 3 ≤ n)
    (l : List ℕ) (hl : n ≤ l.length)
    (hfin : ∀ L : List ℕ, n - 1 ≤ L.length →
      hFinal (n - 1) L = rotF (n - 1) L) :
    hFinal n l = l := by
  rw [(hRows_blocks n (by omega) l).2]
  obtain ⟨X, Y, hXY, hY, hstate⟩ :=
    heapsIter_odd n hodd hn3 l hl hfin n (le_refl n)
  have hW : (l.take n).length = n := List.length_take_of_le hl
  have hX : X.length = 0 := by
    have h2 := congrArg List.length hXY
    rw [List.length_append, hW] at h2
    omega
  rw [List.eq_nil_of_length_eq_zero hX] at hXY hstate
  simp only [List.nil_append, List.append_nil] at hXY hstate
  rw [hstate, ← hXY]
  exact List.take_append_drop n l

/-- List identity used in the even case: the final block row equals the
right rotation of the first `m + 1` elements. -/
theorem even_rot_tail (l : List ℕ) (m : ℕ) (hm1 : 1 ≤ m)
    (hl : m + 1 ≤ l.length) :
    (l.take (m + 1)).getD m 0 :: (l.take (m + 1)).take (m - 1) ++
      (l.take (m + 1)).getD (m - 1) 0 :: l.drop (m + 1) =
      rotF (m + 1) l := by
  have hrot : rotF (m + 1) l = l[m] :: (l.take m ++ l.drop (m + 1)) := by
    rw [rotF]
    rw [show m + 1 - 1 = m from rfl]
    rw [List.getElem?_eq_getElem (show m < l.length from by omega)]
  rw [hrot]
  have hg1 : (l.take (m + 1)).getD m 0 = l[m] := by
    rw [List.getD_eq_getElem?_getD]
    rw [List.getElem?_take_of_lt (by omega)]
    rw [List.getElem?_eq_getElem (show m < l.length from by omega)]
    rfl
  have hg2 : (l.take (m + 1)).take (m - 1) = l.take (m - 1) := by
    rw [List.take_take]
    rw [show min (m - 1) (m + 1) = m - 1 from by omega]
  have hg3 : (l.take (m + 1)).getD (m - 1) 0 = l[m - 1] := by
    rw [List.getD_eq_getElem?_getD]
    rw [List.getElem?_take_of_lt (by omega)]
    rw [List.getElem?_eq_getElem (show m - 1 < l.length from by omega)]
    rfl
  have hg4 : l.take m = l.take (m - 1) ++ [l[m - 1]] := by
    have h5 := List.take_concat_get' l (m - 1)
      (show m - 1 < l.length from by omega)
    rw [show (m - 1) + 1 = m from by omega] at h5
    exact h5.symm
  rw [hg1, hg2, hg3, hg4]
  simp
  rw [show m - 1 + 1 = m from by omega, hg4, List.append_assoc,
    List.singleton_append]

/-- For EVEN sizes the algorithm rotates the first `n` elements right by
one. -/
theorem hFinal_even_rot (n : ℕ) (heven : n % 2 = 0) (hn2 : 2 ≤ n)
    (l : List ℕ) (hl : n ≤ l.length)
    (hfin : ∀ L : List ℕ, n - 1 ≤ L.length → hFinal (n - 1) L = L) :
    hFinal n l = rotF n l := by
  rw [(hRows_blocks n hn2 l).2]
  obtain ⟨m, rfl⟩ : ∃ m, n = m + 1 := ⟨n - 1, by omega⟩
  have hm1 : 1 ≤ m := by omega
  have hW : (l.take (m + 1)).length = m + 1 := List.length_take_of_le hl
  have hform := heapsIter_even (m + 1) heven hn2 l hl hfin m hm1 (by omega)
  have hfinal : heapsIter (m + 1) l (m + 1) = heapsIter (m + 1) l m := by
    rw [heapsIter]
    rw [if_pos heven]
    rw [hfin _ (by
      rw [hform]
      simp
      omega)]
    rw [show m + 1 - 1 = m from rfl]
    exact swapL_same _ m
  rw [hfinal, hform]
  rw [show m + 1 - 1 = m from rfl]
  rw [show m - m = 0 from by omega]
  simp only [List.take_zero, List.append_nil]
  exact even_rot_tail l m hm1 hl

/-- Size `1`: one row (a copy of the list) and an unchanged final state. -/
theorem heaps_base (l : List ℕ) (hl : 1 ≤ l.length) :
    ((hRows 1 l).length = Nat.factorial 1 ∧
      (∀ row ∈ hRows 1 l, (row.take 1).Perm (l.take 1) ∧
        row.drop 1 = l.drop 1) ∧
      ((l.take 1).Nodup → (hRows 1 l).Nodup) ∧
      (∀ w, w.Perm (l.take 1) → w ++ l.drop 1 ∈ hRows 1 l)) ∧
    hFinal 1 l = l := by
  have h1 : hRows 1 l = [l] := by
    rw [hRows, heapsAux]
    simp
  have h2 : hFinal 1 l = l := by
    rw [hFinal, heapsAux]
  refine ⟨⟨?_, ?_, ?_, ?_⟩, h2⟩
  · rw [h1]
    rfl
  · intro row hmem
    rw [h1, List.mem_singleton] at hmem
    subst hmem
    exact ⟨List.Perm.refl _, rfl⟩
  · intro _
    rw [h1]
    exact List.nodup_singleton l
  · intro w hw
    rw [h1]
    have hlen : (l.take 1).length = 1 := List.length_take_of_le hl
    obtain ⟨a, ha⟩ : ∃ a, l.take 1 = [a] := by
      cases h : l.take 1 with
      | nil =>
        rw [h] at hlen
        simp at hlen
      | cons x t =>
        rw [h] at hlen
        simp at hlen
        exact ⟨x, by rw [hlen]⟩
    rw [ha] at hw
    rw [List.Perm.eq_singleton hw, ← ha, List.mem_singleton]
    exact List.take_append_drop 1 l

/-- Assembly of one ODD-size induction step from the block analysis. -/
theorem heaps_step_odd (n : ℕ) (hodd : n % 2 = 1) (hn3 : 3 ≤ n)
    (l : List ℕ) (hl : n ≤ l.length)
    (hfin : ∀ L : List ℕ, n - 1 ≤ L.length →
      hFinal (n - 1) L = rotF (n - 1) L)
    (IH1 : ∀ L : List ℕ, n - 1 ≤ L.length →
      (hRows (n - 1) L).length = (n - 1).factorial)
    (IH3 : ∀ L : List ℕ, n - 1 ≤ L.length → ∀ row ∈ hRows (n - 1) L,
      (row.take (n - 1)).Perm (L.take (n - 1)) ∧
        row.drop (n - 1) = L.drop (n - 1))
    (IH4 : ∀ L : List ℕ, n - 1 ≤ L.length → (L.take (n - 1)).Nodup →
      (hRows (n - 1) L).Nodup)
    (IH5 : ∀ L : List ℕ, n - 1 ≤ L.length → ∀ w, w.Perm (L.take (n - 1)) →
      w ++ L.drop (n - 1) ∈ hRows (n - 1) L) :
    (((hRows n l).length = n.factorial) ∧
      (∀ row ∈ hRows n l, (row.take n).Perm (l.take n) ∧
        row.drop n = l.drop n) ∧
      ((l.take n).Nodup → (hRows n l).Nodup) ∧
      (∀ w, w.Perm (l.take n) → w ++ l.drop n ∈ hRows n l)) ∧
    hFinal n l = l :=
  ⟨blocks_good n (by omega) l hl (fun i => n - 1 - i)
    (fun i _ => by show n - 1 - i < n ; omega)
    (fun i hi j hj hij => by
      have h2 : n - 1 - i = n - 1 - j := hij
      omega)
    (fun j hj => ⟨n - 1 - j, by omega,
      by show n - 1 - (n - 1 - j) = j ; omega⟩)
    (hdec_odd n hodd hn3 l hl hfin)
    IH1 IH3 IH4 IH5,
   hFinal_odd_id n hodd hn3 l hl hfin⟩

/-- Assembly of one EVEN-size induction step from the block analysis. -/
theorem heaps_step_even (n : ℕ) (heven : n % 2 = 0) (hn2 : 2 ≤ n)
    (l : List ℕ) (hl : n ≤ l.length)
    (hfin : ∀ L : List ℕ, n - 1 ≤ L.length → hFinal (n - 1) L = L)
    (IH1 : ∀ L : List ℕ, n - 1 ≤ L.length →
      (hRows (n - 1) L).length = (n - 1).factorial)
    (IH3 : ∀ L : List ℕ, n - 1 ≤ L.length → ∀ row ∈ hRows (n - 1) L,
      (row.take (n - 1)).Perm (L.take (n - 1)) ∧
        row.drop (n - 1) = L.drop (n - 1))
    (IH4 : ∀ L : List ℕ, n - 1 ≤ L.length → (L.take (n - 1)).Nodup →
      (hRows (n - 1) L).Nodup)
    (IH5 : ∀ L : List ℕ, n - 1 ≤ L.length → ∀ w, w.Perm (L.take (n - 1)) →
      w ++ L.drop (n - 1) ∈ hRows (n - 1) L) :
    (((hRows n l).length = n.factorial) ∧
      (∀ row ∈ hRows n l, (row.take n).Perm (l.take n) ∧
        row.drop n = l.drop n) ∧
      ((l.take n).Nodup → (hRows n l).Nodup) ∧
      (∀ w, w.Perm (l.take n) → w ++ l.drop n ∈ hRows n l)) ∧
    hFinal n l = rotF n l := by
  refine ⟨blocks_good n hn2 l hl (etag n) ?_ ?_ ?_
    (hdec_even n heven hn2 l hl hfin) IH1 IH3 IH4 IH5,
    hFinal_even_rot n heven hn2 l hl hfin⟩
  · intro i _
    by_cases hi0 : i = 0 <;> simp [etag, hi0] <;> omega
  · intro i hi j hj hij
    by_cases hi0 : i = 0 <;> by_cases hj0 : j = 0 <;>
      simp [etag, hi0, hj0] at hij <;> omega
  · intro j hj
    by_cases hj1 : j = n - 1
    · refine ⟨0, by omega, ?_⟩
      simp [etag]
      omega
    · refine ⟨j + 1, by omega, ?_⟩
      simp [etag]

/-- Heap's algorithm at every size `n ≥ 1` on a list of length at least
`n`: the run appends `n!` rows; each row permutes the first `n` entries
and keeps the tail; the rows are distinct when the prefix is; every
permutation of the prefix occurs; and the final list state is the input
for odd `n`, its first-`n` right rotation for even `n`. -/
theorem heaps_main : ∀ n : ℕ, 1 ≤ n → ∀ l : List ℕ, n ≤ l.length →
    (((hRows n l).length = n.factorial) ∧
      (∀ row ∈ hRows n l, (row.take n).Perm (l.take n) ∧
        row.drop n = l.drop n) ∧
      ((l.take n).Nodup → (hRows n l).Nodup) ∧
      (∀ w, w.Perm (l.take n) → w ++ l.drop n ∈ hRows n l)) ∧
    hFinal n l = if n % 2 = 1 then l else rotF n l := by
  intro n
  induction n using Nat.strong_induction_on with
  | _ n ih =>
    intro hn l hl
    by_cases h1 : n = 1
    · subst h1
      obtain ⟨hR, hF⟩ := heaps_base l hl
      exact ⟨hR, by rw [if_pos rfl] ; exact hF⟩
    · have hn2 : 2 ≤ n := by omega
      have hm1 : 1 ≤ n - 1 := by omega
      have ihm := ih (n - 1) (by omega)
      have IH1 : ∀ L : List ℕ, n - 1 ≤ L.length →
          (hRows (n - 1) L).length = (n - 1).factorial :=
        fun L hL => ((ihm hm1 L hL).1).1
      have IH3 : ∀ L : List ℕ, n - 1 ≤ L.length → ∀ row ∈ hRows (n - 1) L,
          (row.take (n - 1)).Perm (L.take (n - 1)) ∧
            row.drop (n - 1) = L.drop (n - 1) :=
        fun L hL => ((ihm hm1 L hL).1).2.1
      have IH4 : ∀ L : List ℕ, n - 1 ≤ L.length → (L.take (n - 1)).Nodup →
          (hRows (n - 1) L).Nodup :=
        fun L hL => ((ihm hm1 L hL).1).2.2.1
      have IH5 : ∀ L : List ℕ, n - 1 ≤ L.length →
          ∀ w, w.Perm (L.take (n - 1)) →
            w ++ L.drop (n - 1) ∈ hRows (n - 1) L :=
        fun L hL => ((ihm hm1 L hL).1).2.2.2
      have IHF : ∀ L : List ℕ, n - 1 ≤ L.length →
          hFinal (n - 1) L =
            if (n - 1) % 2 = 1 then L else rotF (n - 1) L :=
        fun L hL => (ihm hm1 L hL).2
      by_cases hpar : n % 2 = 1
      · have hn3 : 3 ≤ n := by omega
        have hfin : ∀ L : List ℕ, n - 1 ≤ L.length →
            hFinal (n - 1) L = rotF (n - 1) L := by
          intro L hL
          rw [IHF L hL, if_neg (show ¬(n - 1) % 2 = 1 from by omega)]
        obtain ⟨hR, hF⟩ :=
          heaps_step_odd n hpar hn3 l hl hfin IH1 IH3 IH4 IH5
        exact ⟨hR, by rw [if_pos hpar] ; exact hF⟩
      · have heven : n % 2 = 0 := by omega
        have hfin : ∀ L : List ℕ, n - 1 ≤ L.length →
            hFinal (n - 1) L = L := by
          intro L hL
          rw [IHF L hL, if_pos (show (n - 1) % 2 = 1 from by omega)]
        obtain ⟨hR, hF⟩ :=
          heaps_step_even n heven hn2 l hl hfin IH1 IH3 IH4 IH5
        exact ⟨hR, by rw [if_neg hpar] ; exact hF⟩

/-- C6 counterexample: at `N = 0` the claim fails.  `heapsAlgorithm`
applied to `range 0 = []` appends NO row at all (the `k = 0` call returns
immediately), yet `0! = 1` and the empty row IS a permutation of the empty
index list, so the output neither has `0!` rows nor contains every
permutation. -/
theorem heaps_empty_counterexample :
    heapsAlgorithm (range 0) = [] ∧
    (heapsAlgorithm (range 0)).length ≠ Nat.factorial 0 ∧
    [] ∉ heapsAlgorithm (range 0) ∧ List.Perm [] (range 0) := by
  have h : heapsAlgorithm (range 0) = [] := by
    rw [heapsAlgorithm]
    rw [show (range 0).length = 0 from rfl]
    rw [heapsAux]
  exact ⟨h, by rw [h] ; decide, by rw [h] ; exact List.not_mem_nil _,
    List.Perm.refl _⟩

/-- C6: for every `N ≥ 1`, `heapsAlgorithm (range N)` produces exactly
`N!` rows, pairwise distinct, and a row occurs iff it is a permutation of
`[0, ..., N-1]` — so the rows are ALL permutations, each exactly once, as
`compareODE` needs for its constant-correspondence enumeration.  (At
`N = 0` the claim fails: no row is produced instead of `0! = 1`.) -/
theorem heaps_permutations (N : ℕ) (hN : 1 ≤ N) :
    (heapsAlgorithm (range N)).length = N.factorial ∧
    (heapsAlgorithm (range N)).Nodup ∧
    ∀ row, row ∈ heapsAlgorithm (range N) ↔ row.Perm (range N) := by
  have hlen : (range N).length = N := by
    rw [range]
    exact List.length_range N
  have hAl : heapsAlgorithm (range N) = hRows N (range N) := by
    rw [heapsAlgorithm, hRows, hlen]
  have htake : (range N).take N = range N :=
    List.take_of_length_le (by rw [hlen])
  have hdrop : (range N).drop N = [] :=
    List.drop_eq_nil_of_le (by rw [hlen])
  obtain ⟨⟨R1, R3, R4, R5⟩, -⟩ := heaps_main N hN (range N) (by rw [hlen])
  refine ⟨by rw [hAl] ; exact R1, ?_, ?_⟩
  · rw [hAl]
    refine R4 ?_
    rw [htake, range]
    exact List.nodup_range N
  · intro row
    rw [hAl]
    constructor
    · intro hmem
      obtain ⟨hperm, hdr⟩ := R3 row hmem
      rw [htake] at hperm
      have hrow : row = row.take N := by
        conv_lhs => rw [← List.take_append_drop N row]
        rw [hdr, hdrop, List.append_nil]
      rw [hrow]
      exact hperm
    · intro hperm
      have h5 := R5 row (by rw [htake] ; exact hperm)
      rw [hdrop, List.append_nil] at h5
      exact h5

/-- C6 witness: the theorem instantiated at `N = 2`. -/
theorem heaps_permutations_witness :
    (1 ≤ 2) ∧
    ((heapsAlgorithm (range 2)).length = Nat.factorial 2 ∧
      (heapsAlgorithm (range 2)).Nodup ∧
      ∀ row, row ∈ heapsAlgorithm (range 2) ↔ row.Perm (range 2)) :=
  ⟨by decide, heaps_permutations 2 (by decide)⟩
